import Mathlib

/-!
Verification development for the breakout-rooms optimization engine.

The source is embedded shallowly:
* numbers (`happiness`, `stress`, `stress_budget`, temperatures, fitness) are
  modelled as rationals `ℚ`;
* Python dictionaries keyed by the student indices `0..n-1` are modelled
  positionally as `List ℕ` (student `i`'s room is the `i`-th entry);
* the process-wide random generator is modelled as an explicit stream of
  naturals (for the discrete draws) and a stream of rationals (for the
  uniform `random()` draws), threaded in state-passing style;
* code that can raise a Python exception returns in the `Except PyErr` monad.
-/

/-- Python exceptions that the embedded code can raise. -/
inductive PyErr where
  | zeroDivisionError : PyErr
  | nameError : PyErr
  | overflowError : PyErr
  | typeError : PyErr
  deriving DecidableEq, Repr

/-- The process-wide random generator: a stream of naturals driving the
discrete draws (`randint`, `sample`, `choice`) and a stream of rationals
driving the uniform draws (`random()`, weighted `choices`). -/
structure Rng where
  nats : ℕ → ℕ
  qs : ℕ → ℚ

/-- Consume one natural from the generator. -/
def Rng.next (r : Rng) : ℕ × Rng :=
  (r.nats 0, ⟨fun i => r.nats (i + 1), r.qs⟩)

/-- Consume one rational (a uniform `random()` draw) from the generator. -/
def Rng.nextQ (r : Rng) : ℚ × Rng :=
  (r.qs 0, ⟨r.nats, fun i => r.qs (i + 1)⟩)

/-- Monad for the embedded solvers: random-generator threading plus Python
exceptions. -/
abbrev PyM := StateT Rng (Except PyErr)

/-- Model of `random.randint(lo, hi)` (inclusive bounds; call sites always
have `lo ≤ hi`). -/
def randint (lo hi : ℕ) : PyM ℕ := fun r =>
  let (v, r') := r.next
  .ok (lo + v % (hi + 1 - lo), r')

/-- Model of `random.random()`: a uniform draw, abstracted as an arbitrary
rational supplied by the generator. -/
def randFloat : PyM ℚ := fun r =>
  let (v, r') := r.nextQ
  .ok (v, r')

/-- Model of `random.choice(l)` (call sites always pass nonempty lists). -/
def randChoice (l : List ℕ) : PyM ℕ := fun r =>
  let (v, r') := r.next
  .ok (l.getD (v % l.length) 0, r')

/-- One selection-without-replacement step used by `random.sample`. -/
def pickOne (l : List ℕ) : PyM (ℕ × List ℕ) := fun r =>
  let (v, r') := r.next
  let idx := v % l.length
  .ok ((l.getD idx 0, l.take idx ++ l.drop (idx + 1)), r')

/-- Model of `random.sample(l, k)`: `k` distinct elements of `l`, chosen
without replacement in generator-driven order. -/
def sampleList (l : List ℕ) : ℕ → PyM (List ℕ)
  | 0 => pure []
  | k + 1 => do
    let (x, rest) ← pickOne l
    let xs ← sampleList rest k
    pure (x :: xs)

/-- Model of `random.shuffle(l)`: a generator-driven permutation of `l`. -/
def shuffleList (l : List ℕ) : PyM (List ℕ) :=
  sampleList l l.length

/-- The complete weighted graph over students `0..n-1`: a `happiness` and a
`stress` value for every pair.  Symmetry and nonnegativity are stated as
hypotheses of the theorems that need them. -/
structure Graph where
  n : ℕ
  hap : ℕ → ℕ → ℚ
  st : ℕ → ℕ → ℚ

/-- Sum of `w x y` over all (ordered-as-listed) pairs of distinct positions
of `l`; this is how `networkx` sums an edge attribute over the subgraph
induced by the members `l` of a room. -/
def pairSum (w : ℕ → ℕ → ℚ) : List ℕ → ℚ
  | [] => 0
  | x :: xs => (xs.map (fun y => w x y)).sum + pairSum w xs

/-- Source `utils.calculate_stress_for_room`: total pairwise stress of a room. -/
def calculate_stress_for_room (students : List ℕ) (G : Graph) : ℚ :=
  pairSum G.st students

/-- Source `utils.calculate_happiness_for_room`: total pairwise happiness of a
room. -/
def calculate_happiness_for_room (students : List ℕ) (G : Graph) : ℚ :=
  pairSum G.hap students

/-- The distinct values of `l`, in order of first appearance (the iteration
order of a Python dict built by grouping). -/
def distinctFirst (l : List ℕ) : List ℕ :=
  l.foldl (fun acc x => if x ∈ acc then acc else acc ++ [x]) []

/-- Grouping of an assignment into rooms, as built by the repeated
`room_to_students.setdefault(room, []).append(student)` idiom: one entry per
distinct room id in order of first appearance, each with its members in
student-index order. -/
def roomsOf (D : List ℕ) : List (ℕ × List ℕ) :=
  (distinctFirst D).map fun r =>
    (r, (List.range D.length).filter fun i => D.getD i 0 = r)

/-- Number of distinct rooms of an assignment (`len(set(D.values()))`). -/
def countDistinct (D : List ℕ) : ℕ := (distinctFirst D).length

/-- Source `utils.is_valid_solution`.  The Python code computes
`budget_per_room = s / num_rooms` first, so `num_rooms = 0` raises
`ZeroDivisionError` before anything else happens. -/
def is_valid_solution (D : List ℕ) (G : Graph) (s : ℚ) (num_rooms : ℕ) :
    Except PyErr Bool :=
  if num_rooms = 0 then .error .zeroDivisionError
  else
    let budget_per_room := s / (num_rooms : ℚ)
    .ok ((roomsOf D).all fun p =>
      calculate_stress_for_room p.2 G ≤ budget_per_room)

/-- Source `utils.calculate_happiness`: total happiness of an assignment,
summed room by room. -/
def calculate_happiness (D : List ℕ) (G : Graph) : ℚ :=
  ((roomsOf D).map fun p => calculate_happiness_for_room p.2 G).sum

instance {ε α : Type} [DecidableEq ε] [DecidableEq α] : DecidableEq (Except ε α) :=
  fun a b =>
    match a, b with
    | .ok x, .ok y =>
      if h : x = y then isTrue (by rw [h]) else isFalse (by simp [h])
    | .error x, .error y =>
      if h : x = y then isTrue (by rw [h]) else isFalse (by simp [h])
    | .ok _, .error _ => isFalse (by simp)
    | .error _, .ok _ => isFalse (by simp)

/-- An assignment is valid in the canonical sense of the spec: every room's
stress is within `s / k` where `k` is the assignment's own distinct-room
count. -/
def ValidAssignment (D : List ℕ) (G : Graph) (s : ℚ) : Prop :=
  is_valid_solution D G s (countDistinct D) = .ok true

instance (D : List ℕ) (G : Graph) (s : ℚ) : Decidable (ValidAssignment D G s) := by
  unfold ValidAssignment; infer_instance

section EvalScratch
attribute [local semireducible] Rat.add Rat.mul Rat.sub Rat.inv

example : distinctFirst [1, 1, 3, 3] = [1, 3] := by decide
example : roomsOf [0, 0, 1] = [(0, [0, 1]), (1, [2])] := by decide
example : pairSum (fun _ _ => (2 : ℚ)) [5, 7, 9] = 6 := by decide
example :
    is_valid_solution [0, 0] ⟨2, fun _ _ => 0, fun _ _ => 3⟩ 5 1 = .ok true := by
  decide
example :
    is_valid_solution [0, 0] ⟨2, fun _ _ => 0, fun _ _ => 3⟩ 5 2 = .ok false := by
  decide

end EvalScratch

/-! ## Greedy construction (src/algorithms/greedy.py and the annealer's
`greedy_init`) -/

/-- Look a key up in a dict modelled as an insertion-ordered association
list (rooms are only ever looked up at live keys). -/
def dictGet (rooms : List (ℕ × List ℕ)) (r : ℕ) : List ℕ :=
  match rooms.find? (fun p => p.1 == r) with
  | some p => p.2
  | none => []

/-- Overwrite the value at an existing key, preserving dict order. -/
def dictSet (rooms : List (ℕ × List ℕ)) (r : ℕ) (v : List ℕ) :
    List (ℕ × List ℕ) :=
  rooms.map fun p => if p.1 == r then (r, v) else p

/-- Delete a key (`del rooms[room_b]`). -/
def dictErase (rooms : List (ℕ × List ℕ)) (r : ℕ) : List (ℕ × List ℕ) :=
  rooms.filter fun p => p.1 != r

/-- Sum of `w a b` over `a` in `A`, `b` in `B` (the nested
`for student_a in students_a: for student_b in students_b` accumulation). -/
def crossSum (w : ℕ → ℕ → ℚ) (A B : List ℕ) : ℚ :=
  (A.map fun a => (B.map fun b => w a b).sum).sum

/-- Working state of the greedy construction: the `assignment`, `rooms` and
`room_stress` dicts of the source (`room_stress` is modelled as a function
that is meaningful on the live room ids). -/
structure GCState where
  asg : List ℕ
  rooms : List (ℕ × List ℕ)
  roomStress : ℕ → ℚ

/-- The state updates shared by an accepted merge: reassign `students_b`,
extend `rooms[room_a]`, record the combined stress, delete `room_b`.  Both
`greedy.merge_rooms` and the annealer's `greedy_init` perform exactly these
updates. -/
def applyMerge (st : GCState) (room_a room_b : ℕ)
    (students_a students_b : List ℕ) (combined : ℚ) : GCState :=
  { asg := students_b.foldl (fun a s => a.set s room_a) st.asg,
    rooms := dictErase (dictSet st.rooms room_a (students_a ++ students_b)) room_b,
    roomStress := Function.update st.roomStress room_a combined }

/-- A per-room budget that may be `float('inf')` (`none`). -/
def fitsBudget (combined : ℚ) : Option ℚ → Bool
  | none => true
  | some b => combined ≤ b

/-- Source `greedy.merge_rooms` (the closure inside `greedy_construction`):
merge `room_b` into `room_a` if the combined stress fits the given per-room
budget. -/
def merge_rooms (G : Graph) (st : GCState) (room_a room_b : ℕ)
    (budget_per_room : Option ℚ) : Bool × GCState :=
  if room_a = room_b then (false, st)
  else
    let students_a := dictGet st.rooms room_a
    let students_b := dictGet st.rooms room_b
    let combined := st.roomStress room_a + st.roomStress room_b +
      crossSum G.st students_a students_b
    if fitsBudget combined budget_per_room then
      (true, applyMerge st room_a room_b students_a students_b combined)
    else (false, st)

/-- Ratio comparison `happiness/stress ≥ happiness'/stress'` used as the
(descending, stable) sort key of the edge list; a zero-stress edge has ratio
`float('inf')`. -/
def ratioGe (h1 s1 h2 s2 : ℚ) : Bool :=
  if s1 ≤ 0 then true
  else if s2 ≤ 0 then false
  else h2 * s1 ≤ h1 * s2

/-- All unordered pairs `(i, j)`, `i < j`, in the enumeration order of the
source's nested loops. -/
def edgePairs (n : ℕ) : List (ℕ × ℕ) :=
  ((List.range n).map fun i =>
    ((List.range n).drop (i + 1)).map fun j => (i, j)).flatten

/-- Insert into a sorted list, before the first element that need not come
earlier; used to model Python's stable `list.sort`. -/
def insertSorted {α : Type} (le : α → α → Bool) (x : α) : List α → List α
  | [] => [x]
  | y :: ys => if le x y then x :: y :: ys else y :: insertSorted le x ys

/-- Stable insertion sort.  For a total preorder `le` the stable sort is
unique, so this coincides with Python's `list.sort`. -/
def stableSort {α : Type} (le : α → α → Bool) (l : List α) : List α :=
  l.foldr (insertSorted le) []

/-- The edge list of `greedy_construction`/`greedy_init`, sorted by
happiness/stress ratio descending (stable, like Python's `list.sort` with
`reverse=True`). -/
def sortedEdges (G : Graph) (n : ℕ) : List (ℕ × ℕ) :=
  stableSort (fun e f =>
    ratioGe (G.hap e.1 e.2) (G.st e.1 e.2) (G.hap f.1 f.2) (G.st f.1 f.2))
    (edgePairs n)

/-- Initial construction state: every student in their own room. -/
def initGCState (n : ℕ) : GCState :=
  { asg := List.range n,
    rooms := (List.range n).map fun i => (i, [i]),
    roomStress := fun _ => 0 }

/-- One pass of the edge loop of `greedy_construction`.  A state with at
most one room models the loop's `break` (every later edge leaves the state
unchanged). -/
def gcStep (G : Graph) (stress_budget : ℚ) (st : GCState) (e : ℕ × ℕ) :
    GCState :=
  let num_rooms := st.rooms.length
  if num_rooms ≤ 1 then st
  else
    let room_i := st.asg.getD e.1 0
    let room_j := st.asg.getD e.2 0
    if room_i ≠ room_j then
      let potential := num_rooms - 1
      let potential_budget : Option ℚ :=
        if 0 < potential then some (stress_budget / (potential : ℚ)) else none
      (merge_rooms G st room_i room_j potential_budget).2
    else st

/-- Sorted distinct values of a list (`sorted(set(assignment.values()))`). -/
def sortedDistinct (l : List ℕ) : List ℕ :=
  (List.range (l.foldr max 0 + 1)).filter fun r => r ∈ l

/-- Source `greedy.renumber_rooms`: relabel rooms as `0..k-1` in increasing
order of their old ids. -/
def renumber_rooms (asg : List ℕ) : List ℕ × ℕ :=
  let ids := sortedDistinct asg
  (asg.map fun r => ids.indexOf r, ids.length)

/-- Source `greedy.greedy_construction`. -/
def greedy_construction (G : Graph) (stress_budget : ℚ) (num_students : ℕ) :
    List ℕ × ℕ :=
  let final := (sortedEdges G num_students).foldl (gcStep G stress_budget)
    (initGCState num_students)
  renumber_rooms final.asg

/-- Relabel rooms as `0..k-1` in order of first appearance (the
`room_map`/`next_room` idiom of `simulated_annealing.renumber_rooms`,
`greedy_init`, and the genetic solver's renumbering passes). -/
def firstAppearanceRenumber (asg : List ℕ) : List ℕ :=
  let ids := distinctFirst asg
  asg.map fun r => ids.indexOf r

/-- One pass of the edge loop of `simulated_annealing.greedy_init`; the
merge test and updates are inlined in the source but coincide with
`merge_rooms` minus its (always-false there) same-room guard. -/
def giStep (G : Graph) (stress_budget : ℚ) (st : GCState) (e : ℕ × ℕ) :
    GCState :=
  if st.rooms.length ≤ 1 then st
  else
    let room_i := st.asg.getD e.1 0
    let room_j := st.asg.getD e.2 0
    if room_i = room_j then st
    else
      let students_a := dictGet st.rooms room_i
      let students_b := dictGet st.rooms room_j
      let merged_stress := st.roomStress room_i + st.roomStress room_j +
        crossSum G.st students_a students_b
      let potential := st.rooms.length - 1
      let budget_per_room : Option ℚ :=
        if 0 < potential then some (stress_budget / (potential : ℚ)) else none
      if fitsBudget merged_stress budget_per_room then
        applyMerge st room_i room_j students_a students_b merged_stress
      else st

/-- Source `simulated_annealing.greedy_init`. -/
def greedy_init (G : Graph) (stress_budget : ℚ) (num_students : ℕ) : List ℕ :=
  let final := (sortedEdges G num_students).foldl (giStep G stress_budget)
    (initGCState num_students)
  firstAppearanceRenumber final.asg

section EvalScratch2
attribute [local semireducible] Rat.add Rat.mul Rat.sub Rat.inv

example :
    greedy_construction ⟨2, fun _ _ => 10, fun _ _ => 1⟩ 5 2 = ([0, 0], 1) := by
  decide
example :
    greedy_construction ⟨2, fun _ _ => 10, fun _ _ => 50⟩ 1 2 = ([0, 1], 2) := by
  decide
example : greedy_init ⟨2, fun _ _ => 10, fun _ _ => 1⟩ 5 2 = [0, 0] := by decide

end EvalScratch2

/-! ## Lemmas about the evaluator -/

theorem pairSum_append (w : ℕ → ℕ → ℚ) (xs ys : List ℕ) :
    pairSum w (xs ++ ys) = pairSum w xs + pairSum w ys + crossSum w xs ys := by
  induction xs with
  | nil => simp [pairSum, crossSum]
  | cons x xs ih =>
    show (List.map (fun y => w x y) (xs ++ ys)).sum + pairSum w (xs ++ ys) = _
    rw [List.map_append, List.sum_append, ih]
    simp only [crossSum, pairSum, List.map_cons, List.sum_cons]
    ring

theorem distinctFirst_go_map {f : ℕ → ℕ} (hf : Function.Injective f)
    (l acc : List ℕ) :
    (l.map f).foldl (fun acc x => if x ∈ acc then acc else acc ++ [x])
        (acc.map f) =
      (l.foldl (fun acc x => if x ∈ acc then acc else acc ++ [x]) acc).map f := by
  induction l generalizing acc with
  | nil => simp
  | cons x xs ih =>
    simp only [List.map_cons, List.foldl_cons]
    by_cases hx : x ∈ acc
    · rw [if_pos hx, if_pos (List.mem_map_of_mem f hx)]
      exact ih acc
    · have hfx : f x ∉ acc.map f := by
        intro hmem
        rcases List.mem_map.mp hmem with ⟨y, hy, hxy⟩
        exact hx (by rwa [← hf hxy])
      rw [if_neg hx, if_neg hfx]
      have hconc : acc.map f ++ [f x] = (acc ++ [x]).map f := by simp
      rw [hconc]; exact ih (acc ++ [x])

theorem distinctFirst_map {f : ℕ → ℕ} (hf : Function.Injective f) (l : List ℕ) :
    distinctFirst (l.map f) = (distinctFirst l).map f := by
  have := distinctFirst_go_map hf l []
  simpa [distinctFirst] using this

theorem getD_map_of_lt (f : ℕ → ℕ) (l : List ℕ) (i : ℕ) (h : i < l.length) :
    (l.map f).getD i 0 = f (l.getD i 0) := by
  induction l generalizing i with
  | nil => simp at h
  | cons x xs ih =>
    cases i with
    | zero => simp
    | succ i =>
      simp only [List.map_cons, List.getD_cons_succ]
      exact ih i (by simpa using h)

theorem members_map {f : ℕ → ℕ} (hf : Function.Injective f) (l : List ℕ) (r : ℕ) :
    ((List.range (l.map f).length).filter fun i => (l.map f).getD i 0 = f r) =
      (List.range l.length).filter fun i => l.getD i 0 = r := by
  rw [List.length_map]
  apply List.filter_congr
  intro i hi
  have hlt : i < l.length := List.mem_range.mp hi
  simp only [getD_map_of_lt f l i hlt, decide_eq_decide]
  exact ⟨fun h => hf h, fun h => by rw [h]⟩

/-- Total happiness is invariant under an injective renumbering of room ids. -/
theorem calculate_happiness_map {f : ℕ → ℕ} (hf : Function.Injective f)
    (D : List ℕ) (G : Graph) :
    calculate_happiness (D.map f) G = calculate_happiness D G := by
  unfold calculate_happiness roomsOf
  rw [distinctFirst_map hf]
  simp only [List.map_map]
  refine congrArg List.sum (List.map_congr_left ?_)
  intro r hr
  simp only [Function.comp_apply]
  unfold calculate_happiness_for_room
  rw [members_map hf]

/-! ## Claim theorems: C2 and C8 -/

/-- C2: calling `is_valid_solution` with `num_rooms = 0` does not return
`False`; it raises `ZeroDivisionError` (`budget_per_room = s / num_rooms` is
evaluated first).  For `num_rooms = k + 1 ≥ 1` the check returns `True` iff
every room's pairwise stress sum is at most `s / k`. -/
theorem c2_is_valid_zero_rooms_raises :
    (∀ (D : List ℕ) (G : Graph) (s : ℚ),
      is_valid_solution D G s 0 = .error .zeroDivisionError) ∧
    (∀ (D : List ℕ) (G : Graph) (s : ℚ) (k : ℕ),
      (is_valid_solution D G s (k + 1) = .ok true ↔
        ∀ p ∈ roomsOf D, calculate_stress_for_room p.2 G ≤ s / (k + 1 : ℚ))) := by
  constructor
  · intro D G s; rfl
  · intro D G s k
    unfold is_valid_solution
    simp only [Nat.succ_ne_zero, if_false, Except.ok.injEq, List.all_eq_true,
      decide_eq_true_eq]
    push_cast
    exact ⟨fun h p hp => h p hp, fun h p hp => h p hp⟩

/-- C8: `total_happiness` is label-invariant: relabelling every room id by an
injective `f` leaves `calculate_happiness` unchanged. -/
theorem c8_happiness_label_invariant (G : Graph) (D : List ℕ) (f : ℕ → ℕ)
    (hf : Function.Injective f) :
    calculate_happiness (D.map f) G = calculate_happiness D G :=
  calculate_happiness_map hf D G

/-- Witness for C8 at a concrete graph, assignment and injective relabelling. -/
theorem c8_happiness_label_invariant_witness :
    Function.Injective (fun x => x + 5) ∧
      calculate_happiness ([0, 0, 1].map (fun x => x + 5))
          ⟨3, fun i j => (i + j : ℚ), fun _ _ => 1⟩ =
        calculate_happiness [0, 0, 1] ⟨3, fun i j => (i + j : ℚ), fun _ _ => 1⟩ := by
  refine ⟨fun a b h => Nat.add_right_cancel h, ?_⟩
  exact c8_happiness_label_invariant _ [0, 0, 1] _ (fun a b h => Nat.add_right_cancel h)

/-! ## Simulated-annealing acceptance (src/algorithms/simulated_annealing.py,
lines 141-150) -/

/-- The Metropolis acceptance decision of `simulated_annealing`.  `math.exp`
is an external float function, modelled by the oracle `expf`; `none` models
the `OverflowError` that the source catches and turns into rejection.  The
uniform draw is consumed only when the exponential was computed. -/
def acceptance_decision (happiness_delta temperature : ℚ)
    (expf : ℚ → Option ℚ) : PyM Bool :=
  if happiness_delta > 0 then pure true
  else if temperature > 0 then
    match expf (happiness_delta / temperature) with
    | some acceptance_prob => do
      let u ← randFloat
      pure (u < acceptance_prob)
    | none => pure false
  else pure false

/-- C7: a candidate is accepted iff its happiness delta is strictly positive,
or the temperature is strictly positive and the uniform draw is below the
computed `exp(delta / temperature)`; when `delta ≤ 0` and the temperature is
`≤ 0` the candidate is rejected, and an `OverflowError` from the exponential
is treated as rejection. -/
theorem c7_sa_acceptance (happiness_delta temperature : ℚ)
    (expf : ℚ → Option ℚ) (rng : Rng) :
    (acceptance_decision happiness_delta temperature expf rng).map Prod.fst =
      .ok (decide (0 < happiness_delta) ||
        (decide (0 < temperature) &&
          match expf (happiness_delta / temperature) with
          | some acceptance_prob => decide (rng.qs 0 < acceptance_prob)
          | none => false)) := by
  unfold acceptance_decision
  by_cases hd : 0 < happiness_delta
  · simp [hd, pure, StateT.pure, Except.pure, Except.map]
  · by_cases ht : 0 < temperature
    · cases hexp : expf (happiness_delta / temperature) with
      | some p =>
        simp [hd, ht, hexp, randFloat, Rng.nextQ, pure, StateT.pure, Except.pure,
          bind, StateT.bind, Except.bind, Except.map]
      | none =>
        simp [hd, ht, hexp, pure, StateT.pure, Except.pure, Except.map]
    · simp [hd, ht, pure, StateT.pure, Except.pure, Except.map]

/-! ## C6: accepted greedy merges stay within the recomputed budget -/

/-- C6: whenever a merge is accepted during greedy construction — by
`greedy.merge_rooms` with the budget `s / (room_count - 1)` that
`greedy_construction` passes it, or by the identical inline test of the
annealer's `greedy_init` step — the merged room's total pairwise stress is
within that recomputed per-room budget.  The cached `room_stress` values of
the two rooms are assumed to be the true pairwise stress of their member
lists (an invariant of the construction, proved separately). -/
theorem c6_accepted_merge_within_budget (G : Graph) (st : GCState)
    (room_a room_b : ℕ) (s : ℚ) (k : ℕ)
    (hcA : st.roomStress room_a = pairSum G.st (dictGet st.rooms room_a))
    (hcB : st.roomStress room_b = pairSum G.st (dictGet st.rooms room_b)) :
    ((merge_rooms G st room_a room_b (some (s / (k - 1 : ℕ)))).1 = true →
      pairSum G.st (dictGet st.rooms room_a ++ dictGet st.rooms room_b) ≤
        s / ((k - 1 : ℕ) : ℚ)) ∧
    (fitsBudget (st.roomStress room_a + st.roomStress room_b +
        crossSum G.st (dictGet st.rooms room_a) (dictGet st.rooms room_b))
        (some (s / ((k - 1 : ℕ) : ℚ))) = true →
      pairSum G.st (dictGet st.rooms room_a ++ dictGet st.rooms room_b) ≤
        s / ((k - 1 : ℕ) : ℚ)) := by
  have key : fitsBudget (st.roomStress room_a + st.roomStress room_b +
      crossSum G.st (dictGet st.rooms room_a) (dictGet st.rooms room_b))
      (some (s / ((k - 1 : ℕ) : ℚ))) = true →
      pairSum G.st (dictGet st.rooms room_a ++ dictGet st.rooms room_b) ≤
        s / ((k - 1 : ℕ) : ℚ) := by
    intro hfits
    rw [pairSum_append]
    rw [hcA, hcB] at hfits
    simpa [fitsBudget, decide_eq_true_eq] using hfits
  refine ⟨?_, key⟩
  intro hacc
  unfold merge_rooms at hacc
  by_cases hab : room_a = room_b
  · simp [hab] at hacc
  · simp only [hab, if_false] at hacc
    by_cases hfits : fitsBudget (st.roomStress room_a + st.roomStress room_b +
        crossSum G.st (dictGet st.rooms room_a) (dictGet st.rooms room_b))
        (some (s / ((k - 1 : ℕ) : ℚ))) = true
    · exact key hfits
    · rw [if_neg (by simpa using hfits)] at hacc
      simp at hacc

section EvalScratch3
attribute [local semireducible] Rat.add Rat.mul Rat.sub Rat.inv

/-- Witness for C6: the accepted first merge of the two-student scenario
(happiness 10, stress 1, budget 5). -/
theorem c6_accepted_merge_within_budget_witness :
    ((initGCState 2).roomStress 0 =
        pairSum (Graph.st ⟨2, fun _ _ => 10, fun _ _ => 1⟩)
          (dictGet (initGCState 2).rooms 0)) ∧
    ((initGCState 2).roomStress 1 =
        pairSum (Graph.st ⟨2, fun _ _ => 10, fun _ _ => 1⟩)
          (dictGet (initGCState 2).rooms 1)) ∧
    ((merge_rooms ⟨2, fun _ _ => 10, fun _ _ => 1⟩ (initGCState 2) 0 1
        (some ((5 : ℚ) / ((2 - 1 : ℕ) : ℚ)))).1 = true ∧
      pairSum (Graph.st ⟨2, fun _ _ => 10, fun _ _ => 1⟩)
          (dictGet (initGCState 2).rooms 0 ++ dictGet (initGCState 2).rooms 1) ≤
        (5 : ℚ) / ((2 - 1 : ℕ) : ℚ)) := by
  have h1 : (initGCState 2).roomStress 0 =
      pairSum (Graph.st ⟨2, fun _ _ => 10, fun _ _ => 1⟩)
        (dictGet (initGCState 2).rooms 0) := by decide
  have h2 : (initGCState 2).roomStress 1 =
      pairSum (Graph.st ⟨2, fun _ _ => 10, fun _ _ => 1⟩)
        (dictGet (initGCState 2).rooms 1) := by decide
  have hacc : (merge_rooms ⟨2, fun _ _ => 10, fun _ _ => 1⟩ (initGCState 2) 0 1
      (some ((5 : ℚ) / ((2 - 1 : ℕ) : ℚ)))).1 = true := by decide
  exact ⟨h1, h2, hacc,
    (c6_accepted_merge_within_budget _ _ 0 1 5 2 h1 h2).1 hacc⟩

end EvalScratch3

/-! ## Invariant machinery for the greedy construction -/

/-- The indices (students) currently assigned to room `r`; this is exactly
the member list that re-grouping the assignment produces. -/
def idxOf (asg : List ℕ) (r : ℕ) : List ℕ :=
  (List.range asg.length).filter fun i => asg.getD i 0 = r

theorem roomsOf_eq_idxOf (D : List ℕ) :
    roomsOf D = (distinctFirst D).map fun r => (r, idxOf D r) := rfl

theorem mem_distinctFirst_go (l : List ℕ) (acc : List ℕ) (r : ℕ) :
    r ∈ l.foldl (fun acc x => if x ∈ acc then acc else acc ++ [x]) acc ↔
      r ∈ acc ∨ r ∈ l := by
  induction l generalizing acc with
  | nil => simp
  | cons x xs ih =>
    simp only [List.foldl_cons, List.mem_cons]
    by_cases hx : x ∈ acc
    · rw [if_pos hx, ih]
      constructor
      · rintro (h | h)
        · exact Or.inl h
        · exact Or.inr (Or.inr h)
      · rintro (h | h | h)
        · exact Or.inl h
        · exact Or.inl (h ▸ hx)
        · exact Or.inr h
    · rw [if_neg hx, ih]
      simp only [List.mem_append, List.mem_singleton]
      tauto
theorem mem_distinctFirst (l : List ℕ) (r : ℕ) :
    r ∈ distinctFirst l ↔ r ∈ l := by
  unfold distinctFirst
  rw [mem_distinctFirst_go]
  simp

theorem nodup_distinctFirst_go (l : List ℕ) (acc : List ℕ) (hacc : acc.Nodup) :
    (l.foldl (fun acc x => if x ∈ acc then acc else acc ++ [x]) acc).Nodup := by
  induction l generalizing acc with
  | nil => exact hacc
  | cons x xs ih =>
    simp only [List.foldl_cons]
    by_cases hx : x ∈ acc
    · rw [if_pos hx]; exact ih acc hacc
    · rw [if_neg hx]
      refine ih _ ?_
      simp [List.nodup_append, hacc, hx]

theorem nodup_distinctFirst (l : List ℕ) : (distinctFirst l).Nodup :=
  nodup_distinctFirst_go l [] List.nodup_nil

open scoped List in
theorem insertSorted_perm {α : Type} (le : α → α → Bool) (x : α) (l : List α) :
    insertSorted le x l ~ x :: l := by
  induction l with
  | nil => simp [insertSorted]
  | cons y ys ih =>
    unfold insertSorted
    by_cases h : le x y
    · rw [if_pos h]
    · rw [if_neg h]
      calc y :: insertSorted le x ys ~ y :: x :: ys := (ih.cons y)
        _ ~ x :: y :: ys := List.Perm.swap x y ys

open scoped List in
theorem stableSort_perm {α : Type} (le : α → α → Bool) (l : List α) :
    stableSort le l ~ l := by
  induction l with
  | nil => rfl
  | cons x xs ih =>
    calc stableSort le (x :: xs) ~ x :: stableSort le xs :=
          insertSorted_perm le x (List.foldr (insertSorted le) [] xs)
      _ ~ x :: xs := ih.cons x

theorem mem_idxOf (asg : List ℕ) (r m : ℕ) :
    m ∈ idxOf asg r ↔ m < asg.length ∧ asg.getD m 0 = r := by
  unfold idxOf
  simp [List.mem_filter]

theorem nodup_idxOf (asg : List ℕ) (r : ℕ) : (idxOf asg r).Nodup :=
  (List.nodup_range _).filter _

theorem dictGet_mem {rooms : List (ℕ × List ℕ)} {a : ℕ}
    (ha : a ∈ rooms.map Prod.fst) : (a, dictGet rooms a) ∈ rooms := by
  unfold dictGet
  cases hfind : rooms.find? (fun p => p.1 == a) with
  | none =>
    exfalso
    rcases List.mem_map.mp ha with ⟨p, hp, hpa⟩
    have := List.find?_eq_none.mp hfind p hp
    simp [hpa] at this
  | some q =>
    have hq : q ∈ rooms := List.mem_of_find?_eq_some hfind
    have hqa : q.1 = a := by
      have := List.find?_some hfind
      simpa using this
    have : (a, q.2) = q := by
      rw [← hqa]
    rwa [this]

theorem keys_dictSet (rooms : List (ℕ × List ℕ)) (a : ℕ) (v : List ℕ) :
    (dictSet rooms a v).map Prod.fst = rooms.map Prod.fst := by
  unfold dictSet
  rw [List.map_map]
  apply List.map_congr_left
  intro p _
  simp only [Function.comp_apply]
  by_cases h : p.1 = a
  · simp [h]
  · simp [h]

theorem mem_dictSet {rooms : List (ℕ × List ℕ)} {a : ℕ} {v : List ℕ} {p}
    (hp : p ∈ dictSet rooms a v) :
    p = (a, v) ∨ (p ∈ rooms ∧ p.1 ≠ a) := by
  unfold dictSet at hp
  rcases List.mem_map.mp hp with ⟨q, hq, hqp⟩
  by_cases h : q.1 = a
  · left; simp [h] at hqp; exact hqp.symm
  · right
    simp only [h, beq_iff_eq, if_neg h] at hqp
    rw [← hqp]
    exact ⟨hq, h⟩

theorem keys_dictErase (rooms : List (ℕ × List ℕ)) (b : ℕ) :
    (dictErase rooms b).map Prod.fst =
      (rooms.map Prod.fst).filter (fun k => k != b) := by
  unfold dictErase
  induction rooms with
  | nil => rfl
  | cons p ps ih =>
    by_cases h : p.1 = b
    · simp [h, ih]
    · simp [h, ih]

theorem mem_dictErase {rooms : List (ℕ × List ℕ)} {b : ℕ} {p} :
    p ∈ dictErase rooms b ↔ p ∈ rooms ∧ p.1 ≠ b := by
  unfold dictErase
  rw [List.mem_filter]
  simp


open scoped List in
theorem pairSum_perm (w : ℕ → ℕ → ℚ) (hsym : ∀ i j, w i j = w j i)
    {l l' : List ℕ} (h : l ~ l') : pairSum w l = pairSum w l' := by
  induction h with
  | nil => rfl
  | cons x h ih =>
    simp only [pairSum, ih, (h.map (fun y => w x y)).sum_eq]
  | swap x y l =>
    simp only [pairSum, List.map_cons, List.sum_cons]
    rw [hsym y x]
    ring
  | trans h₁ h₂ ih₁ ih₂ => exact ih₁.trans ih₂

theorem length_foldl_set (B : List ℕ) (asg : List ℕ) (a : ℕ) :
    (B.foldl (fun l s => l.set s a) asg).length = asg.length := by
  induction B generalizing asg with
  | nil => rfl
  | cons x xs ih => simp [ih]

theorem getD_set_eq_ite (asg : List ℕ) (x m a : ℕ) :
    (asg.set x a).getD m 0 = if x = m ∧ x < asg.length then a else asg.getD m 0 := by
  rw [List.getD_eq_getElem?_getD, List.getD_eq_getElem?_getD, List.getElem?_set]
  by_cases h : x = m
  · subst h
    by_cases hlt : x < asg.length
    · simp [hlt]
    · simp [hlt, List.getElem?_eq_none (Nat.le_of_not_lt hlt)]
  · simp [h]

theorem getD_foldl_set (B : List ℕ) (asg : List ℕ) (a m : ℕ)
    (hB : ∀ x ∈ B, x < asg.length) :
    (B.foldl (fun l s => l.set s a) asg).getD m 0 =
      if m ∈ B then a else asg.getD m 0 := by
  induction B generalizing asg with
  | nil => simp
  | cons x xs ih =>
    simp only [List.foldl_cons]
    rw [ih (asg.set x a)
      (fun y hy => by rw [List.length_set]; exact hB y (List.mem_cons_of_mem x hy))]
    by_cases hmxs : m ∈ xs
    · simp [hmxs]
    · rw [if_neg hmxs, getD_set_eq_ite]
      by_cases hxm : x = m
      · subst hxm
        rw [if_pos ⟨rfl, hB x (List.mem_cons_self x xs)⟩,
          if_pos (List.mem_cons_self x xs)]
      · rw [if_neg (fun hc => hxm hc.1), if_neg (by simp [hmxs, Ne.symm hxm])]

/-- The invariant maintained by the greedy construction of
`greedy_construction` and `greedy_init`: the `rooms` dict has distinct,
nonempty rooms that partition the assignment, the cached `room_stress` is
the true pairwise stress of each member list, and every room is within the
per-room budget for the current room count. -/
structure GCInv (G : Graph) (s : ℚ) (n : ℕ) (st : GCState) : Prop where
  hlen : st.asg.length = n
  keys_nodup : (st.rooms.map Prod.fst).Nodup
  mem_perm : ∀ p ∈ st.rooms, p.2.Perm (idxOf st.asg p.1)
  values_keys : ∀ m, m < n → st.asg.getD m 0 ∈ st.rooms.map Prod.fst
  rooms_nonempty : ∀ p ∈ st.rooms, p.2 ≠ []
  cache : ∀ p ∈ st.rooms, st.roomStress p.1 = pairSum G.st p.2
  bounded : ∀ p ∈ st.rooms, pairSum G.st p.2 ≤ s / (st.rooms.length : ℚ)

theorem applyMerge_inv {G : Graph} {s : ℚ} {n : ℕ} {st : GCState} {a b : ℕ}
    (hInv : GCInv G s n st) (hs : 0 ≤ s) (hab : a ≠ b)
    (ha : a ∈ st.rooms.map Prod.fst) (hb : b ∈ st.rooms.map Prod.fst)
    (hk : 2 ≤ st.rooms.length)
    (hfit : st.roomStress a + st.roomStress b +
        crossSum G.st (dictGet st.rooms a) (dictGet st.rooms b) ≤
      s / ((st.rooms.length - 1 : ℕ) : ℚ)) :
    GCInv G s n (applyMerge st a b (dictGet st.rooms a) (dictGet st.rooms b)
      (st.roomStress a + st.roomStress b +
        crossSum G.st (dictGet st.rooms a) (dictGet st.rooms b))) ∧
    (applyMerge st a b (dictGet st.rooms a) (dictGet st.rooms b)
      (st.roomStress a + st.roomStress b +
        crossSum G.st (dictGet st.rooms a) (dictGet st.rooms b))).rooms.length =
      st.rooms.length - 1 := by
  set A := dictGet st.rooms a with hA
  set B := dictGet st.rooms b with hBdef
  set combined := st.roomStress a + st.roomStress b + crossSum G.st A B
  have hA_entry : (a, A) ∈ st.rooms := dictGet_mem ha
  have hB_entry : (b, B) ∈ st.rooms := dictGet_mem hb
  have hApm : A.Perm (idxOf st.asg a) := hInv.mem_perm (a, A) hA_entry
  have hBpm : B.Perm (idxOf st.asg b) := hInv.mem_perm (b, B) hB_entry
  have hAmem : ∀ x ∈ A, x < n ∧ st.asg.getD x 0 = a := by
    intro x hx
    have := (mem_idxOf st.asg a x).mp (hApm.mem_iff.mp hx)
    rwa [hInv.hlen] at this
  have hBmem : ∀ x ∈ B, x < n ∧ st.asg.getD x 0 = b := by
    intro x hx
    have := (mem_idxOf st.asg b x).mp (hBpm.mem_iff.mp hx)
    rwa [hInv.hlen] at this
  have hdisj : ∀ x, x ∈ A → x ∈ B → False := by
    intro x hxA hxB
    exact hab (((hAmem x hxA).2.symm).trans (hBmem x hxB).2)
  -- the updated assignment
  set asg' := B.foldl (fun l s => l.set s a) st.asg with hasg'
  have hlen' : asg'.length = n := by rw [hasg', length_foldl_set, hInv.hlen]
  have hgetD : ∀ m, asg'.getD m 0 = if m ∈ B then a else st.asg.getD m 0 := by
    intro m
    exact getD_foldl_set B st.asg a m
      (fun x hx => by rw [hInv.hlen]; exact (hBmem x hx).1)
  -- the updated rooms dict
  set rooms' := dictErase (dictSet st.rooms a (A ++ B)) b with hrooms'
  have hkeys' : rooms'.map Prod.fst =
      (st.rooms.map Prod.fst).filter (fun k => k != b) := by
    rw [hrooms', keys_dictErase, keys_dictSet]
  have hkeys'_nodup : (rooms'.map Prod.fst).Nodup := by
    rw [hkeys']; exact hInv.keys_nodup.filter _
  have ha' : a ∈ rooms'.map Prod.fst := by
    rw [hkeys', List.mem_filter]
    exact ⟨ha, by simpa using hab⟩
  have hlen_rooms' : rooms'.length = st.rooms.length - 1 := by
    have h1 : rooms'.length = (rooms'.map Prod.fst).length :=
      (List.length_map _ _).symm
    have h2 : (st.rooms.map Prod.fst).filter (fun k => k != b) =
        (st.rooms.map Prod.fst).erase b :=
      (hInv.keys_nodup.erase_eq_filter b).symm
    rw [h1, hkeys', h2, List.length_erase_of_mem hb, List.length_map]
  have hmem' : ∀ p ∈ rooms', p = (a, A ++ B) ∨
      (p ∈ st.rooms ∧ p.1 ≠ a ∧ p.1 ≠ b) := by
    intro p hp
    have h1 := mem_dictErase.mp hp
    rcases mem_dictSet h1.1 with h2 | h2
    · exact Or.inl h2
    · exact Or.inr ⟨h2.1, h2.2, h1.2⟩
  -- membership of the merged room
  have hmerged_mem : ∀ m, m ∈ idxOf asg' a ↔ m ∈ A ++ B := by
    intro m
    rw [mem_idxOf, hlen', hgetD m, List.mem_append]
    constructor
    · rintro ⟨hm, hval⟩
      by_cases hmB : m ∈ B
      · exact Or.inr hmB
      · rw [if_neg hmB] at hval
        exact Or.inl (hApm.mem_iff.mpr ((mem_idxOf st.asg a m).mpr
          ⟨by rwa [hInv.hlen], hval⟩))
    · rintro (hmA | hmB)
      · rcases hAmem m hmA with ⟨hm, hval⟩
        refine ⟨hm, ?_⟩
        rw [if_neg (fun hmB => hdisj m hmA hmB)]
        exact hval
      · exact ⟨(hBmem m hmB).1, by rw [if_pos hmB]⟩
  have hmerged_nodup : (A ++ B).Nodup := by
    rw [List.nodup_append]
    exact ⟨hApm.symm.nodup (nodup_idxOf _ _), hBpm.symm.nodup (nodup_idxOf _ _),
      fun x hx hx' => hdisj x hx hx'⟩
  have hmerged_perm : (A ++ B).Perm (idxOf asg' a) :=
    (List.perm_ext_iff_of_nodup hmerged_nodup (nodup_idxOf _ _)).mpr
      (fun m => (hmerged_mem m).symm)
  -- rooms other than a and b keep their member lists
  have hother_idx : ∀ r, r ≠ a → r ≠ b → idxOf asg' r = idxOf st.asg r := by
    intro r hra hrb
    unfold idxOf
    rw [hlen', hInv.hlen]
    apply List.filter_congr
    intro m hm
    rw [hgetD m]
    by_cases hmB : m ∈ B
    · have h1 : st.asg.getD m 0 = b := (hBmem m hmB).2
      rw [if_pos hmB, h1]
      simp [Ne.symm hra, Ne.symm hrb]
    · rw [if_neg hmB]
  have happly_asg : (applyMerge st a b A B combined).asg = asg' := rfl
  have happly_rooms : (applyMerge st a b A B combined).rooms = rooms' := rfl
  have happly_stress : (applyMerge st a b A B combined).roomStress =
      Function.update st.roomStress a combined := rfl
  constructor
  · constructor
    · rw [happly_asg]; exact hlen'
    · rw [happly_rooms]; exact hkeys'_nodup
    · intro p hp
      rw [happly_rooms] at hp
      rw [happly_asg]
      rcases hmem' p hp with h | ⟨hmem, hpa, hpb⟩
      · rw [h]
        exact hmerged_perm
      · rw [hother_idx p.1 hpa hpb]
        exact hInv.mem_perm p hmem
    · intro m hm
      rw [happly_asg, happly_rooms]
      rw [hgetD m, hkeys']
      by_cases hmB : m ∈ B
      · rw [if_pos hmB, List.mem_filter]
        exact ⟨ha, by simpa using hab⟩
      · rw [if_neg hmB, List.mem_filter]
        refine ⟨hInv.values_keys m hm, ?_⟩
        have : st.asg.getD m 0 ≠ b := by
          intro hc
          exact hmB (hBpm.mem_iff.mpr ((mem_idxOf st.asg b m).mpr
            ⟨by rwa [hInv.hlen], hc⟩))
        simpa using this
    · intro p hp
      rw [happly_rooms] at hp
      rcases hmem' p hp with h | ⟨hmem, _, _⟩
      · rw [h]
        have : A ≠ [] := hInv.rooms_nonempty (a, A) hA_entry
        simp [this]
      · exact hInv.rooms_nonempty p hmem
    · intro p hp
      rw [happly_rooms] at hp
      rw [happly_stress]
      rcases hmem' p hp with h | ⟨hmem, hpa, _⟩
      · rw [h]
        show Function.update st.roomStress a combined a = pairSum G.st (A ++ B)
        rw [Function.update_same, pairSum_append]
        simp only [combined, hInv.cache (a, A) hA_entry, hInv.cache (b, B) hB_entry]
      · rw [Function.update_noteq hpa]
        exact hInv.cache p hmem
    · intro p hp
      rw [happly_rooms] at hp
      rw [happly_rooms, hlen_rooms']
      rcases hmem' p hp with h | ⟨hmem, _, _⟩
      · rw [h]
        show pairSum G.st (A ++ B) ≤ _
        rw [pairSum_append]
        calc pairSum G.st A + pairSum G.st B + crossSum G.st A B =
            st.roomStress a + st.roomStress b + crossSum G.st A B := by
              rw [hInv.cache (a, A) hA_entry, hInv.cache (b, B) hB_entry]
          _ ≤ s / ((st.rooms.length - 1 : ℕ) : ℚ) := hfit
      · have hold := hInv.bounded p hmem
        have hk1 : (0 : ℚ) < ((st.rooms.length - 1 : ℕ) : ℚ) := by
          have h2 : 1 ≤ st.rooms.length - 1 := by omega
          exact_mod_cast Nat.lt_of_lt_of_le Nat.zero_lt_one h2
        have hk2 : ((st.rooms.length - 1 : ℕ) : ℚ) ≤ (st.rooms.length : ℚ) := by
          exact_mod_cast Nat.sub_le _ _
        exact hold.trans (div_le_div_of_nonneg_left hs hk1 hk2)
  · rw [happly_rooms]; exact hlen_rooms'

theorem fitsBudget_some {c b : ℚ} (h : fitsBudget c (some b) = true) : c ≤ b := by
  simpa [fitsBudget] using h

theorem gcStep_inv {G : Graph} {s : ℚ} {n : ℕ} {st : GCState}
    (hInv : GCInv G s n st) (hs : 0 ≤ s) (e : ℕ × ℕ)
    (he1 : e.1 < n) (he2 : e.2 < n) : GCInv G s n (gcStep G s st e) := by
  unfold gcStep
  by_cases hk : st.rooms.length ≤ 1
  · rw [if_pos hk]; exact hInv
  · rw [if_neg hk]
    have hk2 : 2 ≤ st.rooms.length := by omega
    set ri := st.asg.getD e.1 0 with hri
    set rj := st.asg.getD e.2 0 with hrj
    by_cases hne : ri ≠ rj
    · rw [if_pos hne]
      have hpot : 0 < st.rooms.length - 1 := by omega
      show GCInv G s n (merge_rooms G st ri rj
        (if 0 < st.rooms.length - 1 then
          some (s / ((st.rooms.length - 1 : ℕ) : ℚ)) else none)).2
      rw [if_pos hpot]
      unfold merge_rooms
      rw [if_neg hne]
      by_cases hfits : fitsBudget (st.roomStress ri + st.roomStress rj +
          crossSum G.st (dictGet st.rooms ri) (dictGet st.rooms rj))
          (some (s / ((st.rooms.length - 1 : ℕ) : ℚ))) = true
      · rw [if_pos hfits]
        exact (applyMerge_inv hInv hs hne (hInv.values_keys e.1 he1)
          (hInv.values_keys e.2 he2) hk2 (fitsBudget_some hfits)).1
      · rw [if_neg hfits]; exact hInv
    · rw [if_neg hne]; exact hInv

theorem giStep_inv {G : Graph} {s : ℚ} {n : ℕ} {st : GCState}
    (hInv : GCInv G s n st) (hs : 0 ≤ s) (e : ℕ × ℕ)
    (he1 : e.1 < n) (he2 : e.2 < n) : GCInv G s n (giStep G s st e) := by
  unfold giStep
  by_cases hk : st.rooms.length ≤ 1
  · rw [if_pos hk]; exact hInv
  · rw [if_neg hk]
    have hk2 : 2 ≤ st.rooms.length := by omega
    set ri := st.asg.getD e.1 0 with hri
    set rj := st.asg.getD e.2 0 with hrj
    by_cases heq : ri = rj
    · rw [if_pos heq]; exact hInv
    · rw [if_neg heq]
      have hpot : 0 < st.rooms.length - 1 := by omega
      show GCInv G s n
        (if fitsBudget (st.roomStress ri + st.roomStress rj +
            crossSum G.st (dictGet st.rooms ri) (dictGet st.rooms rj))
            (if 0 < st.rooms.length - 1 then
              some (s / ((st.rooms.length - 1 : ℕ) : ℚ)) else none) = true then
          applyMerge st ri rj (dictGet st.rooms ri) (dictGet st.rooms rj)
            (st.roomStress ri + st.roomStress rj +
              crossSum G.st (dictGet st.rooms ri) (dictGet st.rooms rj))
        else st)
      rw [if_pos hpot]
      by_cases hfits : fitsBudget (st.roomStress ri + st.roomStress rj +
          crossSum G.st (dictGet st.rooms ri) (dictGet st.rooms rj))
          (some (s / ((st.rooms.length - 1 : ℕ) : ℚ))) = true
      · rw [if_pos hfits]
        exact (applyMerge_inv hInv hs heq (hInv.values_keys e.1 he1)
          (hInv.values_keys e.2 he2) hk2 (fitsBudget_some hfits)).1
      · rw [if_neg hfits]; exact hInv

theorem foldl_gcStep_inv {G : Graph} {s : ℚ} {n : ℕ} {st : GCState}
    (hInv : GCInv G s n st) (hs : 0 ≤ s) (edges : List (ℕ × ℕ))
    (hed : ∀ e ∈ edges, e.1 < n ∧ e.2 < n) :
    GCInv G s n (edges.foldl (gcStep G s) st) := by
  induction edges generalizing st with
  | nil => exact hInv
  | cons e es ih =>
    simp only [List.foldl_cons]
    exact ih (gcStep_inv hInv hs e (hed e (List.mem_cons_self e es)).1
      (hed e (List.mem_cons_self e es)).2)
      (fun f hf => hed f (List.mem_cons_of_mem e hf))

theorem foldl_giStep_inv {G : Graph} {s : ℚ} {n : ℕ} {st : GCState}
    (hInv : GCInv G s n st) (hs : 0 ≤ s) (edges : List (ℕ × ℕ))
    (hed : ∀ e ∈ edges, e.1 < n ∧ e.2 < n) :
    GCInv G s n (edges.foldl (giStep G s) st) := by
  induction edges generalizing st with
  | nil => exact hInv
  | cons e es ih =>
    simp only [List.foldl_cons]
    exact ih (giStep_inv hInv hs e (hed e (List.mem_cons_self e es)).1
      (hed e (List.mem_cons_self e es)).2)
      (fun f hf => hed f (List.mem_cons_of_mem e hf))

theorem mem_edgePairs {n : ℕ} {e : ℕ × ℕ} (he : e ∈ edgePairs n) :
    e.1 < n ∧ e.2 < n := by
  unfold edgePairs at he
  rcases List.mem_flatten.mp he with ⟨l, hl, hel⟩
  rcases List.mem_map.mp hl with ⟨i, hi, hli⟩
  subst hli
  rcases List.mem_map.mp hel with ⟨j, hj, hej⟩
  subst hej
  have hi' : i < n := List.mem_range.mp hi
  have hj' : j ∈ List.range n := List.drop_subset _ _ hj
  exact ⟨hi', List.mem_range.mp hj'⟩

theorem mem_sortedEdges {G : Graph} {n : ℕ} {e : ℕ × ℕ}
    (he : e ∈ sortedEdges G n) : e.1 < n ∧ e.2 < n :=
  mem_edgePairs ((stableSort_perm _ _).mem_iff.mp he)

theorem pairSum_singleton (w : ℕ → ℕ → ℚ) (x : ℕ) : pairSum w [x] = 0 := by
  simp [pairSum]

theorem initGCState_inv (G : Graph) (s : ℚ) (n : ℕ) (hs : 0 ≤ s) :
    GCInv G s n (initGCState n) := by
  have hkeys : (initGCState n).rooms.map Prod.fst = List.range n := by
    unfold initGCState
    simp [List.map_map, Function.comp_def]
  have hmem : ∀ p ∈ (initGCState n).rooms, ∃ i, i < n ∧ p = (i, [i]) := by
    intro p hp
    unfold initGCState at hp
    rcases List.mem_map.mp hp with ⟨i, hi, hpi⟩
    exact ⟨i, List.mem_range.mp hi, hpi.symm⟩
  have hgetD : ∀ m, m < n → (initGCState n).asg.getD m 0 = m := by
    intro m hm
    show (List.range n).getD m 0 = m
    rw [List.getD_eq_getElem?_getD, List.getElem?_range hm]
    rfl
  have hidx : ∀ i, i < n → idxOf (initGCState n).asg i = [i] := by
    intro i hi
    unfold idxOf
    have hlen : (initGCState n).asg.length = n := by
      show (List.range n).length = n
      exact List.length_range n
    rw [hlen]
    have hcongr : List.filter (fun m => decide ((initGCState n).asg.getD m 0 = i))
        (List.range n) = List.filter (fun m => decide (m = i)) (List.range n) := by
      apply List.filter_congr
      intro m hm
      rw [hgetD m (List.mem_range.mp hm)]
    rw [hcongr]
    have : ∀ l : List ℕ, l.Nodup → i ∈ l →
        List.filter (fun m => decide (m = i)) l = [i] := by
      intro l hnd hil
      induction l with
      | nil => simp at hil
      | cons x xs ih =>
        rcases List.mem_cons.mp hil with h | h
        · subst h
          rw [List.filter_cons_of_pos (by simp)]
          have hxnot : i ∉ xs := (List.nodup_cons.mp hnd).1
          have hnil : List.filter (fun m => decide (m = i)) xs = [] := by
            rw [List.filter_eq_nil_iff]
            intro m hm
            simp only [decide_eq_true_eq]
            intro hc; exact hxnot (hc ▸ hm)
          rw [hnil]
        · have hx : x ≠ i := by
            intro hc; subst hc
            exact (List.nodup_cons.mp hnd).1 h
          rw [List.filter_cons_of_neg (by simp [hx])]
          exact ih (List.nodup_cons.mp hnd).2 h
    exact this (List.range n) (List.nodup_range n) (List.mem_range.mpr hi)
  constructor
  · exact List.length_range n
  · rw [hkeys]; exact List.nodup_range n
  · intro p hp
    rcases hmem p hp with ⟨i, hi, rfl⟩
    rw [hidx i hi]
  · intro m hm
    rw [hkeys, hgetD m hm]
    exact List.mem_range.mpr hm
  · intro p hp
    rcases hmem p hp with ⟨i, _, rfl⟩
    simp
  · intro p hp
    rcases hmem p hp with ⟨i, _, rfl⟩
    show (0 : ℚ) = pairSum G.st [i]
    rw [pairSum_singleton]
  · intro p hp
    rcases hmem p hp with ⟨i, _, rfl⟩
    show pairSum G.st [i] ≤ _
    rw [pairSum_singleton]
    exact div_nonneg hs (by positivity)

theorem getD_mem_of_lt (l : List ℕ) (m : ℕ) (h : m < l.length) :
    l.getD m 0 ∈ l := by
  rw [List.getD_eq_getElem?_getD, List.getElem?_eq_getElem h]
  exact List.getElem_mem h

theorem mem_iff_getD (l : List ℕ) (r : ℕ) :
    r ∈ l ↔ ∃ m, m < l.length ∧ l.getD m 0 = r := by
  constructor
  · intro hr
    rcases List.mem_iff_getElem.mp hr with ⟨m, hm, he⟩
    refine ⟨m, hm, ?_⟩
    rw [List.getD_eq_getElem?_getD, List.getElem?_eq_getElem hm]
    exact he
  · rintro ⟨m, hm, he⟩
    exact he ▸ getD_mem_of_lt l m hm

theorem distinctFirst_go_map_injOn {f : ℕ → ℕ} {S : List ℕ}
    (hinj : ∀ x ∈ S, ∀ y ∈ S, f x = f y → x = y) (l acc : List ℕ)
    (hl : ∀ x ∈ l, x ∈ S) (hacc : ∀ x ∈ acc, x ∈ S) :
    (l.map f).foldl (fun acc x => if x ∈ acc then acc else acc ++ [x])
        (acc.map f) =
      (l.foldl (fun acc x => if x ∈ acc then acc else acc ++ [x]) acc).map f := by
  induction l generalizing acc with
  | nil => simp
  | cons x xs ih =>
    simp only [List.map_cons, List.foldl_cons]
    have hxS : x ∈ S := hl x (List.mem_cons_self x xs)
    by_cases hx : x ∈ acc
    · rw [if_pos hx, if_pos (List.mem_map_of_mem f hx)]
      exact ih acc (fun y hy => hl y (List.mem_cons_of_mem x hy)) hacc
    · have hfx : f x ∉ acc.map f := by
        intro hmem
        rcases List.mem_map.mp hmem with ⟨y, hy, hxy⟩
        exact hx (hinj y (hacc y hy) x hxS hxy ▸ hy)
      rw [if_neg hx, if_neg hfx]
      have hconc : acc.map f ++ [f x] = (acc ++ [x]).map f := by simp
      rw [hconc]
      refine ih (acc ++ [x]) (fun y hy => hl y (List.mem_cons_of_mem x hy)) ?_
      intro y hy
      rcases List.mem_append.mp hy with h | h
      · exact hacc y h
      · rw [List.mem_singleton.mp h]; exact hxS

theorem distinctFirst_map_injOn {f : ℕ → ℕ} {l : List ℕ}
    (hinj : ∀ x ∈ l, ∀ y ∈ l, f x = f y → x = y) :
    distinctFirst (l.map f) = (distinctFirst l).map f := by
  have := distinctFirst_go_map_injOn hinj l [] (fun x hx => hx) (by simp)
  simpa [distinctFirst] using this

theorem idxOf_map_injOn {f : ℕ → ℕ} {l : List ℕ} {r : ℕ} (hr : r ∈ l)
    (hinj : ∀ x ∈ l, ∀ y ∈ l, f x = f y → x = y) :
    idxOf (l.map f) (f r) = idxOf l r := by
  unfold idxOf
  rw [List.length_map]
  apply List.filter_congr
  intro m hm
  have hlt : m < l.length := List.mem_range.mp hm
  rw [getD_map_of_lt f l m hlt]
  simp only [decide_eq_decide]
  constructor
  · intro h
    exact hinj (l.getD m 0) (getD_mem_of_lt l m hlt) r hr h
  · intro h; rw [h]

theorem countDistinct_map_injOn {f : ℕ → ℕ} {l : List ℕ}
    (hinj : ∀ x ∈ l, ∀ y ∈ l, f x = f y → x = y) :
    countDistinct (l.map f) = countDistinct l := by
  unfold countDistinct
  rw [distinctFirst_map_injOn hinj, List.length_map]

open scoped List in
theorem countDistinct_eq_rooms_length {G : Graph} {s : ℚ} {n : ℕ} {st : GCState}
    (hInv : GCInv G s n st) : countDistinct st.asg = st.rooms.length := by
  have hperm : (distinctFirst st.asg) ~ (st.rooms.map Prod.fst) := by
    refine (List.perm_ext_iff_of_nodup (nodup_distinctFirst _)
      hInv.keys_nodup).mpr ?_
    intro r
    rw [mem_distinctFirst, mem_iff_getD]
    constructor
    · rintro ⟨m, hm, he⟩
      rw [hInv.hlen] at hm
      exact he ▸ hInv.values_keys m hm
    · intro hr
      have hentry := dictGet_mem hr
      have hne := hInv.rooms_nonempty _ hentry
      have hpm := hInv.mem_perm _ hentry
      rcases List.exists_mem_of_ne_nil _ hne with ⟨x, hx⟩
      have hxi := (mem_idxOf st.asg r x).mp (hpm.mem_iff.mp hx)
      exact ⟨x, hxi.1, hxi.2⟩
  have := hperm.length_eq
  rw [List.length_map] at this
  exact this

open scoped List in
theorem valid_of_GCInv {G : Graph} {s : ℚ} {n : ℕ} {st : GCState}
    (hInv : GCInv G s n st) (hn : 1 ≤ n)
    (hsym : ∀ i j, G.st i j = G.st j i)
    (f : ℕ → ℕ) (hinj : ∀ x ∈ st.asg, ∀ y ∈ st.asg, f x = f y → x = y) :
    is_valid_solution (st.asg.map f) G s (countDistinct (st.asg.map f)) =
      .ok true ∧
    countDistinct (st.asg.map f) = st.rooms.length := by
  have hcd : countDistinct (st.asg.map f) = st.rooms.length := by
    rw [countDistinct_map_injOn hinj, countDistinct_eq_rooms_length hInv]
  refine ⟨?_, hcd⟩
  have hk0 : countDistinct (st.asg.map f) ≠ 0 := by
    rw [countDistinct_map_injOn hinj]
    unfold countDistinct
    intro hc
    have : st.asg ≠ [] := by
      intro hnil
      have hl0 : st.asg.length = 0 := by rw [hnil]; rfl
      rw [hInv.hlen] at hl0
      omega
    rcases List.exists_mem_of_ne_nil _ this with ⟨x, hx⟩
    have : x ∈ distinctFirst st.asg := (mem_distinctFirst _ _).mpr hx
    rw [List.length_eq_zero.mp hc] at this
    simp at this
  unfold is_valid_solution
  rw [if_neg hk0]
  show Except.ok ((roomsOf (st.asg.map f)).all fun p =>
      decide (calculate_stress_for_room p.2 G ≤
        s / ((countDistinct (st.asg.map f) : ℕ) : ℚ))) = Except.ok true
  congr 1
  rw [List.all_eq_true]
  intro p hp
  rw [roomsOf_eq_idxOf] at hp
  rw [distinctFirst_map_injOn hinj] at hp
  rcases List.mem_map.mp hp with ⟨r', hr', hpr⟩
  rcases List.mem_map.mp hr' with ⟨r, hr, hfr⟩
  subst hfr
  subst hpr
  have hrasg : r ∈ st.asg := (mem_distinctFirst _ _).mp hr
  have hrkeys : r ∈ st.rooms.map Prod.fst := by
    rcases (mem_iff_getD _ _).mp hrasg with ⟨m, hm, he⟩
    rw [hInv.hlen] at hm
    exact he ▸ hInv.values_keys m hm
  have hentry := dictGet_mem hrkeys
  have hpm := hInv.mem_perm _ hentry
  have hbound := hInv.bounded _ hentry
  simp only at hpm hbound
  have hstress : calculate_stress_for_room (idxOf (st.asg.map f) (f r)) G =
      pairSum G.st (dictGet st.rooms r) := by
    unfold calculate_stress_for_room
    rw [idxOf_map_injOn hrasg hinj]
    exact (pairSum_perm G.st hsym hpm).symm
  rw [decide_eq_true_eq, hstress, hcd]
  exact hbound

theorem le_foldr_max (l : List ℕ) : ∀ r ∈ l, r ≤ l.foldr max 0 := by
  induction l with
  | nil => intro r hr; simp at hr
  | cons x xs ih =>
    intro r hr
    rcases List.mem_cons.mp hr with h | h
    · subst h; exact le_max_left _ _
    · exact (ih r h).trans (le_max_right _ _)

theorem mem_sortedDistinct (l : List ℕ) (r : ℕ) :
    r ∈ sortedDistinct l ↔ r ∈ l := by
  unfold sortedDistinct
  rw [List.mem_filter]
  constructor
  · intro h; simpa using h.2
  · intro h
    refine ⟨List.mem_range.mpr ?_, by simpa using h⟩
    exact Nat.lt_succ_of_le (le_foldr_max l r h)

theorem nodup_sortedDistinct (l : List ℕ) : (sortedDistinct l).Nodup :=
  (List.nodup_range _).filter _

open scoped List in
theorem sortedDistinct_length (l : List ℕ) :
    (sortedDistinct l).length = countDistinct l := by
  have hperm : sortedDistinct l ~ distinctFirst l := by
    refine (List.perm_ext_iff_of_nodup (nodup_sortedDistinct l)
      (nodup_distinctFirst l)).mpr ?_
    intro r
    rw [mem_sortedDistinct, mem_distinctFirst]
  exact hperm.length_eq

/-- C9: for every symmetric graph with nonnegative stress weights and every
positive stress budget, the assignments produced by the greedy construction
phase — `greedy_construction` of the greedy solver and `greedy_init` of the
annealer — are valid: every room's stress is within the budget divided by
the room count. -/
theorem c9_greedy_construction_valid (G : Graph) (s : ℚ)
    (hstn : ∀ i j, 0 ≤ G.st i j) (hsym : ∀ i j, G.st i j = G.st j i)
    (hs : 0 < s) (hn : 1 ≤ G.n) :
    (is_valid_solution (greedy_construction G s G.n).1 G s
        (greedy_construction G s G.n).2 = .ok true) ∧
    (is_valid_solution (greedy_init G s G.n) G s
        (countDistinct (greedy_init G s G.n)) = .ok true) := by
  constructor
  · have hInv : GCInv G s G.n
        ((sortedEdges G G.n).foldl (gcStep G s) (initGCState G.n)) :=
      foldl_gcStep_inv (initGCState_inv G s G.n hs.le) hs.le _
        (fun e he => mem_sortedEdges he)
    set stF := (sortedEdges G G.n).foldl (gcStep G s) (initGCState G.n)
    set f : ℕ → ℕ := fun r => (sortedDistinct stF.asg).indexOf r with hf
    have hinj : ∀ x ∈ stF.asg, ∀ y ∈ stF.asg, f x = f y → x = y := by
      intro x hx y hy hxy
      exact (List.indexOf_inj ((mem_sortedDistinct _ _).mpr hx)
        ((mem_sortedDistinct _ _).mpr hy)).mp hxy
    have hmain := valid_of_GCInv hInv hn hsym f hinj
    have hres : greedy_construction G s G.n =
        (stF.asg.map f, (sortedDistinct stF.asg).length) := rfl
    rw [hres]
    have hcnt : (sortedDistinct stF.asg).length = countDistinct (stF.asg.map f) := by
      rw [sortedDistinct_length, countDistinct_map_injOn hinj]
    rw [hcnt]
    exact hmain.1
  · have hInv : GCInv G s G.n
        ((sortedEdges G G.n).foldl (giStep G s) (initGCState G.n)) :=
      foldl_giStep_inv (initGCState_inv G s G.n hs.le) hs.le _
        (fun e he => mem_sortedEdges he)
    set stG := (sortedEdges G G.n).foldl (giStep G s) (initGCState G.n)
    set f : ℕ → ℕ := fun r => (distinctFirst stG.asg).indexOf r with hf
    have hinj : ∀ x ∈ stG.asg, ∀ y ∈ stG.asg, f x = f y → x = y := by
      intro x hx y hy hxy
      exact (List.indexOf_inj ((mem_distinctFirst _ _).mpr hx)
        ((mem_distinctFirst _ _).mpr hy)).mp hxy
    have hmain := valid_of_GCInv hInv hn hsym f hinj
    have hres : greedy_init G s G.n = stG.asg.map f := rfl
    rw [hres]
    exact hmain.1

section EvalScratch4
attribute [local semireducible] Rat.add Rat.mul Rat.sub Rat.inv

/-- Witness for C9: the two-student scenario (happiness 10, stress 1,
budget 5). -/
theorem c9_greedy_construction_valid_witness :
    (∀ i j, (0 : ℚ) ≤ (Graph.st ⟨2, fun _ _ => 10, fun _ _ => 1⟩) i j) ∧
    (∀ i j, (Graph.st ⟨2, fun _ _ => 10, fun _ _ => 1⟩) i j =
      (Graph.st ⟨2, fun _ _ => 10, fun _ _ => 1⟩) j i) ∧
    (0 : ℚ) < 5 ∧ 1 ≤ Graph.n ⟨2, fun _ _ => 10, fun _ _ => 1⟩ ∧
    (is_valid_solution
        (greedy_construction ⟨2, fun _ _ => 10, fun _ _ => 1⟩ 5
          (Graph.n ⟨2, fun _ _ => 10, fun _ _ => 1⟩)).1
        ⟨2, fun _ _ => 10, fun _ _ => 1⟩ 5
        (greedy_construction ⟨2, fun _ _ => 10, fun _ _ => 1⟩ 5
          (Graph.n ⟨2, fun _ _ => 10, fun _ _ => 1⟩)).2 = .ok true ∧
      is_valid_solution
        (greedy_init ⟨2, fun _ _ => 10, fun _ _ => 1⟩ 5
          (Graph.n ⟨2, fun _ _ => 10, fun _ _ => 1⟩))
        ⟨2, fun _ _ => 10, fun _ _ => 1⟩ 5
        (countDistinct (greedy_init ⟨2, fun _ _ => 10, fun _ _ => 1⟩ 5
          (Graph.n ⟨2, fun _ _ => 10, fun _ _ => 1⟩))) = .ok true) :=
  ⟨fun _ _ => by norm_num, fun _ _ => rfl, by norm_num, by decide,
    c9_greedy_construction_valid ⟨2, fun _ _ => 10, fun _ _ => 1⟩ 5
      (fun _ _ => by norm_num) (fun _ _ => rfl) (by norm_num) (by decide)⟩

end EvalScratch4

/-! ## Genetic algorithm (src/algorithms/genetic.py) -/

/-- Lift a pure `Except` computation into the generator-threading monad. -/
def liftE {α : Type} (e : Except PyErr α) : PyM α := fun rng =>
  match e with
  | .ok a => .ok (a, rng)
  | .error err => .error err

/-- Draw one raw natural from the generator. -/
def nextNat : PyM ℕ := fun r =>
  let (v, r') := r.next
  .ok (v, r')

/-- A chromosome is a positional room-id vector; `chromosome_to_dict` turns
it into the student-keyed dict, which the positional embedding represents by
the same list. -/
def chromosome_to_dict (chromosome : List ℕ) : List ℕ := chromosome

/-- Python's `max(l, key=key)`: the first element with maximal key.  The
empty case raises in Python; call sites always pass nonempty lists. -/
def maxByKey (key : ℕ → ℚ) : List ℕ → ℕ
  | [] => 0
  | x :: xs => xs.foldl (fun acc i => if key acc < key i then i else acc) x

/-- All ordered pairs of distinct elements of `l` (`for i, a in enumerate(l):
for b in l[i+1:]`). -/
def listPairs (l : List ℕ) : List (ℕ × ℕ) :=
  ((List.range l.length).map fun i =>
    (l.drop (i + 1)).map fun b => (l.getD i 0, b)).flatten

/-- The best-merge scan of `create_greedy_chromosome`: over all pairs of
active rooms, the feasible merge with the highest happiness gain (strictly
better than the best so far, so the first maximum wins). -/
def scan_best_merge (G : Graph) (stress_budget : ℚ) (chromosome : List ℕ)
    (active_rooms : List ℕ) : Option (ℚ × ℕ × ℕ) :=
  (listPairs active_rooms).foldl (fun best ab =>
    let students_a := (List.range chromosome.length).filter
      fun j => chromosome.getD j 0 = ab.1
    let students_b := (List.range chromosome.length).filter
      fun j => chromosome.getD j 0 = ab.2
    let merged_stress := calculate_stress_for_room (students_a ++ students_b) G
    let potential_rooms := active_rooms.length - 1
    if 0 < potential_rooms then
      if merged_stress ≤ stress_budget / (potential_rooms : ℚ) then
        let happiness_gain := crossSum G.hap students_a students_b
        if (match best with
            | none => true
            | some b => b.1 < happiness_gain) then
          some (happiness_gain, ab.1, ab.2)
        else best
      else best
    else best) none

/-- Source `genetic.create_greedy_chromosome`.  The merge-application code
reads the undefined name `n` (`for i in range(n)`), so the first loop
iteration either finds no feasible merge and breaks, or raises `NameError`;
the chromosome is never modified before that, hence only the first iteration
of the outer loop matters. -/
def create_greedy_chromosome (G : Graph) (stress_budget : ℚ) (num_students : ℕ) :
    Except PyErr (List ℕ) :=
  let chromosome := List.range num_students
  let active_rooms := List.range num_students
  if num_students - 1 = 0 then .ok (firstAppearanceRenumber chromosome)
  else if active_rooms.length ≤ 1 then .ok (firstAppearanceRenumber chromosome)
  else
    match scan_best_merge G stress_budget chromosome active_rooms with
    | some _ => .error .nameError
    | none => .ok (firstAppearanceRenumber chromosome)

/-- Source `genetic.calculate_stress_violation`.  The `num_rooms == 0` branch
returns `float('inf')` in the source; it is unreachable for a nonempty
chromosome and modelled by `0`. -/
def calculate_stress_violation (chromosome : List ℕ) (G : Graph)
    (stress_budget : ℚ) : ℚ :=
  let num_rooms := countDistinct chromosome
  if num_rooms = 0 then 0
  else
    let budget_per_room := stress_budget / (num_rooms : ℚ)
    ((roomsOf chromosome).map fun p =>
      let room_stress := calculate_stress_for_room p.2 G
      if room_stress > budget_per_room then room_stress - budget_per_room
      else 0).sum

/-- Source `genetic.evaluate_fitness`. -/
def evaluate_fitness (chromosome : List ℕ) (G : Graph) (stress_budget : ℚ) :
    Except PyErr ℚ := do
  let assignment := chromosome_to_dict chromosome
  let num_rooms := countDistinct chromosome
  let valid ← is_valid_solution assignment G stress_budget num_rooms
  if valid then pure (calculate_happiness assignment G)
  else pure (-(calculate_stress_violation chromosome G stress_budget))

/-- Source `genetic.tournament_select`. -/
def tournament_select (population : List (List ℕ)) (fitness_scores : List ℚ)
    (tournament_size : ℕ) : PyM (List ℕ) := do
  let indices ← sampleList (List.range population.length)
    (min tournament_size population.length)
  let best_idx := maxByKey (fun i => fitness_scores.getD i 0) indices
  pure (population.getD best_idx [])

/-- Source `genetic.crossover`: uniform per-position crossover. -/
def crossover (parent1 parent2 : List ℕ) (num_students : ℕ) :
    PyM (List ℕ × List ℕ) :=
  (List.range num_students).foldlM (fun cs i => do
    let u ← randFloat
    if u < 1 / 2 then
      pure (cs.1 ++ [parent1.getD i 0], cs.2 ++ [parent2.getD i 0])
    else
      pure (cs.1 ++ [parent2.getD i 0], cs.2 ++ [parent1.getD i 0]))
    (([], []) : List ℕ × List ℕ)

/-- Source `genetic.mutate`: one of four operators chosen at random
(`random.choice(['swap', 'move', 'split', 'merge'])`, modelled as a
generator draw mod 4 in list order). -/
def mutate (chromosome : List ℕ) (num_students : ℕ) : PyM (List ℕ) := do
  let num_rooms := countDistinct chromosome
  let v ← nextNat
  match v % 4 with
  | 0 =>
    if 2 ≤ num_students then do
      let ij ← sampleList (List.range num_students) 2
      let i := ij.getD 0 0
      let j := ij.getD 1 0
      let vi := chromosome.getD i 0
      let vj := chromosome.getD j 0
      pure ((chromosome.set i vj).set j vi)
    else pure chromosome
  | 1 => do
    let i ← randint 0 (num_students - 1)
    let r ← randint 0 (num_rooms - 1)
    pure (chromosome.set i r)
  | 2 =>
    if 0 < num_rooms then do
      let room_to_split ← randint 0 (num_rooms - 1)
      let students_in_room := (List.range chromosome.length).filter
        fun i => chromosome.getD i 0 = room_to_split
      if 1 < students_in_room.length then do
        let new_room := chromosome.foldr max 0 + 1
        let num_to_move ← randint 1 (students_in_room.length - 1)
        let students_to_move ← sampleList students_in_room num_to_move
        pure (students_to_move.foldl (fun l s => l.set s new_room) chromosome)
      else pure chromosome
    else pure chromosome
  | _ =>
    if 1 < num_rooms then do
      let rooms := sortedDistinct chromosome
      if 2 ≤ rooms.length then do
        let ab ← sampleList rooms 2
        let room_a := ab.getD 0 0
        let room_b := ab.getD 1 0
        pure ((List.range num_students).foldl
          (fun l i => if l.getD i 0 = room_b then l.set i room_a else l)
          chromosome)
      else pure chromosome
    else pure chromosome

/-- One iteration of the repair loop body of `repair_chromosome`: find the
first room (in dict order) that is over budget and has more than one member,
and move its highest-internal-stress member to a brand-new room; report
`fixed = true` when no such room exists. -/
def repair_attempt (chromosome : List ℕ) (G : Graph) (stress_budget : ℚ) :
    List ℕ × Bool :=
  let rooms := roomsOf chromosome
  let num_rooms := rooms.length
  let budget_per_room := if 0 < num_rooms then stress_budget / (num_rooms : ℚ)
    else 0
  match rooms.find? (fun p =>
      decide (calculate_stress_for_room p.2 G > budget_per_room) &&
      decide (1 < p.2.length)) with
  | none => (chromosome, true)
  | some p =>
    let max_stress_student := maxByKey (fun student =>
      ((p.2.filter fun other => other ≠ student).map
        fun other => G.st student other).sum) p.2
    let new_room := chromosome.foldr max 0 + 1
    (chromosome.set max_stress_student new_room, false)

/-- The bounded repair loop (`for attempt in range(10)`). -/
def repair_loop (G : Graph) (stress_budget : ℚ) : ℕ → List ℕ → List ℕ
  | 0, chromosome => chromosome
  | fuel + 1, chromosome =>
    let (c', fixed) := repair_attempt chromosome G stress_budget
    if fixed then c'
    else repair_loop G stress_budget fuel c'

/-- Source `genetic.repair_chromosome`. -/
def repair_chromosome (chromosome : List ℕ) (G : Graph) (stress_budget : ℚ) :
    Except PyErr (List ℕ) := do
  let chromosome := firstAppearanceRenumber chromosome
  let assignment := chromosome_to_dict chromosome
  let num_rooms := countDistinct chromosome
  let valid ← is_valid_solution assignment G stress_budget num_rooms
  if valid then pure chromosome
  else pure (repair_loop G stress_budget 10 chromosome)

/-- The random-chromosome fill of `initialize_population`
(`while len(population) < population_size`). -/
def random_fill (num_students population_size : ℕ) :
    ℕ → List (List ℕ) → PyM (List (List ℕ))
  | 0, population => pure population
  | fuel + 1, population =>
    if population.length < population_size then do
      let num_rooms ← randint 1 num_students
      let chromosome ← (List.range num_students).mapM
        fun _ => randint 0 (num_rooms - 1)
      random_fill num_students population_size fuel (population ++ [chromosome])
    else pure population

/-- Source `genetic.initialize_population`. -/
def initialize_population (G : Graph) (stress_budget : ℚ)
    (num_students population_size : ℕ) : PyM (List (List ℕ)) := do
  let identity := (List.range num_students)
  let greedy ← (List.range (population_size / 4)).mapM
    fun _ => liftE (create_greedy_chromosome G stress_budget num_students)
  random_fill num_students population_size population_size
    ([identity] ++ greedy)

/-- The best-individual tracking scan
(`for i, fitness in enumerate(fitness_scores): ...`). -/
def track_best (population : List (List ℕ)) (fitness_scores : List ℚ)
    (best : Option (List ℕ × ℚ)) : Option (List ℕ × ℚ) :=
  (List.range fitness_scores.length).foldl (fun b i =>
    let fitness := fitness_scores.getD i 0
    match b with
    | none => some (population.getD i [], fitness)
    | some (bi, bf) =>
      if bf < fitness then some (population.getD i [], fitness)
      else some (bi, bf)) best

/-- The offspring generation loop
(`while len(new_population) < population_size`). -/
def offspring_loop (G : Graph) (stress_budget : ℚ)
    (population : List (List ℕ)) (fitness_scores : List ℚ)
    (population_size : ℕ) (mutation_rate : ℚ)
    (tournament_size num_students : ℕ) :
    ℕ → List (List ℕ) → PyM (List (List ℕ))
  | 0, new_population => pure new_population
  | fuel + 1, new_population =>
    if new_population.length < population_size then do
      let parent1 ← tournament_select population fitness_scores tournament_size
      let parent2 ← tournament_select population fitness_scores tournament_size
      let children ← crossover parent1 parent2 num_students
      let u1 ← randFloat
      let child1 ← if u1 < mutation_rate then mutate children.1 num_students
        else pure children.1
      let u2 ← randFloat
      let child2 ← if u2 < mutation_rate then mutate children.2 num_students
        else pure children.2
      let child1 ← liftE (repair_chromosome child1 G stress_budget)
      let child2 ← liftE (repair_chromosome child2 G stress_budget)
      let new_population := new_population ++ [child1]
      let new_population :=
        if new_population.length < population_size then new_population ++ [child2]
        else new_population
      offspring_loop G stress_budget population fitness_scores population_size
        mutation_rate tournament_size num_students fuel new_population
    else pure new_population

/-- One generation of `genetic_algorithm`: fitness evaluation, best
tracking, elitism, offspring construction. -/
def generation_step (G : Graph) (stress_budget : ℚ)
    (population_size : ℕ) (mutation_rate : ℚ)
    (tournament_size elite_count num_students : ℕ)
    (population : List (List ℕ)) (best : Option (List ℕ × ℚ)) :
    PyM (List (List ℕ) × Option (List ℕ × ℚ)) := do
  let fitness_scores ← liftE (population.mapM
    fun ind => evaluate_fitness ind G stress_budget)
  let best := track_best population fitness_scores best
  let sorted_pop := stableSort (fun x y => y.1 ≤ x.1)
    (fitness_scores.zip population)
  let elites := (sorted_pop.take (min elite_count sorted_pop.length)).map
    fun p => p.2
  let new_population ← offspring_loop G stress_budget population fitness_scores
    population_size mutation_rate tournament_size num_students
    population_size elites
  pure (new_population, best)

/-- The generation loop (`for generation in range(generations)`). -/
def gen_loop (G : Graph) (stress_budget : ℚ) (population_size : ℕ)
    (mutation_rate : ℚ) (tournament_size elite_count num_students : ℕ) :
    ℕ → List (List ℕ) × Option (List ℕ × ℚ) →
    PyM (List (List ℕ) × Option (List ℕ × ℚ))
  | 0, state => pure state
  | g + 1, state => do
    let state' ← generation_step G stress_budget population_size mutation_rate
      tournament_size elite_count num_students state.1 state.2
    gen_loop G stress_budget population_size mutation_rate tournament_size
      elite_count num_students g state'

/-- Source `genetic.genetic_algorithm` (default parameters in the source:
`population_size=50, generations=200, mutation_rate=0.1, tournament_size=3,
elite_count=2`). -/
def genetic_algorithm (G : Graph) (stress_budget : ℚ)
    (population_size generations : ℕ) (mutation_rate : ℚ)
    (tournament_size elite_count : ℕ) : PyM (List ℕ × ℕ) := do
  let num_students := G.n
  let population ← initialize_population G stress_budget num_students
    population_size
  let state ← gen_loop G stress_budget population_size mutation_rate
    tournament_size elite_count num_students generations (population, none)
  let population := state.1
  let fitness_scores ← liftE (population.mapM
    fun ind => evaluate_fitness ind G stress_budget)
  let best := track_best population fitness_scores state.2
  match best with
  | none => liftE (.error .typeError)
  | some (best_individual, _) => do
    let assignment := chromosome_to_dict best_individual
    let num_rooms := countDistinct best_individual
    let valid ← liftE (is_valid_solution assignment G stress_budget num_rooms)
    if valid then pure (assignment, num_rooms)
    else pure (List.range num_students, num_students)

section EvalScratchC1
attribute [local semireducible] Rat.add Rat.mul Rat.sub Rat.inv

/-- C1 (code bug): on the spec's own two-student scenario (happiness 10,
stress 1, budget 5 — all entry preconditions hold), `genetic_algorithm` with
its default parameters raises `NameError` for every random seed and every
`mutation_rate`/`tournament_size`/`elite_count`: `create_greedy_chromosome`
finds a feasible merge and then executes `for i in range(n)` where `n` is an
undefined name, so the solver never returns at all, let alone a valid
assignment. -/
theorem c1_genetic_algorithm_raises_nameerror (mutation_rate : ℚ)
    (tournament_size elite_count : ℕ) (rng : Rng) :
    genetic_algorithm ⟨2, fun _ _ => 10, fun _ _ => 1⟩ 5 50 200 mutation_rate
      tournament_size elite_count rng = .error .nameError := by
  rfl

end EvalScratchC1

/-! ## C5: the repair step picks the first over-budget room, not the most
over-budget one -/

/-- Modelled from the spec: "find the single most over-budget room" — the
room id whose stress exceeds the per-room budget by the largest amount
(stress strictly maximal among over-budget rooms, first such on ties). -/
def spec_most_over_budget_room (chromosome : List ℕ) (G : Graph)
    (stress_budget : ℚ) : Option ℕ :=
  let rooms := roomsOf chromosome
  let budget_per_room := if 0 < rooms.length then
    stress_budget / (rooms.length : ℚ) else 0
  let over := rooms.filter fun p =>
    decide (budget_per_room < calculate_stress_for_room p.2 G)
  (over.foldl (fun best p =>
    match best with
    | none => some p
    | some q =>
      if calculate_stress_for_room q.2 G < calculate_stress_for_room p.2 G then
        some p
      else some q) none).map fun p => p.1

theorem maxByKey_mem (key : ℕ → ℚ) (l : List ℕ) (hl : l ≠ []) :
    maxByKey key l ∈ l := by
  cases l with
  | nil => exact absurd rfl hl
  | cons x xs =>
    show xs.foldl (fun acc i => if key acc < key i then i else acc) x ∈ x :: xs
    have : ∀ (ys : List ℕ) (acc : ℕ), acc ∈ x :: xs → (∀ y ∈ ys, y ∈ x :: xs) →
        ys.foldl (fun acc i => if key acc < key i then i else acc) acc ∈ x :: xs := by
      intro ys
      induction ys with
      | nil => intro acc hacc _; exact hacc
      | cons y ys ih =>
        intro acc hacc hys
        simp only [List.foldl_cons]
        by_cases h : key acc < key y
        · rw [if_pos h]
          exact ih y (hys y (List.mem_cons_self y ys))
            (fun z hz => hys z (List.mem_cons_of_mem y hz))
        · rw [if_neg h]
          exact ih acc hacc (fun z hz => hys z (List.mem_cons_of_mem y hz))
    exact this xs x (List.mem_cons_self x xs) (fun z hz => List.mem_cons_of_mem x hz)

theorem maxByKey_is_max (key : ℕ → ℚ) (l : List ℕ) :
    ∀ m ∈ l, key m ≤ key (maxByKey key l) := by
  cases l with
  | nil => intro m hm; simp at hm
  | cons x xs =>
    show ∀ m ∈ x :: xs, key m ≤
      key (xs.foldl (fun acc i => if key acc < key i then i else acc) x)
    have main : ∀ (ys : List ℕ) (acc : ℕ),
        key acc ≤ key (ys.foldl (fun acc i => if key acc < key i then i else acc) acc) ∧
        ∀ m ∈ ys, key m ≤
          key (ys.foldl (fun acc i => if key acc < key i then i else acc) acc) := by
      intro ys
      induction ys with
      | nil => intro acc; exact ⟨le_refl _, by simp⟩
      | cons y ys ih =>
        intro acc
        simp only [List.foldl_cons]
        by_cases h : key acc < key y
        · rw [if_pos h]
          refine ⟨(le_of_lt h).trans (ih y).1, ?_⟩
          intro m hm
          rcases List.mem_cons.mp hm with hmy | hm
          · rw [hmy]; exact (ih y).1
          · exact (ih y).2 m hm
        · rw [if_neg h]
          refine ⟨(ih acc).1, ?_⟩
          intro m hm
          rcases List.mem_cons.mp hm with hmy | hm
          · rw [hmy]; exact (le_of_not_lt h).trans (ih acc).1
          · exact (ih acc).2 m hm
    intro m hm
    rcases List.mem_cons.mp hm with hmx | hm
    · rw [hmx]; exact (main xs x).1
    · exact (main xs x).2 m hm

/-- C5 (amended): each repair iteration selects the *first* room, in room
order (order of first appearance in the chromosome), whose stress exceeds
the per-room budget and which has more than one member — not necessarily the
most over-budget room — and moves that room's highest-internal-stress member
(`max` with strict improvement, so the first maximum) into the brand-new
room `max(chromosome) + 1`; when no such room exists the iteration reports
the chromosome fixed and leaves it unchanged. -/
theorem c5_repair_moves_first_over_budget_room (chromosome : List ℕ)
    (G : Graph) (stress_budget : ℚ) :
    (∀ p, (roomsOf chromosome).find? (fun p =>
        decide (calculate_stress_for_room p.2 G >
          (if 0 < (roomsOf chromosome).length then
            stress_budget / ((roomsOf chromosome).length : ℚ) else 0)) &&
        decide (1 < p.2.length)) = some p →
      repair_attempt chromosome G stress_budget =
        (chromosome.set
          (maxByKey (fun student =>
            ((p.2.filter fun other => other ≠ student).map
              fun other => G.st student other).sum) p.2)
          (chromosome.foldr max 0 + 1), false) ∧
      (maxByKey (fun student =>
          ((p.2.filter fun other => other ≠ student).map
            fun other => G.st student other).sum) p.2) ∈ p.2 ∧
      ∀ m ∈ p.2,
        ((p.2.filter fun other => other ≠ m).map
          fun other => G.st m other).sum ≤
        ((p.2.filter fun other => other ≠
            (maxByKey (fun student =>
              ((p.2.filter fun other => other ≠ student).map
                fun other => G.st student other).sum) p.2)).map
          fun other => G.st (maxByKey (fun student =>
              ((p.2.filter fun other => other ≠ student).map
                fun other => G.st student other).sum) p.2) other).sum) ∧
    ((roomsOf chromosome).find? (fun p =>
        decide (calculate_stress_for_room p.2 G >
          (if 0 < (roomsOf chromosome).length then
            stress_budget / ((roomsOf chromosome).length : ℚ) else 0)) &&
        decide (1 < p.2.length)) = none →
      repair_attempt chromosome G stress_budget = (chromosome, true)) := by
  constructor
  · intro p hfind
    have hmem : p ∈ roomsOf chromosome := List.mem_of_find?_eq_some hfind
    have htest := List.find?_some hfind
    have hlen : 1 < p.2.length := by
      simp only [Bool.and_eq_true, decide_eq_true_eq] at htest
      exact htest.2
    have hne : p.2 ≠ [] := by
      intro hc; rw [hc] at hlen; simp at hlen
    refine ⟨?_, maxByKey_mem _ _ hne, maxByKey_is_max _ _⟩
    simp only [repair_attempt]
    rw [hfind]
  · intro hnone
    simp only [repair_attempt]
    rw [hnone]

section EvalScratch5
attribute [local semireducible] Rat.add Rat.mul Rat.sub Rat.inv

/-- The four-student graph used to refute C5 as stated: rooms `{0,1}` and
`{2,3}`, pair stresses 10 and 100. -/
def gC5 : Graph :=
  ⟨4, fun _ _ => 0, fun i j =>
    if (i = 0 ∧ j = 1) ∨ (i = 1 ∧ j = 0) then 10
    else if (i = 2 ∧ j = 3) ∨ (i = 3 ∧ j = 2) then 100
    else 0⟩

/-- C5 counterexample: on chromosome `[0,0,1,1]` with budget 1, room 1
(stress 100) is the single most over-budget room, but the repair iteration
moves student 0 out of room 0 (stress 10), leaving room 1 untouched — the
repair step does not select the most over-budget room. -/
theorem c5_counterexample_repair_not_most_over_budget :
    repair_attempt [0, 0, 1, 1] gC5 1 = ([2, 0, 1, 1], false) ∧
    spec_most_over_budget_room [0, 0, 1, 1] gC5 1 = some 1 ∧
    [0, 0, 1, 1].getD 0 0 = 0 ∧ (0 : ℕ) ≠ 1 ∧
    [2, 0, 1, 1].getD 2 0 = [0, 0, 1, 1].getD 2 0 ∧
    [2, 0, 1, 1].getD 3 0 = [0, 0, 1, 1].getD 3 0 := by
  refine ⟨by decide, by decide, by decide, by decide, by decide, by decide⟩

/-- Witness for the amended C5 at the same concrete input. -/
theorem c5_repair_moves_first_over_budget_room_witness :
    (roomsOf [0, 0, 1, 1]).find? (fun p =>
        decide (calculate_stress_for_room p.2 gC5 >
          (if 0 < (roomsOf [0, 0, 1, 1]).length then
            (1 : ℚ) / ((roomsOf [0, 0, 1, 1]).length : ℚ) else 0)) &&
        decide (1 < p.2.length)) = some (0, [0, 1]) ∧
    repair_attempt [0, 0, 1, 1] gC5 1 =
      ([0, 0, 1, 1].set
        (maxByKey (fun student =>
          (((0, [0, 1]).2.filter fun other => other ≠ student).map
            fun other => gC5.st student other).sum) (0, [0, 1]).2)
        ([0, 0, 1, 1].foldr max 0 + 1), false) := by
  have hfind : (roomsOf [0, 0, 1, 1]).find? (fun p =>
      decide (calculate_stress_for_room p.2 gC5 >
        (if 0 < (roomsOf [0, 0, 1, 1]).length then
          (1 : ℚ) / ((roomsOf [0, 0, 1, 1]).length : ℚ) else 0)) &&
      decide (1 < p.2.length)) = some (0, [0, 1]) := by decide
  exact ⟨hfind,
    ((c5_repair_moves_first_over_budget_room [0, 0, 1, 1] gC5 1).1
      (0, [0, 1]) hfind).1⟩

end EvalScratch5

/-! ## Pure helper lemmas for the local-search and annealing invariants -/

open scoped List in
theorem countDistinct_congr {a b : List ℕ} (h : ∀ r, r ∈ a ↔ r ∈ b) :
    countDistinct a = countDistinct b := by
  have hperm : distinctFirst a ~ distinctFirst b := by
    refine (List.perm_ext_iff_of_nodup (nodup_distinctFirst a)
      (nodup_distinctFirst b)).mpr ?_
    intro r
    rw [mem_distinctFirst, mem_distinctFirst]
    exact h r
  exact hperm.length_eq

theorem find?_map_key {ids : List ℕ} {g : ℕ → List ℕ} {r : ℕ} (hr : r ∈ ids) :
    (ids.map fun x => (x, g x)).find? (fun p => p.1 == r) = some (r, g r) := by
  induction ids with
  | nil => simp at hr
  | cons x xs ih =>
    simp only [List.map_cons, List.find?_cons]
    by_cases hx : x = r
    · subst hx
      simp
    · have hbeq : ((x, g x).1 == r) = false := by simpa using hx
      rw [hbeq]
      exact ih ((List.mem_cons.mp hr).resolve_left (fun hc => hx hc.symm))

/-- Contiguity: the values of an assignment are exactly `0..k-1` for its own
distinct-room count `k`. -/
def Contig (a : List ℕ) : Prop := ∀ r, r ∈ a ↔ r < countDistinct a

open scoped List in
theorem relabel_props {a ids : List ℕ} (hnd : ids.Nodup)
    (hm : ∀ x, x ∈ ids ↔ x ∈ a) :
    countDistinct (a.map fun x => ids.indexOf x) = ids.length ∧
    Contig (a.map fun x => ids.indexOf x) := by
  have hinj : ∀ x ∈ a, ∀ y ∈ a, ids.indexOf x = ids.indexOf y → x = y := by
    intro x hx y hy hxy
    exact (List.indexOf_inj ((hm x).mpr hx) ((hm y).mpr hy)).mp hxy
  have h2 : countDistinct a = ids.length := by
    have hperm : distinctFirst a ~ ids := by
      refine (List.perm_ext_iff_of_nodup (nodup_distinctFirst a) hnd).mpr ?_
      intro r
      rw [mem_distinctFirst]
      exact (hm r).symm
    exact hperm.length_eq
  have h1 : countDistinct (a.map fun x => ids.indexOf x) = ids.length := by
    rw [countDistinct_map_injOn hinj, h2]
  refine ⟨h1, ?_⟩
  intro r
  rw [h1]
  constructor
  · intro hr
    rcases List.mem_map.mp hr with ⟨x, hx, hfx⟩
    rw [← hfx]
    exact List.indexOf_lt_length.mpr ((hm x).mpr hx)
  · intro hr
    refine List.mem_map.mpr ⟨ids[r], (hm _).mp (List.getElem_mem hr), ?_⟩
    exact List.indexOf_getElem hnd r hr

theorem firstAppearanceRenumber_props (a : List ℕ) :
    countDistinct (firstAppearanceRenumber a) = countDistinct a ∧
    Contig (firstAppearanceRenumber a) ∧
    (firstAppearanceRenumber a).length = a.length := by
  have h := relabel_props (nodup_distinctFirst a) (fun x => mem_distinctFirst a x)
  exact ⟨h.1, h.2, List.length_map _ _⟩

theorem renumber_rooms_props (a : List ℕ) :
    countDistinct (renumber_rooms a).1 = countDistinct a ∧
    Contig (renumber_rooms a).1 ∧
    (renumber_rooms a).1.length = a.length ∧
    (renumber_rooms a).2 = countDistinct (renumber_rooms a).1 := by
  have h := relabel_props (nodup_sortedDistinct a) (fun x => mem_sortedDistinct a x)
  have hr1 : (renumber_rooms a).1 = a.map fun r => (sortedDistinct a).indexOf r :=
    rfl
  have hr2 : (renumber_rooms a).2 = (sortedDistinct a).length := rfl
  rw [hr1, hr2]
  refine ⟨?_, h.2, List.length_map _ _, ?_⟩
  · rw [h.1, sortedDistinct_length]
  · rw [h.1]

theorem all_map_gen {α β : Type} (f : α → β) (l : List α) (p : β → Bool) :
    (l.map f).all p = l.all (p ∘ f) := by
  induction l with
  | nil => rfl
  | cons x xs ih => simp only [List.map_cons, List.all_cons, ih]; rfl

theorem all_congr_mem {α : Type} {p q : α → Bool} {l : List α}
    (h : ∀ x ∈ l, p x = q x) : l.all p = l.all q := by
  induction l with
  | nil => rfl
  | cons x xs ih =>
    simp only [List.all_cons]
    rw [h x (List.mem_cons_self x xs),
      ih (fun y hy => h y (List.mem_cons_of_mem x hy))]

theorem is_valid_map_injOn {a : List ℕ} {f : ℕ → ℕ} {G : Graph} {s : ℚ}
    (hinj : ∀ x ∈ a, ∀ y ∈ a, f x = f y → x = y) (k : ℕ) :
    is_valid_solution (a.map f) G s k = is_valid_solution a G s k := by
  unfold is_valid_solution
  by_cases hk : k = 0
  · rw [if_pos hk, if_pos hk]
  · rw [if_neg hk, if_neg hk]
    simp only [roomsOf_eq_idxOf, distinctFirst_map_injOn hinj, List.map_map,
      Except.ok.injEq]
    rw [all_map_gen, all_map_gen]
    apply all_congr_mem
    intro r hr
    simp only [Function.comp_apply]
    have hra : r ∈ a := (mem_distinctFirst a r).mp hr
    simp only [idxOf_map_injOn hra hinj]

theorem ValidAssignment_map_injOn {a : List ℕ} {f : ℕ → ℕ} {G : Graph} {s : ℚ}
    (hinj : ∀ x ∈ a, ∀ y ∈ a, f x = f y → x = y)
    (hv : ValidAssignment a G s) : ValidAssignment (a.map f) G s := by
  unfold ValidAssignment at hv ⊢
  rw [countDistinct_map_injOn hinj, is_valid_map_injOn hinj]
  exact hv

theorem foldr_max_le {l : List ℕ} {m : ℕ} (h : ∀ x ∈ l, x ≤ m) :
    l.foldr max 0 ≤ m := by
  induction l with
  | nil => simp
  | cons x xs ih =>
    simp only [List.foldr_cons, max_le_iff]
    exact ⟨h x (List.mem_cons_self x xs),
      ih (fun y hy => h y (List.mem_cons_of_mem x hy))⟩

theorem sortedDistinct_of_contig {a : List ℕ} (hc : Contig a) :
    sortedDistinct a = List.range (countDistinct a) := by
  by_cases ha : a = []
  · subst ha
    rfl
  · have hk1 : 1 ≤ countDistinct a := by
      rcases List.exists_mem_of_ne_nil a ha with ⟨x, hx⟩
      have := (hc x).mp hx
      omega
    have hmax : a.foldr max 0 = countDistinct a - 1 := by
      have hle : a.foldr max 0 ≤ countDistinct a - 1 :=
        foldr_max_le (fun x hx => by have := (hc x).mp hx; omega)
      have hge : countDistinct a - 1 ≤ a.foldr max 0 :=
        le_foldr_max a _ ((hc _).mpr (by omega))
      omega
    unfold sortedDistinct
    rw [hmax]
    have hsucc : countDistinct a - 1 + 1 = countDistinct a := by omega
    rw [hsucc, List.filter_eq_self]
    intro r hr
    simpa using (hc r).mpr (List.mem_range.mp hr)

theorem getD_map_range {α : Type} (g : ℕ → α) (k i : ℕ) (d : α) (h : i < k) :
    ((List.range k).map g).getD i d = g i := by
  rw [List.getD_eq_getElem?_getD, List.getElem?_map, List.getElem?_range h]
  rfl

theorem set_mem_iff {a : List ℕ} {student target : ℕ}
    (hst : student < a.length) (htarget : target ∈ a)
    (hsrc : ∃ v, v < a.length ∧ v ≠ student ∧ a.getD v 0 = a.getD student 0) :
    ∀ r, r ∈ a.set student target ↔ r ∈ a := by
  intro r
  constructor
  · intro hr
    rcases (mem_iff_getD _ _).mp hr with ⟨m, hm, he⟩
    rw [List.length_set] at hm
    rw [getD_set_eq_ite] at he
    by_cases hc : student = m ∧ student < a.length
    · rw [if_pos hc] at he
      exact he ▸ htarget
    · rw [if_neg hc] at he
      exact he ▸ getD_mem_of_lt a m hm
  · intro hr
    rcases (mem_iff_getD _ _).mp hr with ⟨v, hv, he⟩
    rcases hsrc with ⟨w, hw, hwne, hwv⟩
    by_cases hvs : v = student
    · refine (mem_iff_getD _ _).mpr ⟨w, ?_, ?_⟩
      · rw [List.length_set]; exact hw
      · have hcond : ¬(student = w ∧ student < a.length) :=
          fun hcc => hwne hcc.1.symm
        rw [getD_set_eq_ite, if_neg hcond, hwv, ← hvs]
        exact he
    · refine (mem_iff_getD _ _).mpr ⟨v, ?_, ?_⟩
      · rw [List.length_set]; exact hv
      · have hcond : ¬(student = v ∧ student < a.length) :=
          fun hcc => hvs hcc.1.symm
        rw [getD_set_eq_ite, if_neg hcond]
        exact he

theorem swap_set_mem_iff {a : List ℕ} {sa sb ra rb : ℕ}
    (hsa : sa < a.length) (hsb : sb < a.length) (hne : sa ≠ sb)
    (hva : a.getD sa 0 = ra) (hvb : a.getD sb 0 = rb) :
    ∀ r, r ∈ (a.set sa rb).set sb ra ↔ r ∈ a := by
  have hgd : ∀ m, ((a.set sa rb).set sb ra).getD m 0 =
      if sb = m then (if m < a.length then ra else a.getD m 0)
      else if sa = m then (if m < a.length then rb else a.getD m 0)
      else a.getD m 0 := by
    intro m
    rw [getD_set_eq_ite, List.length_set, getD_set_eq_ite]
    by_cases h1 : sb = m
    · subst h1
      by_cases h2 : sb < a.length
      · have hcond : sb = sb ∧ sb < a.length := ⟨rfl, h2⟩
        rw [if_pos hcond, if_pos rfl, if_pos h2]
      · have hcond : ¬(sb = sb ∧ sb < a.length) := fun hcc => h2 hcc.2
        have hcond2 : ¬(sa = sb ∧ sa < a.length) := fun hcc => h2 (hcc.1 ▸ hsa)
        rw [if_neg hcond, if_pos rfl, if_neg h2, if_neg hcond2]
    · have hcond : ¬(sb = m ∧ sb < a.length) := fun hcc => h1 hcc.1
      rw [if_neg hcond, if_neg h1]
      by_cases h3 : sa = m
      · subst h3
        by_cases h4 : sa < a.length
        · have hcond3 : sa = sa ∧ sa < a.length := ⟨rfl, h4⟩
          rw [if_pos hcond3, if_pos rfl, if_pos h4]
        · have hcond3 : ¬(sa = sa ∧ sa < a.length) := fun hcc => h4 hcc.2
          rw [if_neg hcond3, if_pos rfl, if_neg h4]
      · have hcond3 : ¬(sa = m ∧ sa < a.length) := fun hcc => h3 hcc.1
        rw [if_neg hcond3, if_neg h3]
  have hlen : ((a.set sa rb).set sb ra).length = a.length := by
    rw [List.length_set, List.length_set]
  intro r
  rw [mem_iff_getD, mem_iff_getD, hlen]
  constructor
  · rintro ⟨m, hm, he⟩
    rw [hgd m] at he
    by_cases h1 : sb = m
    · rw [if_pos h1, if_pos (h1 ▸ hsb)] at he
      exact ⟨sa, hsa, hva.trans he⟩
    · rw [if_neg h1] at he
      by_cases h2 : sa = m
      · rw [if_pos h2, if_pos (h2 ▸ hsa)] at he
        exact ⟨sb, hsb, hvb.trans he⟩
      · rw [if_neg h2] at he
        exact ⟨m, hm, he⟩
  · rintro ⟨v, hv, he⟩
    by_cases h1 : v = sa
    · refine ⟨sb, hsb, ?_⟩
      rw [hgd sb, if_pos rfl, if_pos hsb, ← hva, ← h1]
      exact he
    · by_cases h2 : v = sb
      · refine ⟨sa, hsa, ?_⟩
        rw [hgd sa, if_neg (fun hc => hne hc.symm), if_pos rfl, if_pos hsa,
          ← hvb, ← h2]
        exact he
      · refine ⟨v, hv, ?_⟩
        rw [hgd v, if_neg (fun hc => h2 hc.symm), if_neg (fun hc => h1 hc.symm)]
        exact he

/-! ## Characterizing the random primitives -/

theorem randint_spec (lo hi : ℕ) (rng : Rng) (h : lo ≤ hi) :
    ∃ v rng', randint lo hi rng = .ok (v, rng') ∧ lo ≤ v ∧ v ≤ hi := by
  refine ⟨lo + rng.nats 0 % (hi + 1 - lo), _, rfl, Nat.le_add_right _ _, ?_⟩
  have hm : rng.nats 0 % (hi + 1 - lo) < hi + 1 - lo :=
    Nat.mod_lt _ (by omega)
  omega

theorem randChoice_spec (l : List ℕ) (rng : Rng) (h : l ≠ []) :
    ∃ v rng', randChoice l rng = .ok (v, rng') ∧ v ∈ l := by
  refine ⟨l.getD (rng.nats 0 % l.length) 0, _, rfl, ?_⟩
  have hlen : 0 < l.length := List.length_pos.mpr h
  exact getD_mem_of_lt l _ (Nat.mod_lt _ hlen)

theorem sampleList_spec (k : ℕ) :
    ∀ (l : List ℕ) (rng : Rng), k ≤ l.length →
    ∃ out rng', sampleList l k rng = .ok (out, rng') ∧ out.length = k ∧
      (∀ x ∈ out, x ∈ l) ∧ (l.Nodup → out.Nodup) := by
  induction k with
  | zero =>
    intro l rng _
    exact ⟨[], rng, rfl, rfl, by simp, fun _ => List.nodup_nil⟩
  | succ k ih =>
    intro l rng hk
    have hlen : 0 < l.length := by omega
    set idx := rng.nats 0 % l.length with hidx
    have hidxlt : idx < l.length := Nat.mod_lt _ hlen
    set x := l.getD idx 0 with hx
    set rest := l.take idx ++ l.drop (idx + 1) with hrest
    have hxl : x ∈ l := getD_mem_of_lt l idx hidxlt
    have hrest_len : rest.length = l.length - 1 := by
      rw [hrest, List.length_append, List.length_take, List.length_drop]
      omega
    have hrest_sub : ∀ y ∈ rest, y ∈ l := by
      intro y hy
      rcases List.mem_append.mp hy with h | h
      · exact List.take_subset _ _ h
      · exact List.drop_subset _ _ h
    have hdecomp : l.take idx ++ x :: l.drop (idx + 1) = l := by
      have h1 : l[idx] :: l.drop (idx + 1) = l.drop idx :=
        List.getElem_cons_drop l idx hidxlt
      have h2 : x = l[idx] := by
        rw [hx, List.getD_eq_getElem?_getD, List.getElem?_eq_getElem hidxlt]
        rfl
      rw [h2, h1, List.take_append_drop]
    have hnodup_facts : l.Nodup → rest.Nodup ∧ x ∉ rest := by
      intro hnd
      have hnd' : (l.take idx ++ x :: l.drop (idx + 1)).Nodup := by
        rw [hdecomp]; exact hnd
      rw [List.nodup_append] at hnd'
      obtain ⟨h1, h2, h3⟩ := hnd'
      rw [List.nodup_cons] at h2
      constructor
      · rw [hrest, List.nodup_append]
        exact ⟨h1, h2.2, fun a ha ha' =>
          h3 ha (List.mem_cons_of_mem x ha')⟩
      · intro hc
        rcases List.mem_append.mp hc with h | h
        · exact h3 h (List.mem_cons_self _ _)
        · exact h2.1 h
    have hkrest : k ≤ rest.length := by omega
    set rng1 : Rng := ⟨fun i => rng.nats (i + 1), rng.qs⟩ with hrng1
    rcases ih rest rng1 hkrest with ⟨out, rng', hrun, hlen', hsub, hnd⟩
    refine ⟨x :: out, rng', ?_, by simp [hlen'], ?_, ?_⟩
    · have hstep : sampleList l (k + 1) rng =
          match sampleList rest k rng1 with
          | .ok (xs, s') => .ok (x :: xs, s')
          | .error e => .error e := by
        simp only [sampleList, bind, StateT.bind, pickOne, Rng.next, Except.bind]
        cases sampleList rest k rng1 with
        | ok p => cases p with | mk xs s' => rfl
        | error e => rfl
      rw [hstep, hrun]
    · intro y hy
      rcases List.mem_cons.mp hy with h | h
      · exact h ▸ hxl
      · exact hrest_sub y (hsub y h)
    · intro hndl
      rcases hnodup_facts hndl with ⟨hrestnd, hxnotin⟩
      rw [List.nodup_cons]
      exact ⟨fun hc => hxnotin (hsub x hc), hnd hrestnd⟩

/-! ## Local search (src/algorithms/greedy.py, lines 96-203) -/

/-- The inner target-room scan of `local_search`'s move phase: try moving
`student` into each other room, accepting the first strictly-best-improving
valid move. -/
def move_scan_inner (G : Graph) (stress_budget : ℚ) (assignment : List ℕ)
    (num_rooms : ℕ) (best_happiness : ℚ) (student : ℕ) :
    List ℕ → PyM (Option (List ℕ × ℚ))
  | [] => pure none
  | target_room :: rest =>
    if target_room = assignment.getD student 0 then
      move_scan_inner G stress_budget assignment num_rooms best_happiness
        student rest
    else do
      let new_assignment := assignment.set student target_room
      let valid ← liftE (is_valid_solution new_assignment G stress_budget
        num_rooms)
      if valid then
        let new_happiness := calculate_happiness new_assignment G
        if best_happiness < new_happiness then
          pure (some (new_assignment, new_happiness))
        else
          move_scan_inner G stress_budget assignment num_rooms best_happiness
            student rest
      else
        move_scan_inner G stress_budget assignment num_rooms best_happiness
          student rest

/-- The outer student scan of `local_search`'s move phase (students in
shuffled order; a student who is alone in their room is skipped). -/
def move_scan (G : Graph) (stress_budget : ℚ) (assignment : List ℕ)
    (rooms : List (ℕ × List ℕ)) (num_rooms : ℕ) (room_ids : List ℕ)
    (best_happiness : ℚ) : List ℕ → PyM (Option (List ℕ × ℚ))
  | [] => pure none
  | student :: rest =>
    if (dictGet rooms (assignment.getD student 0)).length = 1 then
      move_scan G stress_budget assignment rooms num_rooms room_ids
        best_happiness rest
    else do
      let r ← move_scan_inner G stress_budget assignment num_rooms
        best_happiness student room_ids
      match r with
      | some res => pure (some res)
      | none =>
        move_scan G stress_budget assignment rooms num_rooms room_ids
          best_happiness rest

/-- The bounded random-swap phase of `local_search`. -/
def swap_scan (G : Graph) (stress_budget : ℚ) (assignment : List ℕ)
    (rooms : List (ℕ × List ℕ)) (num_rooms : ℕ) (room_ids : List ℕ)
    (best_happiness : ℚ) : ℕ → PyM (Option (List ℕ × ℚ))
  | 0 => pure none
  | count + 1 => do
    let ab ← sampleList room_ids 2
    let room_a := ab.getD 0 0
    let room_b := ab.getD 1 0
    if (dictGet rooms room_a).length = 0 ∨ (dictGet rooms room_b).length = 0 then
      swap_scan G stress_budget assignment rooms num_rooms room_ids
        best_happiness count
    else do
      let student_a ← randChoice (dictGet rooms room_a)
      let student_b ← randChoice (dictGet rooms room_b)
      let new_assignment := (assignment.set student_a room_b).set student_b
        room_a
      let valid ← liftE (is_valid_solution new_assignment G stress_budget
        num_rooms)
      if valid then
        let new_happiness := calculate_happiness new_assignment G
        if best_happiness < new_happiness then
          pure (some (new_assignment, new_happiness))
        else
          swap_scan G stress_budget assignment rooms num_rooms room_ids
            best_happiness count
      else
        swap_scan G stress_budget assignment rooms num_rooms room_ids
          best_happiness count

/-- Source `greedy.try_merge_rooms`: first merge of two rooms that is valid
and at least as happy as the current best, renumbered. -/
def try_merge_go (G : Graph) (stress_budget : ℚ) (assignment : List ℕ)
    (rooms : List (ℕ × List ℕ)) (current_happiness : ℚ) :
    List (ℕ × ℕ) → Except PyErr (Option (List ℕ × ℕ × ℚ))
  | [] => .ok none
  | (room_a, room_b) :: rest => do
    let new_assignment := (dictGet rooms room_b).foldl
      (fun l s => l.set s room_a) assignment
    let new_num_rooms := countDistinct new_assignment
    let valid ← is_valid_solution new_assignment G stress_budget new_num_rooms
    if valid then
      let new_happiness := calculate_happiness new_assignment G
      if current_happiness ≤ new_happiness then
        let renumbered := renumber_rooms new_assignment
        .ok (some (renumbered.1, renumbered.2, new_happiness))
      else try_merge_go G stress_budget assignment rooms current_happiness rest
    else try_merge_go G stress_budget assignment rooms current_happiness rest

def try_merge_rooms (G : Graph) (stress_budget : ℚ) (assignment : List ℕ)
    (rooms : List (ℕ × List ℕ)) (current_happiness : ℚ) :
    Except PyErr (Option (List ℕ × ℕ × ℚ)) :=
  try_merge_go G stress_budget assignment rooms current_happiness
    (listPairs (rooms.map Prod.fst))

/-- One iteration of `local_search`'s improvement loop; returns the new
`(assignment, best_assignment, best_happiness)` state and whether an
improvement was applied. -/
def local_search_iteration (G : Graph) (stress_budget : ℚ)
    (state : List ℕ × List ℕ × ℚ) :
    PyM ((List ℕ × List ℕ × ℚ) × Bool) := do
  let assignment := state.1
  let best_assignment := state.2.1
  let best_happiness := state.2.2
  let rooms := roomsOf assignment
  let num_rooms := rooms.length
  let room_ids := rooms.map Prod.fst
  let students ← shuffleList (List.range assignment.length)
  let mv ← move_scan G stress_budget assignment rooms num_rooms room_ids
    best_happiness students
  match mv with
  | some (na, nh) => pure ((na, na, nh), true)
  | none => do
    let sw ← if 2 ≤ room_ids.length then
        swap_scan G stress_budget assignment rooms num_rooms room_ids
          best_happiness (min 100 (num_rooms * num_rooms))
      else pure none
    match sw with
    | some (na, nh) => pure ((na, na, nh), true)
    | none =>
      if 1 < num_rooms then do
        let mg ← liftE (try_merge_rooms G stress_budget assignment rooms
          best_happiness)
        match mg with
        | some (na, _, nh) => pure ((na, na, nh), true)
        | none => pure ((assignment, best_assignment, best_happiness), false)
      else pure ((assignment, best_assignment, best_happiness), false)

/-- The iteration loop (`for iteration in range(max_iterations)`, stopping
early when no improvement was found). -/
def local_search_loop (G : Graph) (stress_budget : ℚ) :
    ℕ → (List ℕ × List ℕ × ℚ) → PyM (List ℕ × List ℕ × ℚ)
  | 0, state => pure state
  | fuel + 1, state => do
    let res ← local_search_iteration G stress_budget state
    if res.2 then local_search_loop G stress_budget fuel res.1
    else pure res.1

/-- Source `greedy.local_search`. -/
def local_search (G : Graph) (stress_budget : ℚ) (assignment : List ℕ)
    (num_rooms : ℕ) (max_iterations : ℕ) : PyM (List ℕ × ℕ) := do
  let best_assignment := assignment
  let best_happiness := calculate_happiness assignment G
  let state ← local_search_loop G stress_budget max_iterations
    (assignment, best_assignment, best_happiness)
  pure (state.2.1, countDistinct state.2.1)

/-- Source `greedy.greedy_local_search` (default
`max_local_search_iterations=1000`). -/
def greedy_local_search (G : Graph) (stress_budget : ℚ)
    (max_local_search_iterations : ℕ) : PyM (List ℕ × ℕ) := do
  let constructed := greedy_construction G stress_budget G.n
  local_search G stress_budget constructed.1 constructed.2
    max_local_search_iterations

/-! ## Simulated annealing (src/algorithms/simulated_annealing.py) -/

/-- Inner helper `get_room_lists`: member lists of the rooms, ordered by
room id (`sorted(rooms.keys())`). -/
def get_room_lists (assignment : List ℕ) : List (List ℕ) :=
  (sortedDistinct assignment).map fun room_id => idxOf assignment room_id

/-- Inner helper `evaluate_solution`: happiness (with the fixed `-1000`
penalty for invalid states) and validity of an assignment. -/
def evaluate_solution (G : Graph) (stress_budget : ℚ) (assignment : List ℕ) :
    Except PyErr (ℚ × Bool) := do
  let rooms := get_room_lists assignment
  let num_rooms := rooms.length
  let valid ← is_valid_solution assignment G stress_budget num_rooms
  let happiness := if valid then calculate_happiness assignment G
    else (-1000 : ℚ)
  pure (happiness, valid)

/-- The working state of the annealing loop. -/
structure SAState where
  current_assignment : List ℕ
  room_assignments : List (List ℕ)
  best_assignment : List ℕ
  best_happiness : ℚ
  current_happiness : ℚ
  temperature : ℚ
  iteration : ℕ
  no_improve_count : ℕ
  reheat_count : ℕ

/-- The candidate-construction part of one annealing iteration: pick a move
type (`rand.choices` with weights 0.5/0.3/0.1/0.1, modelled by inverse-CDF
on one uniform draw) and build the candidate assignment, or `none` when the
sampled move cannot apply. -/
def sa_propose (G : Graph) (num_students : ℕ) (st : SAState) :
    PyM (Option (List ℕ × List (List ℕ))) := do
  let num_rooms := st.room_assignments.length
  let u ← randFloat
  if u < 5 / 10 then
    -- transfer
    if 1 < num_rooms then do
      let from_room_idx ← randint 0 (num_rooms - 1)
      if 1 < (st.room_assignments.getD from_room_idx []).length then do
        let student ← randChoice (st.room_assignments.getD from_room_idx [])
        let to_room_idx ← randint 0 (num_rooms - 1)
        if to_room_idx ≠ from_room_idx then
          let new_assignment := st.current_assignment.set student to_room_idx
          pure (some (new_assignment, get_room_lists new_assignment))
        else pure none
      else pure none
    else pure none
  else if u < 8 / 10 then
    -- swap
    if 2 ≤ num_rooms then do
      let ab ← sampleList (List.range num_rooms) 2
      let room_a_idx := ab.getD 0 0
      let room_b_idx := ab.getD 1 0
      if (st.room_assignments.getD room_a_idx []).length ≠ 0 ∧
          (st.room_assignments.getD room_b_idx []).length ≠ 0 then do
        let student_a ← randChoice (st.room_assignments.getD room_a_idx [])
        let student_b ← randChoice (st.room_assignments.getD room_b_idx [])
        let new_assignment := (st.current_assignment.set student_a
          room_b_idx).set student_b room_a_idx
        pure (some (new_assignment, get_room_lists new_assignment))
      else pure none
    else pure none
  else if u < 9 / 10 then
    -- merge
    if 2 ≤ num_rooms then do
      let ab ← sampleList (List.range num_rooms) 2
      let room_a_idx := ab.getD 0 0
      let room_b_idx := ab.getD 1 0
      let merged := (st.room_assignments.getD room_b_idx []).foldl
        (fun l s => l.set s room_a_idx) st.current_assignment
      let new_assignment := firstAppearanceRenumber merged
      pure (some (new_assignment, get_room_lists new_assignment))
    else pure none
  else
    -- split
    if num_rooms < num_students then do
      let room_idx ← randint 0 (num_rooms - 1)
      let room_students := st.room_assignments.getD room_idx []
      if 2 ≤ room_students.length then do
        let num_to_split ← randint 1 (room_students.length - 1)
        let students_to_move ← sampleList room_students num_to_split
        let new_room_id := st.current_assignment.foldr max 0 + 1
        let moved := students_to_move.foldl
          (fun l s => l.set s new_room_id) st.current_assignment
        let new_assignment := firstAppearanceRenumber moved
        pure (some (new_assignment, get_room_lists new_assignment))
      else pure none
    else pure none

/-- One iteration of the annealing inner loop: propose, evaluate, apply the
Metropolis acceptance, and update the tracked best (only valid strict
improvements replace it). -/
def sa_inner (G : Graph) (stress_budget : ℚ) (expf : ℚ → Option ℚ)
    (num_students : ℕ) (st : SAState) : PyM SAState := do
  let st := { st with iteration := st.iteration + 1 }
  let proposal ← sa_propose G num_students st
  match proposal with
  | none => pure st
  | some (new_assignment, new_room_lists) => do
    let res ← liftE (evaluate_solution G stress_budget new_assignment)
    let new_happiness := res.1
    let new_valid := res.2
    let happiness_delta := new_happiness - st.current_happiness
    let accept_move ← acceptance_decision happiness_delta st.temperature expf
    if accept_move then
      let st := { st with current_assignment := new_assignment,
                          room_assignments := new_room_lists,
                          current_happiness := new_happiness }
      if new_valid ∧ st.best_happiness < new_happiness then
        pure { st with best_happiness := new_happiness,
                       best_assignment := new_assignment,
                       no_improve_count := 0 }
      else pure { st with no_improve_count := st.no_improve_count + 1 }
    else pure { st with no_improve_count := st.no_improve_count + 1 }

/-- The batch of `iterations_per_temp` inner iterations at one temperature. -/
def sa_batch (G : Graph) (stress_budget : ℚ) (expf : ℚ → Option ℚ)
    (num_students : ℕ) : ℕ → SAState → PyM SAState
  | 0, st => pure st
  | k + 1, st => do
    let st' ← sa_inner G stress_budget expf num_students st
    sa_batch G stress_budget expf num_students k st'

/-- The outer cooling loop of `simulated_annealing` (fuel-bounded; the
source loop terminates because the iteration counter grows by at least
`iterations_per_temp ≥ 3` per pass). -/
def sa_outer (G : Graph) (stress_budget : ℚ) (expf : ℚ → Option ℚ)
    (num_students : ℕ) : ℕ → SAState → PyM SAState
  | 0, st => pure st
  | fuel + 1, st =>
    if st.temperature > 1 / 2 ∧ st.iteration < 500 * num_students ∧
        st.reheat_count < 3 then do
      let st ← sa_batch G stress_budget expf num_students
        (max 3 (num_students / 3)) st
      let st := { st with temperature := st.temperature * (97 / 100) }
      let st := if 150 < st.no_improve_count then
          { st with temperature := min (st.temperature * 2) (50 / 2),
                    no_improve_count := 0,
                    reheat_count := st.reheat_count + 1 }
        else st
      sa_outer G stress_budget expf num_students fuel st
    else pure st

/-- Source `simulated_annealing.simulated_annealing` (`math.exp` is the
external oracle `expf`; constants as in the source: initial temperature 50,
floor 0.5, cooling rate 0.97, 500·N iteration cap, reheat threshold 150,
at most 3 reheats). -/
def simulated_annealing (G : Graph) (stress_budget : ℚ)
    (expf : ℚ → Option ℚ) : PyM (List ℕ × ℕ) := do
  let num_students := G.n
  let current_assignment := greedy_init G stress_budget num_students
  let room_assignments := get_room_lists current_assignment
  let res ← liftE (evaluate_solution G stress_budget current_assignment)
  let st0 : SAState :=
    { current_assignment := current_assignment,
      room_assignments := room_assignments,
      best_assignment := current_assignment,
      best_happiness := res.1,
      current_happiness := res.1,
      temperature := 50,
      iteration := 0,
      no_improve_count := 0,
      reheat_count := 0 }
  let stF ← sa_outer G stress_budget expf num_students
    (500 * num_students + 1) st0
  pure (stF.best_assignment, countDistinct stF.best_assignment)

/-! ## Run lemmas for the monadic embedding -/

theorem pym_bind_ok {α β : Type} (x : PyM α) (f : α → PyM β) (rng rng₁ : Rng)
    (a : α) (hx : x rng = .ok (a, rng₁)) : (x >>= f) rng = f a rng₁ := by
  show StateT.bind x f rng = f a rng₁
  unfold StateT.bind
  rw [hx]
  rfl

theorem pym_pure_ok {α : Type} (a : α) (rng : Rng) :
    (pure a : PyM α) rng = .ok (a, rng) := rfl

theorem liftE_run {α : Type} {e : Except PyErr α} {a : α} (h : e = .ok a)
    (rng : Rng) : liftE e rng = .ok (a, rng) := by
  unfold liftE
  rw [h]

theorem is_valid_ok (D : List ℕ) (G : Graph) (s : ℚ) {k : ℕ} (hk : k ≠ 0) :
    ∃ b, is_valid_solution D G s k = .ok b := by
  unfold is_valid_solution
  rw [if_neg hk]
  exact ⟨_, rfl⟩

theorem is_valid_true_of_ok {D : List ℕ} {G : Graph} {s : ℚ} {k : ℕ}
    (hk : k = countDistinct D) {b : Bool}
    (hb : is_valid_solution D G s k = .ok b) (htrue : b = true) :
    ValidAssignment D G s := by
  unfold ValidAssignment
  rw [← hk, hb, htrue]

theorem roomsOf_length (a : List ℕ) : (roomsOf a).length = countDistinct a := by
  unfold roomsOf countDistinct
  exact List.length_map _ _

theorem dictGet_roomsOf {a : List ℕ} {r : ℕ} (hr : r ∈ distinctFirst a) :
    dictGet (roomsOf a) r = idxOf a r := by
  unfold dictGet
  rw [roomsOf_eq_idxOf, find?_map_key hr]

theorem exists_other_mem {l : List ℕ} {x : ℕ} (hnd : l.Nodup) (hx : x ∈ l)
    (hlen : 2 ≤ l.length) : ∃ w ∈ l, w ≠ x := by
  cases l with
  | nil => simp at hx
  | cons y ys =>
    cases ys with
    | nil => simp at hlen
    | cons z zs =>
      by_cases hyx : y = x
      · refine ⟨z, by simp, ?_⟩
        intro hc
        rw [List.nodup_cons] at hnd
        exact hnd.1 (by rw [hyx, ← hc]; simp)
      · exact ⟨y, by simp, hyx⟩

theorem getD_map_lt {α β : Type} (g : α → β) (l : List α) (i : ℕ) (d : β)
    (h : i < l.length) : (l.map g).getD i d = g (l.get ⟨i, h⟩) := by
  rw [List.getD_eq_getElem?_getD, List.getElem?_map,
    List.getElem?_eq_getElem h]
  rfl

theorem acceptance_decision_ok (delta temp : ℚ) (expf : ℚ → Option ℚ)
    (rng : Rng) : ∃ b rng',
    acceptance_decision delta temp expf rng = .ok (b, rng') := by
  unfold acceptance_decision
  by_cases hd : delta > 0
  · rw [if_pos hd]; exact ⟨true, rng, rfl⟩
  · rw [if_neg hd]
    by_cases ht : temp > 0
    · rw [if_pos ht]
      cases hexp : expf (delta / temp) with
      | some p =>
        refine ⟨rng.qs 0 < p, ⟨rng.nats, fun i => rng.qs (i + 1)⟩, ?_⟩
        rfl
      | none => exact ⟨false, rng, rfl⟩
    · rw [if_neg ht]; exact ⟨false, rng, rfl⟩

theorem roomsOf_keys (a : List ℕ) :
    (roomsOf a).map Prod.fst = distinctFirst a := by
  unfold roomsOf
  rw [List.map_map]
  have : (Prod.fst ∘ fun r => (r, (List.range a.length).filter
      fun i => decide (a.getD i 0 = r))) = id := by
    funext r
    rfl
  rw [this, List.map_id]

theorem countDistinct_pos {l : List ℕ} (h : l ≠ []) : 1 ≤ countDistinct l := by
  rcases List.exists_mem_of_ne_nil l h with ⟨x, hx⟩
  have : x ∈ distinctFirst l := (mem_distinctFirst _ _).mpr hx
  have : distinctFirst l ≠ [] := List.ne_nil_of_mem this
  unfold countDistinct
  have := List.length_pos.mpr this
  omega

theorem move_candidate {n : ℕ} {a : List ℕ} (hlen : a.length = n)
    (hcontig : Contig a) {student target : ℕ} (hstu : student < n)
    (htarget : target ∈ distinctFirst a)
    (hguard : (dictGet (roomsOf a) (a.getD student 0)).length ≠ 1) :
    (a.set student target).length = n ∧
    countDistinct (a.set student target) = countDistinct a ∧
    Contig (a.set student target) := by
  have hstu' : student < a.length := hlen ▸ hstu
  have hval_mem : a.getD student 0 ∈ a := getD_mem_of_lt a student hstu'
  have hval_df : a.getD student 0 ∈ distinctFirst a :=
    (mem_distinctFirst _ _).mpr hval_mem
  rw [dictGet_roomsOf hval_df] at hguard
  have hstu_idx : student ∈ idxOf a (a.getD student 0) :=
    (mem_idxOf _ _ _).mpr ⟨hstu', rfl⟩
  have hlen2 : 2 ≤ (idxOf a (a.getD student 0)).length := by
    have h1 := List.length_pos.mpr (List.ne_nil_of_mem hstu_idx)
    omega
  obtain ⟨w, hw, hwne⟩ :=
    exists_other_mem (nodup_idxOf a _) hstu_idx hlen2
  have hwmem := (mem_idxOf _ _ _).mp hw
  have hmemiff := set_mem_iff hstu' ((mem_distinctFirst _ _).mp htarget)
    ⟨w, hwmem.1, hwne, hwmem.2⟩
  have hcd := countDistinct_congr hmemiff
  refine ⟨by rw [List.length_set, hlen], hcd, ?_⟩
  intro r
  rw [hcd, hmemiff r]
  exact hcontig r

theorem move_scan_inner_spec (G : Graph) (s : ℚ) {n : ℕ} {a : List ℕ}
    (hlen : a.length = n) (hcontig : Contig a) {num_rooms : ℕ}
    (hnum : num_rooms = countDistinct a) (hk : num_rooms ≠ 0) (bh : ℚ)
    {student : ℕ} (hstu : student < n)
    (hguard : (dictGet (roomsOf a) (a.getD student 0)).length ≠ 1) :
    ∀ (targets : List ℕ), (∀ t ∈ targets, t ∈ distinctFirst a) → ∀ rng,
    ∃ out rng',
      move_scan_inner G s a num_rooms bh student targets rng = .ok (out, rng') ∧
      ∀ na nh, out = some (na, nh) →
        na.length = n ∧ Contig na ∧ ValidAssignment na G s := by
  intro targets
  induction targets with
  | nil =>
    intro _ rng
    exact ⟨none, rng, rfl, by simp⟩
  | cons t rest ih =>
    intro hts rng
    by_cases ht : t = a.getD student 0
    · obtain ⟨out, rng', hrun, hprop⟩ :=
        ih (fun u hu => hts u (List.mem_cons_of_mem t hu)) rng
      refine ⟨out, rng', ?_, hprop⟩
      simp only [move_scan_inner, if_pos ht]
      exact hrun
    · have htd : t ∈ distinctFirst a := hts t (List.mem_cons_self t rest)
      have hcand := move_candidate hlen hcontig hstu htd hguard
      obtain ⟨b, hb⟩ := is_valid_ok (a.set student t) G s hk
      have hstep : ∀ (k : Bool → PyM (Option (List ℕ × ℚ))),
          (liftE (is_valid_solution (a.set student t) G s num_rooms) >>= k) rng
            = k b rng :=
        fun k => pym_bind_ok _ k rng rng b (liftE_run hb rng)
      cases b with
      | false =>
        obtain ⟨out, rng', hrun, hprop⟩ :=
          ih (fun u hu => hts u (List.mem_cons_of_mem t hu)) rng
        refine ⟨out, rng', ?_, hprop⟩
        simp only [move_scan_inner, if_neg ht]
        rw [hstep]
        simpa using hrun
      | true =>
        by_cases himp : bh < calculate_happiness (a.set student t) G
        · refine ⟨some (a.set student t, calculate_happiness (a.set student t) G),
            rng, ?_, ?_⟩
          · simp only [move_scan_inner, if_neg ht]
            rw [hstep]
            simp [himp, pym_pure_ok]
          · intro na nh hout
            injection hout with hout
            injection hout with h1 h2
            subst h1
            refine ⟨hcand.1, hcand.2.2, ?_⟩
            exact is_valid_true_of_ok (by rw [hnum, hcand.2.1]) hb rfl
        · obtain ⟨out, rng', hrun, hprop⟩ :=
            ih (fun u hu => hts u (List.mem_cons_of_mem t hu)) rng
          refine ⟨out, rng', ?_, hprop⟩
          simp only [move_scan_inner, if_neg ht]
          rw [hstep]
          simpa [himp] using hrun

theorem move_scan_spec (G : Graph) (s : ℚ) {n : ℕ} {a : List ℕ}
    (hlen : a.length = n) (hcontig : Contig a) {num_rooms : ℕ}
    (hnum : num_rooms = countDistinct a) (hk : num_rooms ≠ 0) (bh : ℚ) :
    ∀ (students : List ℕ), (∀ st ∈ students, st < n) → ∀ rng,
    ∃ out rng',
      move_scan G s a (roomsOf a) num_rooms ((roomsOf a).map Prod.fst) bh
        students rng = .ok (out, rng') ∧
      ∀ na nh, out = some (na, nh) →
        na.length = n ∧ Contig na ∧ ValidAssignment na G s := by
  intro students
  induction students with
  | nil => intro _ rng; exact ⟨none, rng, rfl, by simp⟩
  | cons student rest ih =>
    intro hss rng
    by_cases hguard : (dictGet (roomsOf a) (a.getD student 0)).length = 1
    · obtain ⟨out, rng', hrun, hprop⟩ :=
        ih (fun u hu => hss u (List.mem_cons_of_mem student hu)) rng
      refine ⟨out, rng', ?_, hprop⟩
      simp only [move_scan, if_pos hguard]
      exact hrun
    · have hstu : student < n := hss student (List.mem_cons_self student rest)
      have hkeys : ∀ t ∈ (roomsOf a).map Prod.fst, t ∈ distinctFirst a := by
        intro t ht
        rwa [roomsOf_keys] at ht
      obtain ⟨out1, rng1, hrun1, hprop1⟩ :=
        move_scan_inner_spec G s hlen hcontig hnum hk bh hstu hguard
          ((roomsOf a).map Prod.fst) hkeys rng
      have hstep : ∀ (k : Option (List ℕ × ℚ) → PyM (Option (List ℕ × ℚ))),
          (move_scan_inner G s a num_rooms bh student
            ((roomsOf a).map Prod.fst) >>= k) rng = k out1 rng1 :=
        fun k => pym_bind_ok _ k rng rng1 out1 hrun1
      cases out1 with
      | some res =>
        refine ⟨some res, rng1, ?_, ?_⟩
        · simp only [move_scan, if_neg hguard]
          rw [hstep]
          rfl
        · intro na nh hout
          injection hout with hout
          exact hprop1 na nh (by rw [hout])
      | none =>
        obtain ⟨out, rng', hrun, hprop⟩ :=
          ih (fun u hu => hss u (List.mem_cons_of_mem student hu)) rng1
        refine ⟨out, rng', ?_, hprop⟩
        simp only [move_scan, if_neg hguard]
        rw [hstep]
        exact hrun

theorem swap_scan_spec (G : Graph) (s : ℚ) {n : ℕ} {a : List ℕ}
    (hlen : a.length = n) (hcontig : Contig a) {num_rooms : ℕ}
    (hnum : num_rooms = countDistinct a) (hk : num_rooms ≠ 0) (bh : ℚ)
    (hids2 : 2 ≤ ((roomsOf a).map Prod.fst).length) :
    ∀ (count : ℕ) (rng : Rng),
    ∃ out rng',
      swap_scan G s a (roomsOf a) num_rooms ((roomsOf a).map Prod.fst) bh
        count rng = .ok (out, rng') ∧
      ∀ na nh, out = some (na, nh) →
        na.length = n ∧ Contig na ∧ ValidAssignment na G s := by
  intro count
  induction count with
  | zero => intro rng; exact ⟨none, rng, rfl, by simp⟩
  | succ count ih =>
    intro rng
    obtain ⟨ab, rng1, hsmp, hablen, habsub, habnd⟩ :=
      sampleList_spec 2 ((roomsOf a).map Prod.fst) rng hids2
    have hstep1 : ∀ (k : List ℕ → PyM (Option (List ℕ × ℚ))),
        (sampleList ((roomsOf a).map Prod.fst) 2 >>= k) rng = k ab rng1 :=
      fun k => pym_bind_ok _ k rng rng1 ab hsmp
    obtain ⟨x, y, rfl⟩ : ∃ x y, ab = [x, y] := by
      cases ab with
      | nil => simp at hablen
      | cons x t =>
        cases t with
        | nil => simp at hablen
        | cons y t2 =>
          cases t2 with
          | nil => exact ⟨x, y, rfl⟩
          | cons z t3 => simp at hablen
    have hxy : x ≠ y := by
      have hnd := habnd (by rw [roomsOf_keys]; exact nodup_distinctFirst a)
      rw [List.nodup_cons] at hnd
      intro hc
      exact hnd.1 (by rw [hc]; simp)
    have hxd : x ∈ distinctFirst a := by
      have := habsub x (by simp)
      rwa [roomsOf_keys] at this
    have hyd : y ∈ distinctFirst a := by
      have := habsub y (by simp)
      rwa [roomsOf_keys] at this
    by_cases hempty : (dictGet (roomsOf a) ([x, y].getD 0 0)).length = 0 ∨
        (dictGet (roomsOf a) ([x, y].getD 1 0)).length = 0
    · obtain ⟨out, rng', hrun, hprop⟩ := ih rng1
      refine ⟨out, rng', ?_, hprop⟩
      simp only [swap_scan]
      rw [hstep1]
      simp only [if_pos hempty]
      exact hrun
    · have hnn := hempty
      push_neg at hnn
      have hxne : dictGet (roomsOf a) x ≠ [] := by
        intro hc
        exact hnn.1 (by simpa using congrArg List.length hc)
      have hyne : dictGet (roomsOf a) y ≠ [] := by
        intro hc
        exact hnn.2 (by simpa using congrArg List.length hc)
      obtain ⟨sa, rng2, hch1, hsamem⟩ := randChoice_spec _ rng1 hxne
      obtain ⟨sb, rng3, hch2, hsbmem⟩ := randChoice_spec _ rng2 hyne
      rw [dictGet_roomsOf hxd] at hsamem
      rw [dictGet_roomsOf hyd] at hsbmem
      obtain ⟨hsalt, hsaval⟩ := (mem_idxOf _ _ _).mp hsamem
      obtain ⟨hsblt, hsbval⟩ := (mem_idxOf _ _ _).mp hsbmem
      have hsasb : sa ≠ sb := by
        intro hc
        exact hxy (by rw [← hsaval, hc, hsbval])
      set na := (a.set sa y).set sb x with hna
      have hmemiff := swap_set_mem_iff hsalt hsblt hsasb hsaval hsbval
      have hcd := countDistinct_congr hmemiff
      have hnalen : na.length = n := by
        rw [hna, List.length_set, List.length_set, hlen]
      have hnacontig : Contig na := by
        intro r
        rw [hcd, hmemiff r]
        exact hcontig r
      obtain ⟨b, hb⟩ := is_valid_ok na G s hk
      have hstep2 : ∀ (k : Bool → PyM (Option (List ℕ × ℚ))),
          (liftE (is_valid_solution na G s num_rooms) >>= k) rng3 =
            k b rng3 :=
        fun k => pym_bind_ok _ k rng3 rng3 b (liftE_run hb rng3)
      have hstepc1 : ∀ (k : ℕ → PyM (Option (List ℕ × ℚ))),
          (randChoice (dictGet (roomsOf a) x) >>= k) rng1 = k sa rng2 :=
        fun k => pym_bind_ok _ k rng1 rng2 sa hch1
      have hstepc2 : ∀ (k : ℕ → PyM (Option (List ℕ × ℚ))),
          (randChoice (dictGet (roomsOf a) y) >>= k) rng2 = k sb rng3 :=
        fun k => pym_bind_ok _ k rng2 rng3 sb hch2
      cases b with
      | false =>
        obtain ⟨out, rng', hrun, hprop⟩ := ih rng3
        refine ⟨out, rng', ?_, hprop⟩
        simp only [swap_scan]
        rw [hstep1]
        simp only [if_neg hempty]
        rw [show ([x, y].getD 0 0) = x from rfl, show ([x, y].getD 1 0) = y from rfl]
        rw [hstepc1, hstepc2, hstep2]
        simpa using hrun
      | true =>
        by_cases himp : bh < calculate_happiness na G
        · refine ⟨some (na, calculate_happiness na G), rng3, ?_, ?_⟩
          · simp only [swap_scan]
            rw [hstep1]
            simp only [if_neg hempty]
            rw [show ([x, y].getD 0 0) = x from rfl, show ([x, y].getD 1 0) = y from rfl]
            rw [hstepc1, hstepc2, hstep2]
            simp [himp, pym_pure_ok]
          · intro na' nh' hout
            injection hout with hout
            injection hout with h1 h2
            subst h1
            refine ⟨hnalen, hnacontig, ?_⟩
            exact is_valid_true_of_ok (by rw [hnum, hcd]) hb rfl
        · obtain ⟨out, rng', hrun, hprop⟩ := ih rng3
          refine ⟨out, rng', ?_, hprop⟩
          simp only [swap_scan]
          rw [hstep1]
          simp only [if_neg hempty]
          rw [show ([x, y].getD 0 0) = x from rfl, show ([x, y].getD 1 0) = y from rfl]
          rw [hstepc1, hstepc2, hstep2]
          simpa [himp] using hrun

theorem try_merge_go_spec (G : Graph) (s : ℚ) {n : ℕ} {a : List ℕ}
    (hlen : a.length = n) (hne : a ≠ []) (rooms : List (ℕ × List ℕ)) (ch : ℚ) :
    ∀ (pairs : List (ℕ × ℕ)),
    ∃ out, try_merge_go G s a rooms ch pairs = .ok out ∧
      ∀ na k' nh, out = some (na, k', nh) →
        na.length = n ∧ Contig na ∧ ValidAssignment na G s ∧
          k' = countDistinct na := by
  intro pairs
  induction pairs with
  | nil => exact ⟨none, rfl, by simp⟩
  | cons p rest ih =>
    obtain ⟨ra, rb⟩ := p
    set pre := (dictGet rooms rb).foldl (fun l t => l.set t ra) a with hpre
    have hprelen : pre.length = n := by
      rw [hpre, length_foldl_set, hlen]
    have hprene : pre ≠ [] := by
      intro hc
      have h0 : pre.length = 0 := by rw [hc]; rfl
      rw [hprelen, ← hlen] at h0
      exact hne (List.eq_nil_of_length_eq_zero h0)
    have hkpre : countDistinct pre ≠ 0 := by
      have := countDistinct_pos hprene
      omega
    obtain ⟨b, hb⟩ := @is_valid_ok pre G s (countDistinct pre) hkpre
    obtain ⟨out0, hrun0, hprop0⟩ := ih
    have hstep : try_merge_go G s a rooms ch ((ra, rb) :: rest) =
        if b = true then
          (if ch ≤ calculate_happiness pre G then
            .ok (some ((renumber_rooms pre).1, (renumber_rooms pre).2,
              calculate_happiness pre G))
          else try_merge_go G s a rooms ch rest)
        else try_merge_go G s a rooms ch rest := by
      simp only [try_merge_go, bind, Except.bind]
      rw [← hpre, hb]
    cases b with
    | false =>
      refine ⟨out0, ?_, hprop0⟩
      rw [hstep]
      simpa using hrun0
    | true =>
      by_cases himp : ch ≤ calculate_happiness pre G
      · refine ⟨some ((renumber_rooms pre).1, (renumber_rooms pre).2,
          calculate_happiness pre G), ?_, ?_⟩
        · rw [hstep, if_pos rfl, if_pos himp]
        · intro na k' nh hout
          injection hout with hout
          injection hout with h1 h23
          injection h23 with h2 h3
          obtain ⟨hcd, hcontig, hlenr, hk2⟩ := renumber_rooms_props pre
          have hvpre : ValidAssignment pre G s :=
            is_valid_true_of_ok rfl hb rfl
          have hinj : ∀ x ∈ pre, ∀ y ∈ pre,
              (sortedDistinct pre).indexOf x = (sortedDistinct pre).indexOf y →
                x = y := by
            intro x hx y hy hxy
            exact (List.indexOf_inj ((mem_sortedDistinct _ _).mpr hx)
              ((mem_sortedDistinct _ _).mpr hy)).mp hxy
          have hrmap : (renumber_rooms pre).1 =
              pre.map fun r => (sortedDistinct pre).indexOf r := rfl
          refine ⟨?_, h1 ▸ hcontig, ?_, ?_⟩
          · rw [← h1, hlenr, hprelen]
          · rw [← h1, hrmap]
            exact ValidAssignment_map_injOn hinj hvpre
          · rw [← h1, ← h2]
            exact hk2
      · refine ⟨out0, ?_, hprop0⟩
        rw [hstep, if_pos rfl, if_neg himp]
        exact hrun0

theorem try_merge_rooms_spec (G : Graph) (s : ℚ) {n : ℕ} {a : List ℕ}
    (hlen : a.length = n) (hne : a ≠ []) (rooms : List (ℕ × List ℕ)) (ch : ℚ) :
    ∃ out, try_merge_rooms G s a rooms ch = .ok out ∧
      ∀ na k' nh, out = some (na, k', nh) →
        na.length = n ∧ Contig na ∧ ValidAssignment na G s ∧
          k' = countDistinct na :=
  try_merge_go_spec G s hlen hne rooms ch _

/-- Invariant of the `local_search` improvement loop: the current and best
assignments keep length `n` and contiguous room ids, and the best assignment
is valid. -/
structure LSInv (G : Graph) (s : ℚ) (n : ℕ) (st : List ℕ × List ℕ × ℚ) :
    Prop where
  cur_len : st.1.length = n
  cur_contig : Contig st.1
  best_len : st.2.1.length = n
  best_contig : Contig st.2.1
  best_valid : ValidAssignment st.2.1 G s

theorem local_search_iteration_spec (G : Graph) (s : ℚ) {n : ℕ} (hn : 1 ≤ n)
    {st : List ℕ × List ℕ × ℚ} (hInv : LSInv G s n st) (rng : Rng) :
    ∃ st' imp rng',
      local_search_iteration G s st rng = .ok ((st', imp), rng') ∧
      LSInv G s n st' := by
  obtain ⟨A, B, bh⟩ := st
  obtain ⟨hal, hac, hbl, hbc, hbv⟩ := hInv
  replace hal : A.length = n := hal
  replace hac : Contig A := hac
  replace hbl : B.length = n := hbl
  replace hbc : Contig B := hbc
  replace hbv : ValidAssignment B G s := hbv
  have hane : A ≠ [] := by
    intro hc
    rw [hc] at hal
    simp at hal
    omega
  have hkA : countDistinct A ≠ 0 := by
    have := countDistinct_pos hane
    omega
  have hnumR : (roomsOf A).length = countDistinct A := roomsOf_length A
  have hkR : (roomsOf A).length ≠ 0 := by rw [hnumR]; exact hkA
  obtain ⟨students, rng1, hshuf, hstlen, hstmem, hstnd⟩ :=
    sampleList_spec (List.range A.length).length (List.range A.length) rng
      le_rfl
  have hss : ∀ u ∈ students, u < n := by
    intro u hu
    have := hstmem u hu
    rw [List.mem_range] at this
    omega
  obtain ⟨mv, rng2, hmv, hmvp⟩ :=
    move_scan_spec G s hal hac hnumR hkR bh students hss rng1
  have hstep1 : ∀ (k : List ℕ → PyM ((List ℕ × List ℕ × ℚ) × Bool)),
      (shuffleList (List.range A.length) >>= k) rng = k students rng1 :=
    fun k => pym_bind_ok _ k rng rng1 students hshuf
  have hstep2 : ∀ (k : Option (List ℕ × ℚ) →
      PyM ((List ℕ × List ℕ × ℚ) × Bool)),
      (move_scan G s A (roomsOf A) (roomsOf A).length
        ((roomsOf A).map Prod.fst) bh students >>= k) rng1 = k mv rng2 :=
    fun k => pym_bind_ok _ k rng1 rng2 mv hmv
  cases mv with
  | some p =>
    obtain ⟨na, nh⟩ := p
    obtain ⟨hnal, hnac, hnav⟩ := hmvp na nh rfl
    refine ⟨(na, na, nh), true, rng2, ?_, ⟨hnal, hnac, hnal, hnac, hnav⟩⟩
    simp only [local_search_iteration, hstep1, hstep2]
    rfl
  | none =>
    by_cases h2 : 2 ≤ ((roomsOf A).map Prod.fst).length
    · obtain ⟨sw, rng3, hsw, hswp⟩ :=
        swap_scan_spec G s hal hac hnumR hkR bh h2
          (min 100 ((roomsOf A).length * (roomsOf A).length)) rng2
      have hstep3 : ∀ (k : Option (List ℕ × ℚ) →
          PyM ((List ℕ × List ℕ × ℚ) × Bool)),
          (swap_scan G s A (roomsOf A) (roomsOf A).length
            ((roomsOf A).map Prod.fst) bh
            (min 100 ((roomsOf A).length * (roomsOf A).length)) >>= k) rng2 =
            k sw rng3 :=
        fun k => pym_bind_ok _ k rng2 rng3 sw hsw
      cases sw with
      | some p =>
        obtain ⟨na, nh⟩ := p
        obtain ⟨hnal, hnac, hnav⟩ := hswp na nh rfl
        refine ⟨(na, na, nh), true, rng3, ?_, ⟨hnal, hnac, hnal, hnac, hnav⟩⟩
        simp only [local_search_iteration, hstep1, hstep2]
        rw [if_pos h2]
        simp only [hstep3]
        rfl
      | none =>
        by_cases h1 : 1 < (roomsOf A).length
        · obtain ⟨mg, hmg, hmgp⟩ :=
            try_merge_rooms_spec G s hal hane (roomsOf A) bh
          have hstep4 : ∀ (k : Option (List ℕ × ℕ × ℚ) →
              PyM ((List ℕ × List ℕ × ℚ) × Bool)),
              (liftE (try_merge_rooms G s A (roomsOf A) bh) >>= k) rng3 =
                k mg rng3 :=
            fun k => pym_bind_ok _ k rng3 rng3 mg (liftE_run hmg rng3)
          cases mg with
          | some t =>
            obtain ⟨na, k', nh⟩ := t
            obtain ⟨hnal, hnac, hnav, _⟩ := hmgp na k' nh rfl
            refine ⟨(na, na, nh), true, rng3, ?_,
              ⟨hnal, hnac, hnal, hnac, hnav⟩⟩
            simp only [local_search_iteration, hstep1, hstep2]
            rw [if_pos h2]
            simp only [hstep3]
            rw [if_pos h1]
            simp only [hstep4]
            rfl
          | none =>
            refine ⟨(A, B, bh), false, rng3, ?_, ⟨hal, hac, hbl, hbc, hbv⟩⟩
            simp only [local_search_iteration, hstep1, hstep2]
            rw [if_pos h2]
            simp only [hstep3]
            rw [if_pos h1]
            simp only [hstep4]
            rfl
        · refine ⟨(A, B, bh), false, rng3, ?_, ⟨hal, hac, hbl, hbc, hbv⟩⟩
          simp only [local_search_iteration, hstep1, hstep2]
          rw [if_pos h2]
          simp only [hstep3]
          rw [if_neg h1]
          rfl
    · have h1 : ¬(1 < (roomsOf A).length) := by
        rw [List.length_map] at h2
        exact h2
      refine ⟨(A, B, bh), false, rng2, ?_, ⟨hal, hac, hbl, hbc, hbv⟩⟩
      simp only [local_search_iteration, hstep1, hstep2]
      rw [if_neg h2]
      rw [show ∀ (k : Option (List ℕ × ℚ) →
          PyM ((List ℕ × List ℕ × ℚ) × Bool)),
          ((pure none : PyM (Option (List ℕ × ℚ))) >>= k) rng2 = k none rng2
        from fun k => pym_bind_ok _ k rng2 rng2 none rfl]
      rw [if_neg h1]
      rfl

theorem greedy_construction_props (G : Graph) (s : ℚ)
    (hsym : ∀ i j, G.st i j = G.st j i) (hs : 0 < s) (hn : 1 ≤ G.n) :
    (greedy_construction G s G.n).1.length = G.n ∧
    Contig (greedy_construction G s G.n).1 ∧
    ValidAssignment (greedy_construction G s G.n).1 G s ∧
    (greedy_construction G s G.n).2 =
      countDistinct (greedy_construction G s G.n).1 := by
  have hInv : GCInv G s G.n
      ((sortedEdges G G.n).foldl (gcStep G s) (initGCState G.n)) :=
    foldl_gcStep_inv (initGCState_inv G s G.n hs.le) hs.le _
      (fun e he => mem_sortedEdges he)
  set stF := (sortedEdges G G.n).foldl (gcStep G s) (initGCState G.n)
  have hrel := relabel_props (nodup_sortedDistinct stF.asg)
    (fun x => mem_sortedDistinct stF.asg x)
  have hinj : ∀ x ∈ stF.asg, ∀ y ∈ stF.asg,
      (sortedDistinct stF.asg).indexOf x = (sortedDistinct stF.asg).indexOf y →
        x = y := by
    intro x hx y hy hxy
    exact (List.indexOf_inj ((mem_sortedDistinct _ _).mpr hx)
      ((mem_sortedDistinct _ _).mpr hy)).mp hxy
  have hmain := valid_of_GCInv hInv hn hsym _ hinj
  have hres : greedy_construction G s G.n =
      (stF.asg.map fun r => (sortedDistinct stF.asg).indexOf r,
        (sortedDistinct stF.asg).length) := rfl
  rw [hres]
  refine ⟨?_, hrel.2, ?_, ?_⟩
  · rw [List.length_map]
    exact hInv.hlen
  · exact hmain.1
  · exact hrel.1.symm

theorem local_search_loop_spec (G : Graph) (s : ℚ) {n : ℕ} (hn : 1 ≤ n) :
    ∀ (fuel : ℕ) (st : List ℕ × List ℕ × ℚ), LSInv G s n st → ∀ rng,
    ∃ st' rng', local_search_loop G s fuel st rng = .ok (st', rng') ∧
      LSInv G s n st' := by
  intro fuel
  induction fuel with
  | zero => intro st hInv rng; exact ⟨st, rng, rfl, hInv⟩
  | succ fuel ih =>
    intro st hInv rng
    obtain ⟨st1, imp, rng1, hrun, hInv1⟩ :=
      local_search_iteration_spec G s hn hInv rng
    have hstep : ∀ (k : (List ℕ × List ℕ × ℚ) × Bool →
        PyM (List ℕ × List ℕ × ℚ)),
        (local_search_iteration G s st >>= k) rng = k (st1, imp) rng1 :=
      fun k => pym_bind_ok _ k rng rng1 (st1, imp) hrun
    cases imp with
    | true =>
      obtain ⟨st', rng', hrun', hInv'⟩ := ih st1 hInv1 rng1
      refine ⟨st', rng', ?_, hInv'⟩
      simp only [local_search_loop, hstep]
      simpa using hrun'
    | false =>
      refine ⟨st1, rng1, ?_, hInv1⟩
      simp only [local_search_loop, hstep]
      rfl

theorem local_search_spec (G : Graph) (s : ℚ) {n : ℕ} (hn : 1 ≤ n)
    {a : List ℕ} (hlen : a.length = n) (hcontig : Contig a)
    (hvalid : ValidAssignment a G s) (num_rooms max_iterations : ℕ)
    (rng : Rng) :
    ∃ asg k rng',
      local_search G s a num_rooms max_iterations rng = .ok ((asg, k), rng') ∧
      asg.length = n ∧ Contig asg ∧ ValidAssignment asg G s ∧
        k = countDistinct asg := by
  obtain ⟨st', rng', hrun, hInv'⟩ :=
    local_search_loop_spec G s hn max_iterations
      (a, a, calculate_happiness a G) ⟨hlen, hcontig, hlen, hcontig, hvalid⟩
      rng
  refine ⟨st'.2.1, countDistinct st'.2.1, rng', ?_, hInv'.best_len,
    hInv'.best_contig, hInv'.best_valid, rfl⟩
  simp only [local_search]
  rw [pym_bind_ok _ _ rng rng' st' hrun]
  rfl

theorem greedy_local_search_spec (G : Graph) (s : ℚ)
    (hsym : ∀ i j, G.st i j = G.st j i) (hs : 0 < s) (hn : 1 ≤ G.n)
    (max_local_search_iterations : ℕ) (rng : Rng) :
    ∃ asg k rng',
      greedy_local_search G s max_local_search_iterations rng =
        .ok ((asg, k), rng') ∧
      asg.length = G.n ∧ Contig asg ∧ ValidAssignment asg G s ∧
        k = countDistinct asg := by
  obtain ⟨hlen, hcontig, hvalid, _⟩ := greedy_construction_props G s hsym hs hn
  obtain ⟨asg, k, rng', hrun, hprops⟩ :=
    local_search_spec G s hn hlen hcontig hvalid
      (greedy_construction G s G.n).2 max_local_search_iterations rng
  exact ⟨asg, k, rng', hrun, hprops⟩

theorem get_room_lists_length (a : List ℕ) :
    (get_room_lists a).length = countDistinct a := by
  unfold get_room_lists
  rw [List.length_map, sortedDistinct_length]

theorem get_room_lists_getD_contig {a : List ℕ} (hc : Contig a) {i : ℕ}
    (hi : i < countDistinct a) :
    (get_room_lists a).getD i [] = idxOf a i := by
  unfold get_room_lists
  rw [sortedDistinct_of_contig hc]
  have hi' : i < (List.range (countDistinct a)).length := by
    rw [List.length_range]
    exact hi
  rw [getD_map_lt _ _ _ _ hi']
  congr 1
  simp

theorem evaluate_solution_ok {G : Graph} {s : ℚ} {a : List ℕ} (ha : a ≠ []) :
    ∃ h b, evaluate_solution G s a = .ok (h, b) ∧
      (b = true → ValidAssignment a G s) := by
  have hk : countDistinct a ≠ 0 := by
    have := countDistinct_pos ha
    omega
  have hkl : (get_room_lists a).length = countDistinct a :=
    get_room_lists_length a
  obtain ⟨b, hb⟩ := @is_valid_ok a G s ((get_room_lists a).length)
    (by rw [hkl]; exact hk)
  refine ⟨if b then calculate_happiness a G else -1000, b, ?_, ?_⟩
  · simp only [evaluate_solution, bind, Except.bind]
    rw [hb]
    rfl
  · intro hbt
    exact is_valid_true_of_ok hkl hb hbt

/-- Invariant of the annealing loop: the current assignment stays a
contiguous length-`n` assignment with its room lists cached coherently, and
the tracked best stays a valid contiguous length-`n` assignment. -/
structure SAInv (G : Graph) (s : ℚ) (n : ℕ) (st : SAState) : Prop where
  cur_len : st.current_assignment.length = n
  cur_contig : Contig st.current_assignment
  rooms_eq : st.room_assignments = get_room_lists st.current_assignment
  best_len : st.best_assignment.length = n
  best_contig : Contig st.best_assignment
  best_valid : ValidAssignment st.best_assignment G s

theorem sa_propose_spec (G : Graph) (num_students : ℕ) {n : ℕ} (hn : 1 ≤ n)
    {st : SAState} (hcl : st.current_assignment.length = n)
    (hcc : Contig st.current_assignment)
    (hre : st.room_assignments = get_room_lists st.current_assignment)
    (rng : Rng) :
    ∃ out rng', sa_propose G num_students st rng = .ok (out, rng') ∧
      ∀ na rl, out = some (na, rl) →
        na.length = n ∧ Contig na ∧ rl = get_room_lists na := by
  set A := st.current_assignment with hA
  have hane : A ≠ [] := by
    intro hc
    rw [hc] at hcl
    simp at hcl
    omega
  have hk1 : 1 ≤ countDistinct A := countDistinct_pos hane
  have hnum : st.room_assignments.length = countDistinct A := by
    rw [hre, get_room_lists_length]
  have hu : randFloat rng =
      .ok (rng.qs 0, ⟨rng.nats, fun i => rng.qs (i + 1)⟩) := rfl
  set u := rng.qs 0 with hudef
  set rng1 : Rng := ⟨rng.nats, fun i => rng.qs (i + 1)⟩ with hrng1
  have hstepu : ∀ (k : ℚ → PyM (Option (List ℕ × List (List ℕ)))),
      (randFloat >>= k) rng = k u rng1 :=
    fun k => pym_bind_ok _ k rng rng1 u hu
  by_cases hu5 : u < 5 / 10
  · -- transfer branch
    by_cases hnr : 1 < st.room_assignments.length
    · obtain ⟨fr, rng2, hfrrun, _, hfrle⟩ :=
        randint_spec 0 (st.room_assignments.length - 1) rng1 (Nat.zero_le _)
      have hfrk : fr < countDistinct A := by omega
      have hstepfr : ∀ (k : ℕ → PyM (Option (List ℕ × List (List ℕ)))),
          (randint 0 (st.room_assignments.length - 1) >>= k) rng1 =
            k fr rng2 :=
        fun k => pym_bind_ok _ k rng1 rng2 fr hfrrun
      have hroomfr : st.room_assignments.getD fr [] = idxOf A fr := by
        rw [hre]
        exact get_room_lists_getD_contig hcc hfrk
      by_cases hg1 : 1 < (st.room_assignments.getD fr []).length
      · have hfrne : st.room_assignments.getD fr [] ≠ [] := by
          intro hc
          rw [hc] at hg1
          simp at hg1
        obtain ⟨student, rng3, hstrun, hstmem⟩ :=
          randChoice_spec (st.room_assignments.getD fr []) rng2 hfrne
        have hstepst : ∀ (k : ℕ → PyM (Option (List ℕ × List (List ℕ)))),
            (randChoice (st.room_assignments.getD fr []) >>= k) rng2 =
              k student rng3 :=
          fun k => pym_bind_ok _ k rng2 rng3 student hstrun
        rw [hroomfr] at hstmem
        obtain ⟨hstlt, hstval⟩ := (mem_idxOf _ _ _).mp hstmem
        obtain ⟨tgt, rng4, htorun, _, htole⟩ :=
          randint_spec 0 (st.room_assignments.length - 1) rng3 (Nat.zero_le _)
        have htok : tgt < countDistinct A := by omega
        have hstepto : ∀ (k : ℕ → PyM (Option (List ℕ × List (List ℕ)))),
            (randint 0 (st.room_assignments.length - 1) >>= k) rng3 =
              k tgt rng4 :=
          fun k => pym_bind_ok _ k rng3 rng4 tgt htorun
        by_cases hto : tgt ≠ fr
        · have htarget : tgt ∈ distinctFirst A :=
            (mem_distinctFirst _ _).mpr ((hcc tgt).mpr htok)
          have hguard : (dictGet (roomsOf A) (A.getD student 0)).length ≠ 1 := by
            rw [hstval, dictGet_roomsOf ((mem_distinctFirst _ _).mpr
              ((hcc fr).mpr hfrk))]
            rw [hroomfr] at hg1
            omega
          have hcand := move_candidate hcl hcc (hcl ▸ hstlt) htarget hguard
          refine ⟨some (A.set student tgt, get_room_lists (A.set student tgt)),
            rng4, ?_, ?_⟩
          · simp only [sa_propose, hstepu]
            rw [if_pos hu5, if_pos hnr]
            simp only [hstepfr]
            rw [if_pos hg1]
            simp only [hstepst, hstepto]
            rw [if_pos hto]
            rfl
          · intro na rl hout
            injection hout with hout
            injection hout with h1 h2
            subst h1
            subst h2
            exact ⟨hcand.1, hcand.2.2, rfl⟩
        · refine ⟨none, rng4, ?_, by simp⟩
          simp only [sa_propose, hstepu]
          rw [if_pos hu5, if_pos hnr]
          simp only [hstepfr]
          rw [if_pos hg1]
          simp only [hstepst, hstepto]
          rw [if_neg hto]
          rfl
      · refine ⟨none, rng2, ?_, by simp⟩
        simp only [sa_propose, hstepu]
        rw [if_pos hu5, if_pos hnr]
        simp only [hstepfr]
        rw [if_neg hg1]
        rfl
    · refine ⟨none, rng1, ?_, by simp⟩
      simp only [sa_propose, hstepu]
      rw [if_pos hu5, if_neg hnr]
      rfl
  · by_cases hu8 : u < 8 / 10
    · -- swap branch
      by_cases hnr2 : 2 ≤ st.room_assignments.length
      · have hrange2 : 2 ≤ (List.range st.room_assignments.length).length := by
          rw [List.length_range]
          exact hnr2
        obtain ⟨ab, rng2, hsmp, hablen, habsub, habnd⟩ :=
          sampleList_spec 2 (List.range st.room_assignments.length) rng1
            hrange2
        have hstepab : ∀ (k : List ℕ → PyM (Option (List ℕ × List (List ℕ)))),
            (sampleList (List.range st.room_assignments.length) 2 >>= k)
              rng1 = k ab rng2 :=
          fun k => pym_bind_ok _ k rng1 rng2 ab hsmp
        obtain ⟨ra, rb, rfl⟩ : ∃ x y, ab = [x, y] := by
          cases ab with
          | nil => simp at hablen
          | cons x t =>
            cases t with
            | nil => simp at hablen
            | cons y t2 =>
              cases t2 with
              | nil => exact ⟨x, y, rfl⟩
              | cons z t3 => simp at hablen
        have hrab : ra ≠ rb := by
          have hnd := habnd (List.nodup_range _)
          rw [List.nodup_cons] at hnd
          intro hc
          exact hnd.1 (by rw [hc]; simp)
        have hrak : ra < countDistinct A := by
          have := habsub ra (by simp)
          rw [List.mem_range] at this
          omega
        have hrbk : rb < countDistinct A := by
          have := habsub rb (by simp)
          rw [List.mem_range] at this
          omega
        have hroomra : st.room_assignments.getD ([ra, rb].getD 0 0) [] =
            idxOf A ra := by
          rw [show ([ra, rb].getD 0 0) = ra from rfl, hre]
          exact get_room_lists_getD_contig hcc hrak
        have hroomrb : st.room_assignments.getD ([ra, rb].getD 1 0) [] =
            idxOf A rb := by
          rw [show ([ra, rb].getD 1 0) = rb from rfl, hre]
          exact get_room_lists_getD_contig hcc hrbk
        by_cases hgg : (st.room_assignments.getD ([ra, rb].getD 0 0) []).length
            ≠ 0 ∧ (st.room_assignments.getD ([ra, rb].getD 1 0) []).length ≠ 0
        · have hrane : st.room_assignments.getD ([ra, rb].getD 0 0) [] ≠ [] := by
            intro hc
            exact hgg.1 (by rw [hc]; rfl)
          have hrbne : st.room_assignments.getD ([ra, rb].getD 1 0) [] ≠ [] := by
            intro hc
            exact hgg.2 (by rw [hc]; rfl)
          obtain ⟨sa, rng3, hsarun, hsamem⟩ :=
            randChoice_spec _ rng2 hrane
          obtain ⟨sb, rng4, hsbrun, hsbmem⟩ :=
            randChoice_spec _ rng3 hrbne
          have hstepsa : ∀ (k : ℕ → PyM (Option (List ℕ × List (List ℕ)))),
              (randChoice (st.room_assignments.getD ([ra, rb].getD 0 0) [])
                >>= k) rng2 = k sa rng3 :=
            fun k => pym_bind_ok _ k rng2 rng3 sa hsarun
          have hstepsb : ∀ (k : ℕ → PyM (Option (List ℕ × List (List ℕ)))),
              (randChoice (st.room_assignments.getD ([ra, rb].getD 1 0) [])
                >>= k) rng3 = k sb rng4 :=
            fun k => pym_bind_ok _ k rng3 rng4 sb hsbrun
          rw [hroomra] at hsamem
          rw [hroomrb] at hsbmem
          obtain ⟨hsalt, hsaval⟩ := (mem_idxOf _ _ _).mp hsamem
          obtain ⟨hsblt, hsbval⟩ := (mem_idxOf _ _ _).mp hsbmem
          have hsasb : sa ≠ sb := by
            intro hc
            exact hrab (by rw [← hsaval, hc, hsbval])
          have hmemiff := swap_set_mem_iff hsalt hsblt hsasb hsaval hsbval
          have hcd := countDistinct_congr hmemiff
          set na := (A.set sa rb).set sb ra with hnadef
          have hnalen : na.length = n := by
            rw [hnadef, List.length_set, List.length_set, hcl]
          have hnacontig : Contig na := by
            intro r
            rw [hcd, hmemiff r]
            exact hcc r
          refine ⟨some (na, get_room_lists na), rng4, ?_, ?_⟩
          · simp only [sa_propose, hstepu]
            rw [if_neg hu5, if_pos hu8, if_pos hnr2]
            simp only [hstepab]
            rw [if_pos hgg]
            simp only [hstepsa, hstepsb]
            rfl
          · intro na' rl hout
            injection hout with hout
            injection hout with h1 h2
            subst h1
            subst h2
            exact ⟨hnalen, hnacontig, rfl⟩
        · refine ⟨none, rng2, ?_, by simp⟩
          simp only [sa_propose, hstepu]
          rw [if_neg hu5, if_pos hu8, if_pos hnr2]
          simp only [hstepab]
          rw [if_neg hgg]
          rfl
      · refine ⟨none, rng1, ?_, by simp⟩
        simp only [sa_propose, hstepu]
        rw [if_neg hu5, if_pos hu8, if_neg hnr2]
        rfl
    · by_cases hu9 : u < 9 / 10
      · -- merge branch
        by_cases hnr2 : 2 ≤ st.room_assignments.length
        · have hrange2 : 2 ≤ (List.range st.room_assignments.length).length := by
            rw [List.length_range]
            exact hnr2
          obtain ⟨ab, rng2, hsmp, hablen, _, _⟩ :=
            sampleList_spec 2 (List.range st.room_assignments.length) rng1
              hrange2
          have hstepab : ∀ (k : List ℕ →
              PyM (Option (List ℕ × List (List ℕ)))),
              (sampleList (List.range st.room_assignments.length) 2 >>= k)
                rng1 = k ab rng2 :=
            fun k => pym_bind_ok _ k rng1 rng2 ab hsmp
          set merged := (st.room_assignments.getD (ab.getD 1 0) []).foldl
            (fun l t => l.set t (ab.getD 0 0)) A with hmg
          have hprops := firstAppearanceRenumber_props merged
          have hmlen : merged.length = n := by
            rw [hmg, length_foldl_set, hcl]
          refine ⟨some (firstAppearanceRenumber merged,
            get_room_lists (firstAppearanceRenumber merged)), rng2, ?_, ?_⟩
          · simp only [sa_propose, hstepu]
            rw [if_neg hu5, if_neg hu8, if_pos hu9, if_pos hnr2]
            simp only [hstepab]
            rfl
          · intro na rl hout
            injection hout with hout
            injection hout with h1 h2
            subst h1
            subst h2
            refine ⟨?_, hprops.2.1, rfl⟩
            rw [hprops.2.2, hmlen]
        · refine ⟨none, rng1, ?_, by simp⟩
          simp only [sa_propose, hstepu]
          rw [if_neg hu5, if_neg hu8, if_pos hu9, if_neg hnr2]
          rfl
      · -- split branch
        by_cases hns : st.room_assignments.length < num_students
        · obtain ⟨ri, rng2, hrirun, _, _⟩ :=
            randint_spec 0 (st.room_assignments.length - 1) rng1
              (Nat.zero_le _)
          have hstepri : ∀ (k : ℕ → PyM (Option (List ℕ × List (List ℕ)))),
              (randint 0 (st.room_assignments.length - 1) >>= k) rng1 =
                k ri rng2 :=
            fun k => pym_bind_ok _ k rng1 rng2 ri hrirun
          by_cases hg2 : 2 ≤ (st.room_assignments.getD ri []).length
          · obtain ⟨m, rng3, hmrun, hm1, hmle⟩ :=
              randint_spec 1 ((st.room_assignments.getD ri []).length - 1)
                rng2 (by omega)
            have hstepm : ∀ (k : ℕ → PyM (Option (List ℕ × List (List ℕ)))),
                (randint 1 ((st.room_assignments.getD ri []).length - 1)
                  >>= k) rng2 = k m rng3 :=
              fun k => pym_bind_ok _ k rng2 rng3 m hmrun
            obtain ⟨mv, rng4, hmvrun, _, _, _⟩ :=
              sampleList_spec m (st.room_assignments.getD ri []) rng3
                (by omega)
            have hstepmv : ∀ (k : List ℕ →
                PyM (Option (List ℕ × List (List ℕ)))),
                (sampleList (st.room_assignments.getD ri []) m >>= k) rng3 =
                  k mv rng4 :=
              fun k => pym_bind_ok _ k rng3 rng4 mv hmvrun
            set moved := mv.foldl
              (fun l t => l.set t (A.foldr max 0 + 1)) A with hmv
            have hprops := firstAppearanceRenumber_props moved
            have hmlen : moved.length = n := by
              rw [hmv, length_foldl_set, hcl]
            refine ⟨some (firstAppearanceRenumber moved,
              get_room_lists (firstAppearanceRenumber moved)), rng4, ?_, ?_⟩
            · simp only [sa_propose, hstepu]
              rw [if_neg hu5, if_neg hu8, if_neg hu9, if_pos hns]
              simp only [hstepri]
              rw [if_pos hg2]
              simp only [hstepm, hstepmv]
              rfl
            · intro na rl hout
              injection hout with hout
              injection hout with h1 h2
              subst h1
              subst h2
              refine ⟨?_, hprops.2.1, rfl⟩
              rw [hprops.2.2, hmlen]
          · refine ⟨none, rng2, ?_, by simp⟩
            simp only [sa_propose, hstepu]
            rw [if_neg hu5, if_neg hu8, if_neg hu9, if_pos hns]
            simp only [hstepri]
            rw [if_neg hg2]
            rfl
        · refine ⟨none, rng1, ?_, by simp⟩
          simp only [sa_propose, hstepu]
          rw [if_neg hu5, if_neg hu8, if_neg hu9, if_neg hns]
          rfl

theorem sa_inner_spec (G : Graph) (s : ℚ) (expf : ℚ → Option ℚ)
    (num_students : ℕ) {n : ℕ} (hn : 1 ≤ n) {st : SAState}
    (hInv : SAInv G s n st) (rng : Rng) :
    ∃ st' rng', sa_inner G s expf num_students st rng = .ok (st', rng') ∧
      SAInv G s n st' := by
  have hcl1 : ({ st with iteration := st.iteration + 1 } :
      SAState).current_assignment.length = n := hInv.cur_len
  have hcc1 : Contig ({ st with iteration := st.iteration + 1 } :
      SAState).current_assignment := hInv.cur_contig
  have hre1 : ({ st with iteration := st.iteration + 1 } :
      SAState).room_assignments = get_room_lists ({ st with
        iteration := st.iteration + 1 } : SAState).current_assignment :=
    hInv.rooms_eq
  obtain ⟨prop, rng1, hproprun, hpropspec⟩ :=
    sa_propose_spec G num_students hn hcl1 hcc1 hre1 rng
  have hstepp : ∀ (k : Option (List ℕ × List (List ℕ)) → PyM SAState),
      (sa_propose G num_students
        { st with iteration := st.iteration + 1 } >>= k) rng = k prop rng1 :=
    fun k => pym_bind_ok _ k rng rng1 prop hproprun
  cases prop with
  | none =>
    refine ⟨{ st with iteration := st.iteration + 1 }, rng1, ?_,
      ⟨hInv.cur_len, hInv.cur_contig, hInv.rooms_eq, hInv.best_len,
        hInv.best_contig, hInv.best_valid⟩⟩
    simp only [sa_inner, hstepp]
    rfl
  | some p =>
    obtain ⟨na, rl⟩ := p
    obtain ⟨hnal, hnac, hrl⟩ := hpropspec na rl rfl
    have hnane : na ≠ [] := by
      intro hc
      rw [hc] at hnal
      simp at hnal
      omega
    obtain ⟨hap, bval, heval, hvalid_of⟩ := @evaluate_solution_ok G s na hnane
    have hstepe : ∀ (k : ℚ × Bool → PyM SAState),
        (liftE (evaluate_solution G s na) >>= k) rng1 = k (hap, bval) rng1 :=
      fun k => pym_bind_ok _ k rng1 rng1 (hap, bval) (liftE_run heval rng1)
    obtain ⟨acc, rng2, haccrun⟩ :=
      acceptance_decision_ok (hap - st.current_happiness) st.temperature expf
        rng1
    have hstepa : ∀ (k : Bool → PyM SAState),
        (acceptance_decision (hap - st.current_happiness) st.temperature expf
          >>= k) rng1 = k acc rng2 :=
      fun k => pym_bind_ok _ k rng1 rng2 acc haccrun
    cases acc with
    | false =>
      refine ⟨{ st with
                iteration := st.iteration + 1
                no_improve_count := st.no_improve_count + 1 }, rng2, ?_,
        ⟨hInv.cur_len, hInv.cur_contig, hInv.rooms_eq, hInv.best_len,
          hInv.best_contig, hInv.best_valid⟩⟩
      simp only [sa_inner, hstepp, hstepe, hstepa]
      rfl
    | true =>
      by_cases hbet : bval = true ∧ st.best_happiness < hap
      · refine ⟨{ current_assignment := na
                  room_assignments := rl
                  best_assignment := na
                  best_happiness := hap
                  current_happiness := hap
                  temperature := st.temperature
                  iteration := st.iteration + 1
                  no_improve_count := 0
                  reheat_count := st.reheat_count }, rng2, ?_,
          ⟨hnal, hnac, hrl, hnal, hnac, hvalid_of hbet.1⟩⟩
        simp only [sa_inner, hstepp, hstepe, hstepa, if_true]
        rw [if_pos hbet]
        rfl
      · refine ⟨{ current_assignment := na
                  room_assignments := rl
                  best_assignment := st.best_assignment
                  best_happiness := st.best_happiness
                  current_happiness := hap
                  temperature := st.temperature
                  iteration := st.iteration + 1
                  no_improve_count := st.no_improve_count + 1
                  reheat_count := st.reheat_count }, rng2, ?_,
          ⟨hnal, hnac, hrl, hInv.best_len, hInv.best_contig,
            hInv.best_valid⟩⟩
        simp only [sa_inner, hstepp, hstepe, hstepa, if_true]
        rw [if_neg hbet]
        rfl

theorem sa_batch_spec (G : Graph) (s : ℚ) (expf : ℚ → Option ℚ)
    (num_students : ℕ) {n : ℕ} (hn : 1 ≤ n) :
    ∀ (count : ℕ) (st : SAState), SAInv G s n st → ∀ rng,
    ∃ st' rng', sa_batch G s expf num_students count st rng =
      .ok (st', rng') ∧ SAInv G s n st' := by
  intro count
  induction count with
  | zero => intro st hInv rng; exact ⟨st, rng, rfl, hInv⟩
  | succ count ih =>
    intro st hInv rng
    obtain ⟨st1, rng1, hrun1, hInv1⟩ :=
      sa_inner_spec G s expf num_students hn hInv rng
    obtain ⟨st', rng', hrun', hInv'⟩ := ih st1 hInv1 rng1
    refine ⟨st', rng', ?_, hInv'⟩
    simp only [sa_batch]
    rw [pym_bind_ok _ _ rng rng1 st1 hrun1]
    exact hrun'

theorem sa_outer_spec (G : Graph) (s : ℚ) (expf : ℚ → Option ℚ)
    (num_students : ℕ) {n : ℕ} (hn : 1 ≤ n) :
    ∀ (fuel : ℕ) (st : SAState), SAInv G s n st → ∀ rng,
    ∃ st' rng', sa_outer G s expf num_students fuel st rng =
      .ok (st', rng') ∧ SAInv G s n st' := by
  intro fuel
  induction fuel with
  | zero => intro st hInv rng; exact ⟨st, rng, rfl, hInv⟩
  | succ fuel ih =>
    intro st hInv rng
    by_cases hcond : st.temperature > 1 / 2 ∧
        st.iteration < 500 * num_students ∧ st.reheat_count < 3
    · obtain ⟨st1, rng1, hrun1, hInv1⟩ :=
        sa_batch_spec G s expf num_students hn
          (max 3 (num_students / 3)) st hInv rng
      have hstepb : ∀ (k : SAState → PyM SAState),
          (sa_batch G s expf num_students (max 3 (num_students / 3)) st
            >>= k) rng = k st1 rng1 :=
        fun k => pym_bind_ok _ k rng rng1 st1 hrun1
      by_cases hrh : 150 < st1.no_improve_count
      · have hInv2 : SAInv G s n
            { st1 with
              temperature := min (st1.temperature * (97 / 100) * 2) (50 / 2)
              no_improve_count := 0
              reheat_count := st1.reheat_count + 1 } :=
          ⟨hInv1.cur_len, hInv1.cur_contig, hInv1.rooms_eq, hInv1.best_len,
            hInv1.best_contig, hInv1.best_valid⟩
        obtain ⟨st', rng', hrun', hInv'⟩ := ih _ hInv2 rng1
        refine ⟨st', rng', ?_, hInv'⟩
        simp only [sa_outer]
        rw [if_pos hcond]
        simp only [hstepb]
        rw [if_pos hrh]
        exact hrun'
      · have hInv2 : SAInv G s n
            { st1 with temperature := st1.temperature * (97 / 100) } :=
          ⟨hInv1.cur_len, hInv1.cur_contig, hInv1.rooms_eq, hInv1.best_len,
            hInv1.best_contig, hInv1.best_valid⟩
        obtain ⟨st', rng', hrun', hInv'⟩ := ih _ hInv2 rng1
        refine ⟨st', rng', ?_, hInv'⟩
        simp only [sa_outer]
        rw [if_pos hcond]
        simp only [hstepb]
        rw [if_neg hrh]
        exact hrun'
    · refine ⟨st, rng, ?_, hInv⟩
      simp only [sa_outer]
      rw [if_neg hcond]
      rfl

theorem greedy_init_props (G : Graph) (s : ℚ)
    (hsym : ∀ i j, G.st i j = G.st j i) (hs : 0 < s) (hn : 1 ≤ G.n) :
    (greedy_init G s G.n).length = G.n ∧ Contig (greedy_init G s G.n) ∧
    ValidAssignment (greedy_init G s G.n) G s := by
  have hInv : GCInv G s G.n
      ((sortedEdges G G.n).foldl (giStep G s) (initGCState G.n)) :=
    foldl_giStep_inv (initGCState_inv G s G.n hs.le) hs.le _
      (fun e he => mem_sortedEdges he)
  set stG := (sortedEdges G G.n).foldl (giStep G s) (initGCState G.n)
  have hrel := relabel_props (nodup_distinctFirst stG.asg)
    (fun x => mem_distinctFirst stG.asg x)
  have hinj : ∀ x ∈ stG.asg, ∀ y ∈ stG.asg,
      (distinctFirst stG.asg).indexOf x = (distinctFirst stG.asg).indexOf y →
        x = y := by
    intro x hx y hy hxy
    exact (List.indexOf_inj ((mem_distinctFirst _ _).mpr hx)
      ((mem_distinctFirst _ _).mpr hy)).mp hxy
  have hmain := valid_of_GCInv hInv hn hsym _ hinj
  have hres : greedy_init G s G.n =
      stG.asg.map fun r => (distinctFirst stG.asg).indexOf r := rfl
  rw [hres]
  refine ⟨?_, hrel.2, hmain.1⟩
  rw [List.length_map]
  exact hInv.hlen

theorem simulated_annealing_spec (G : Graph) (s : ℚ) (expf : ℚ → Option ℚ)
    (hsym : ∀ i j, G.st i j = G.st j i) (hs : 0 < s) (hn : 1 ≤ G.n)
    (rng : Rng) :
    ∃ asg k rng',
      simulated_annealing G s expf rng = .ok ((asg, k), rng') ∧
      asg.length = G.n ∧ Contig asg ∧ ValidAssignment asg G s ∧
        k = countDistinct asg := by
  obtain ⟨hgl, hgc, hgv⟩ := greedy_init_props G s hsym hs hn
  have hgne : greedy_init G s G.n ≠ [] := by
    intro hc
    rw [hc] at hgl
    simp at hgl
    omega
  obtain ⟨hap, bval, heval, _⟩ := @evaluate_solution_ok G s _ hgne
  have hstepe : ∀ (k : ℚ × Bool → PyM (List ℕ × ℕ)),
      (liftE (evaluate_solution G s (greedy_init G s G.n)) >>= k) rng =
        k (hap, bval) rng :=
    fun k => pym_bind_ok _ k rng rng (hap, bval) (liftE_run heval rng)
  have hInv0 : SAInv G s G.n
      { current_assignment := greedy_init G s G.n
        room_assignments := get_room_lists (greedy_init G s G.n)
        best_assignment := greedy_init G s G.n
        best_happiness := hap
        current_happiness := hap
        temperature := 50
        iteration := 0
        no_improve_count := 0
        reheat_count := 0 } :=
    ⟨hgl, hgc, rfl, hgl, hgc, hgv⟩
  obtain ⟨stF, rng', hrunF, hInvF⟩ :=
    sa_outer_spec G s expf G.n hn (500 * G.n + 1) _ hInv0 rng
  refine ⟨stF.best_assignment, countDistinct stF.best_assignment, rng', ?_,
    hInvF.best_len, hInvF.best_contig, hInvF.best_valid, rfl⟩
  simp only [simulated_annealing, hstepe]
  rw [pym_bind_ok _ _ rng rng' stF hrunF]
  rfl

/-! ## Inversion lemmas and length invariants for the genetic solver -/

theorem pym_bind_inv {α β : Type} {x : PyM α} {f : α → PyM β}
    {rng rng2 : Rng} {b : β} (h : (x >>= f) rng = .ok (b, rng2)) :
    ∃ a rng1, x rng = .ok (a, rng1) ∧ f a rng1 = .ok (b, rng2) := by
  cases hx : x rng with
  | error e =>
    have hbad : (x >>= f) rng = .error e := by
      show StateT.bind x f rng = _
      unfold StateT.bind
      rw [hx]
      rfl
    rw [hbad] at h
    exact absurd h (by simp)
  | ok p =>
    obtain ⟨a, rng1⟩ := p
    have hstep := pym_bind_ok x f rng rng1 a hx
    rw [hstep] at h
    exact ⟨a, rng1, rfl, h⟩


theorem pym_pure_inv {α : Type} {a b : α} {rng rng' : Rng}
    (h : (pure a : PyM α) rng = .ok (b, rng')) : b = a ∧ rng' = rng := by
  rw [pym_pure_ok] at h
  injection h with h1
  injection h1 with h2 h3
  exact ⟨h2.symm, h3.symm⟩

theorem liftE_inv {α : Type} {e : Except PyErr α} {rng rng' : Rng} {a : α}
    (h : liftE e rng = .ok (a, rng')) : e = .ok a ∧ rng' = rng := by
  cases e with
  | error err => exact absurd h (by simp [liftE])
  | ok v =>
    have hrun : liftE (Except.ok v) rng = .ok (v, rng) := rfl
    rw [hrun] at h
    injection h with h1
    injection h1 with h2 h3
    exact ⟨by rw [h2], h3.symm⟩

theorem except_bind_inv {α β : Type} {x : Except PyErr α}
    {f : α → Except PyErr β} {b : β} (h : (x >>= f) = .ok b) :
    ∃ a, x = .ok a ∧ f a = .ok b := by
  cases hx : x with
  | error e =>
    rw [hx] at h
    exact absurd h (by simp [Bind.bind, Except.bind])
  | ok a =>
    rw [hx] at h
    exact ⟨a, rfl, by simpa [Bind.bind, Except.bind] using h⟩

theorem except_pure_inv {α : Type} {a b : α}
    (h : (pure a : Except PyErr α) = .ok b) : b = a := by
  injection h with h1
  exact h1.symm

theorem mapM_length_except {α β : Type} (f : α → Except PyErr β) :
    ∀ (l : List α) (out : List β), l.mapM f = .ok out →
      out.length = l.length := by
  intro l
  induction l with
  | nil =>
    intro out h
    have hout : out = [] := except_pure_inv (by simpa [List.mapM_nil] using h)
    subst hout
    rfl
  | cons x xs ih =>
    intro out h
    rw [List.mapM_cons] at h
    obtain ⟨y, hy, h2⟩ := except_bind_inv h
    obtain ⟨ys, hys, h3⟩ := except_bind_inv h2
    have hout : out = y :: ys := except_pure_inv h3
    subst hout
    simp [ih ys hys]

theorem mapM_length_pym {α β : Type} (f : α → PyM β) :
    ∀ (l : List α) (out : List β) (rng rng' : Rng),
      l.mapM f rng = .ok (out, rng') → out.length = l.length := by
  intro l
  induction l with
  | nil =>
    intro out rng rng' h
    have hout : out = [] :=
      (pym_pure_inv (show (pure [] : PyM (List β)) rng = .ok (out, rng') by
        simpa [List.mapM_nil] using h)).1
    subst hout
    rfl
  | cons x xs ih =>
    intro out rng rng' h
    rw [List.mapM_cons] at h
    obtain ⟨y, rng1, hy, h2⟩ := pym_bind_inv h
    obtain ⟨ys, rng2, hys, h3⟩ := pym_bind_inv h2
    have hout : out = y :: ys := (pym_pure_inv h3).1
    subst hout
    simp [ih ys rng1 rng2 hys]

theorem mapM_forall_pym {α β : Type} {f : α → PyM β} {P : β → Prop}
    (hP : ∀ a rng rng' b, f a rng = .ok (b, rng') → P b) :
    ∀ (l : List α) (out : List β) (rng rng' : Rng),
      l.mapM f rng = .ok (out, rng') → ∀ b ∈ out, P b := by
  intro l
  induction l with
  | nil =>
    intro out rng rng' h b hb
    have hout : out = [] :=
      (pym_pure_inv (show (pure [] : PyM (List β)) rng = .ok (out, rng') by
        simpa [List.mapM_nil] using h)).1
    subst hout
    simp at hb
  | cons x xs ih =>
    intro out rng rng' h b hb
    rw [List.mapM_cons] at h
    obtain ⟨y, rng1, hy, h2⟩ := pym_bind_inv h
    obtain ⟨ys, rng2, hys, h3⟩ := pym_bind_inv h2
    have hout : out = y :: ys := (pym_pure_inv h3).1
    subst hout
    rcases List.mem_cons.mp hb with hb | hb
    · exact hb ▸ hP x rng rng1 y hy
    · exact ih ys rng1 rng2 hys b hb

theorem distinctFirst_go_nodup :
    ∀ (l acc : List ℕ), l.Nodup → (∀ x ∈ l, x ∉ acc) →
      l.foldl (fun acc x => if x ∈ acc then acc else acc ++ [x]) acc =
        acc ++ l := by
  intro l
  induction l with
  | nil => intro acc _ _; simp
  | cons x xs ih =>
    intro acc hnd hdisj
    rw [List.nodup_cons] at hnd
    simp only [List.foldl_cons]
    rw [if_neg (hdisj x (List.mem_cons_self x xs))]
    rw [ih (acc ++ [x]) hnd.2 ?_]
    · simp
    · intro y hy hc
      rcases List.mem_append.mp hc with hc | hc
      · exact hdisj y (List.mem_cons_of_mem x hy) hc
      · simp at hc
        exact hnd.1 (hc ▸ hy)

theorem distinctFirst_of_nodup {l : List ℕ} (h : l.Nodup) :
    distinctFirst l = l := by
  unfold distinctFirst
  have := distinctFirst_go_nodup l [] h (by simp)
  simpa using this

theorem countDistinct_range (n : ℕ) : countDistinct (List.range n) = n := by
  unfold countDistinct
  rw [distinctFirst_of_nodup (List.nodup_range n), List.length_range]

theorem firstAppearanceRenumber_length (a : List ℕ) :
    (firstAppearanceRenumber a).length = a.length :=
  List.length_map _ _

theorem create_greedy_len {G : Graph} {s : ℚ} {n : ℕ} {c : List ℕ}
    (h : create_greedy_chromosome G s n = .ok c) : c.length = n := by
  have hlen : (firstAppearanceRenumber (List.range n)).length = n := by
    rw [firstAppearanceRenumber_length, List.length_range]
  unfold create_greedy_chromosome at h
  by_cases h1 : n - 1 = 0
  · rw [if_pos h1] at h
    injection h with h
    rw [← h]
    exact hlen
  · rw [if_neg h1] at h
    by_cases h2 : (List.range n).length ≤ 1
    · rw [if_pos h2] at h
      injection h with h
      rw [← h]
      exact hlen
    · rw [if_neg h2] at h
      cases hscan : scan_best_merge G s (List.range n) (List.range n) with
      | some p =>
        rw [hscan] at h
        exact absurd h (by simp)
      | none =>
        rw [hscan] at h
        injection h with h
        rw [← h]
        exact hlen

theorem repair_attempt_len (c : List ℕ) (G : Graph) (s : ℚ) :
    (repair_attempt c G s).1.length = c.length := by
  unfold repair_attempt
  cases hf : (roomsOf c).find? (fun p =>
      decide (calculate_stress_for_room p.2 G >
        (if 0 < (roomsOf c).length then s / ((roomsOf c).length : ℚ) else 0))
      && decide (1 < p.2.length)) with
  | none => simp [hf]
  | some p => simp [hf]

theorem repair_loop_len (G : Graph) (s : ℚ) :
    ∀ (fuel : ℕ) (c : List ℕ),
      (repair_loop G s fuel c).length = c.length := by
  intro fuel
  induction fuel with
  | zero => intro c; rfl
  | succ fuel ih =>
    intro c
    have hra := repair_attempt_len c G s
    simp only [repair_loop]
    cases hsplit : repair_attempt c G s with
    | mk c' fixed =>
      rw [hsplit] at hra
      cases fixed with
      | true => simpa using hra
      | false => simpa using (ih c').trans hra

theorem repair_spec (c : List ℕ) (G : Graph) (s : ℚ) (hc : c ≠ []) :
    ∃ out, repair_chromosome c G s = .ok out ∧ out.length = c.length := by
  have hfl : (firstAppearanceRenumber c).length = c.length :=
    firstAppearanceRenumber_length c
  have hk : countDistinct (firstAppearanceRenumber c) ≠ 0 := by
    rw [(firstAppearanceRenumber_props c).1]
    have := countDistinct_pos hc
    omega
  obtain ⟨b, hb⟩ := @is_valid_ok (chromosome_to_dict (firstAppearanceRenumber c))
    G s (countDistinct (firstAppearanceRenumber c)) hk
  cases b with
  | true =>
    refine ⟨firstAppearanceRenumber c, ?_, hfl⟩
    simp only [repair_chromosome, bind, Except.bind]
    rw [hb]
    rfl
  | false =>
    refine ⟨repair_loop G s 10 (firstAppearanceRenumber c), ?_, ?_⟩
    · simp only [repair_chromosome, bind, Except.bind]
      rw [hb]
      rfl
    · rw [repair_loop_len, hfl]

theorem crossover_go_spec (p1 p2 : List ℕ) :
    ∀ (l : List ℕ) (cs : List ℕ × List ℕ) (rng : Rng),
    ∃ out rng',
      (l.foldlM (fun cs i => do
        let u ← randFloat
        if u < 1 / 2 then
          pure (cs.1 ++ [p1.getD i 0], cs.2 ++ [p2.getD i 0])
        else
          pure (cs.1 ++ [p2.getD i 0], cs.2 ++ [p1.getD i 0])) cs :
          PyM (List ℕ × List ℕ)) rng = .ok (out, rng') ∧
      out.1.length = cs.1.length + l.length ∧
      out.2.length = cs.2.length + l.length := by
  intro l
  induction l with
  | nil => intro cs rng; exact ⟨cs, rng, rfl, by simp, by simp⟩
  | cons x xs ih =>
    intro cs rng
    have hu : randFloat rng =
        .ok (rng.qs 0, ⟨rng.nats, fun i => rng.qs (i + 1)⟩) := rfl
    set rng1 : Rng := ⟨rng.nats, fun i => rng.qs (i + 1)⟩ with hrng1
    have hstepu : ∀ (k : ℚ → PyM (List ℕ × List ℕ)),
        (randFloat >>= k) rng = k (rng.qs 0) rng1 :=
      fun k => pym_bind_ok _ k rng rng1 (rng.qs 0) hu
    by_cases hlt : rng.qs 0 < 1 / 2
    · obtain ⟨out, rng', hrun, h1, h2⟩ :=
        ih (cs.1 ++ [p1.getD x 0], cs.2 ++ [p2.getD x 0]) rng1
      refine ⟨out, rng', ?_, ?_, ?_⟩
      · rw [List.foldlM_cons]
        rw [pym_bind_ok _ _ rng rng1 (cs.1 ++ [p1.getD x 0],
          cs.2 ++ [p2.getD x 0]) ?_]
        · exact hrun
        · show (randFloat >>= fun u => if u < 1 / 2 then
              pure (cs.1 ++ [p1.getD x 0], cs.2 ++ [p2.getD x 0])
            else pure (cs.1 ++ [p2.getD x 0], cs.2 ++ [p1.getD x 0])) rng = _
          rw [hstepu, if_pos hlt]
          rfl
      · simp only [h1]
        simp
        omega
      · simp only [h2]
        simp
        omega
    · obtain ⟨out, rng', hrun, h1, h2⟩ :=
        ih (cs.1 ++ [p2.getD x 0], cs.2 ++ [p1.getD x 0]) rng1
      refine ⟨out, rng', ?_, ?_, ?_⟩
      · rw [List.foldlM_cons]
        rw [pym_bind_ok _ _ rng rng1 (cs.1 ++ [p2.getD x 0],
          cs.2 ++ [p1.getD x 0]) ?_]
        · exact hrun
        · show (randFloat >>= fun u => if u < 1 / 2 then
              pure (cs.1 ++ [p1.getD x 0], cs.2 ++ [p2.getD x 0])
            else pure (cs.1 ++ [p2.getD x 0], cs.2 ++ [p1.getD x 0])) rng = _
          rw [hstepu, if_neg hlt]
          rfl
      · simp only [h1]
        simp
        omega
      · simp only [h2]
        simp
        omega

theorem crossover_spec (p1 p2 : List ℕ) (n : ℕ) (rng : Rng) :
    ∃ out rng', crossover p1 p2 n rng = .ok (out, rng') ∧
      out.1.length = n ∧ out.2.length = n := by
  obtain ⟨out, rng', hrun, h1, h2⟩ :=
    crossover_go_spec p1 p2 (List.range n) (([], []) : List ℕ × List ℕ) rng
  refine ⟨out, rng', hrun, ?_, ?_⟩
  · rw [h1]
    simp
  · rw [h2]
    simp

theorem length_foldl_cond_set (ra rb : ℕ) :
    ∀ (idx : List ℕ) (c : List ℕ),
      (idx.foldl (fun l i => if l.getD i 0 = rb then l.set i ra else l)
        c).length = c.length := by
  intro idx
  induction idx with
  | nil => intro c; rfl
  | cons x xs ih =>
    intro c
    simp only [List.foldl_cons]
    by_cases hx : c.getD x 0 = rb
    · rw [if_pos hx, ih, List.length_set]
    · rw [if_neg hx, ih]

theorem mutate_spec (c : List ℕ) (n : ℕ) (rng : Rng) :
    ∃ out rng', mutate c n rng = .ok (out, rng') ∧ out.length = c.length := by
  have hv : nextNat rng =
      .ok (rng.nats 0, ⟨fun i => rng.nats (i + 1), rng.qs⟩) := rfl
  set v := rng.nats 0 with hvdef
  set rng1 : Rng := ⟨fun i => rng.nats (i + 1), rng.qs⟩ with hrng1def
  have hstepv : ∀ (k : ℕ → PyM (List ℕ)), (nextNat >>= k) rng = k v rng1 :=
    fun k => pym_bind_ok _ k rng rng1 v hv
  rcases hm : v % 4 with _ | _ | _ | m
  · -- swap operator
    by_cases h2n : 2 ≤ n
    · obtain ⟨ij, rng2, hsmp, _, _, _⟩ :=
        sampleList_spec 2 (List.range n) rng1
          (by rw [List.length_range]; exact h2n)
      have hb : ((if 2 ≤ n then
          (sampleList (List.range n) 2 >>= fun ij =>
            pure ((c.set (ij.getD 0 0) (c.getD (ij.getD 1 0) 0)).set
              (ij.getD 1 0) (c.getD (ij.getD 0 0) 0)))
          else pure c) : PyM (List ℕ)) rng1 =
          .ok ((c.set (ij.getD 0 0) (c.getD (ij.getD 1 0) 0)).set
            (ij.getD 1 0) (c.getD (ij.getD 0 0) 0), rng2) := by
        rw [if_pos h2n]
        rw [pym_bind_ok _ _ rng1 rng2 ij hsmp]
        rfl
      refine ⟨(c.set (ij.getD 0 0) (c.getD (ij.getD 1 0) 0)).set
        (ij.getD 1 0) (c.getD (ij.getD 0 0) 0), rng2, ?_, ?_⟩
      · simp only [mutate, hstepv]
        rw [hm]
        exact hb
      · simp [List.length_set]
    · have hb : ((if 2 ≤ n then
          (sampleList (List.range n) 2 >>= fun ij =>
            pure ((c.set (ij.getD 0 0) (c.getD (ij.getD 1 0) 0)).set
              (ij.getD 1 0) (c.getD (ij.getD 0 0) 0)))
          else pure c) : PyM (List ℕ)) rng1 = .ok (c, rng1) := by
        rw [if_neg h2n]
        rfl
      refine ⟨c, rng1, ?_, rfl⟩
      simp only [mutate, hstepv]
      rw [hm]
      exact hb
  · -- move operator
    obtain ⟨i, rng2, hirun, _, _⟩ := randint_spec 0 (n - 1) rng1 (Nat.zero_le _)
    obtain ⟨r, rng3, hrrun, _, _⟩ :=
      randint_spec 0 (countDistinct c - 1) rng2 (Nat.zero_le _)
    have hb : ((randint 0 (n - 1) >>= fun i =>
        randint 0 (countDistinct c - 1) >>= fun r =>
        pure (c.set i r)) : PyM (List ℕ)) rng1 = .ok (c.set i r, rng3) := by
      rw [pym_bind_ok _ _ rng1 rng2 i hirun,
        pym_bind_ok _ _ rng2 rng3 r hrrun]
      rfl
    refine ⟨c.set i r, rng3, ?_, by simp [List.length_set]⟩
    simp only [mutate, hstepv]
    rw [hm]
    exact hb
  · -- split operator
    by_cases h0 : 0 < countDistinct c
    · obtain ⟨rts, rng2, hrtsrun, _, _⟩ :=
        randint_spec 0 (countDistinct c - 1) rng1 (Nat.zero_le _)
      by_cases h1 : 1 < ((List.range c.length).filter
          fun i => c.getD i 0 = rts).length
      · obtain ⟨ntm, rng3, hntmrun, _, hntmle⟩ :=
          randint_spec 1 (((List.range c.length).filter
            fun i => c.getD i 0 = rts).length - 1) rng2 (by omega)
        obtain ⟨stm, rng4, hstmrun, _, _, _⟩ :=
          sampleList_spec ntm ((List.range c.length).filter
            fun i => c.getD i 0 = rts) rng3 (by omega)
        have hb : ((if 0 < countDistinct c then
            (randint 0 (countDistinct c - 1) >>= fun room_to_split =>
              if 1 < ((List.range c.length).filter
                  fun i => c.getD i 0 = room_to_split).length then
                (randint 1 (((List.range c.length).filter
                    fun i => c.getD i 0 = room_to_split).length - 1) >>=
                  fun num_to_move =>
                  sampleList ((List.range c.length).filter
                    fun i => c.getD i 0 = room_to_split) num_to_move >>=
                  fun students_to_move =>
                  pure (students_to_move.foldl
                    (fun l s => l.set s (c.foldr max 0 + 1)) c))
              else pure c)
            else pure c) : PyM (List ℕ)) rng1 =
            .ok (stm.foldl (fun l s => l.set s (c.foldr max 0 + 1)) c,
              rng4) := by
          rw [if_pos h0]
          rw [pym_bind_ok _ _ rng1 rng2 rts hrtsrun]
          rw [if_pos h1]
          rw [pym_bind_ok _ _ rng2 rng3 ntm hntmrun]
          rw [pym_bind_ok _ _ rng3 rng4 stm hstmrun]
          rfl
        refine ⟨stm.foldl (fun l s => l.set s (c.foldr max 0 + 1)) c, rng4,
          ?_, length_foldl_set stm c (c.foldr max 0 + 1)⟩
        simp only [mutate, hstepv]
        rw [hm]
        exact hb
      · have hb : ((if 0 < countDistinct c then
            (randint 0 (countDistinct c - 1) >>= fun room_to_split =>
              if 1 < ((List.range c.length).filter
                  fun i => c.getD i 0 = room_to_split).length then
                (randint 1 (((List.range c.length).filter
                    fun i => c.getD i 0 = room_to_split).length - 1) >>=
                  fun num_to_move =>
                  sampleList ((List.range c.length).filter
                    fun i => c.getD i 0 = room_to_split) num_to_move >>=
                  fun students_to_move =>
                  pure (students_to_move.foldl
                    (fun l s => l.set s (c.foldr max 0 + 1)) c))
              else pure c)
            else pure c) : PyM (List ℕ)) rng1 = .ok (c, rng2) := by
          rw [if_pos h0]
          rw [pym_bind_ok _ _ rng1 rng2 rts hrtsrun]
          rw [if_neg h1]
          rfl
        refine ⟨c, rng2, ?_, rfl⟩
        simp only [mutate, hstepv]
        rw [hm]
        exact hb
    · have hb : ((if 0 < countDistinct c then
          (randint 0 (countDistinct c - 1) >>= fun room_to_split =>
            if 1 < ((List.range c.length).filter
                fun i => c.getD i 0 = room_to_split).length then
              (randint 1 (((List.range c.length).filter
                  fun i => c.getD i 0 = room_to_split).length - 1) >>=
                fun num_to_move =>
                sampleList ((List.range c.length).filter
                  fun i => c.getD i 0 = room_to_split) num_to_move >>=
                fun students_to_move =>
                pure (students_to_move.foldl
                  (fun l s => l.set s (c.foldr max 0 + 1)) c))
            else pure c)
          else pure c) : PyM (List ℕ)) rng1 = .ok (c, rng1) := by
        rw [if_neg h0]
        rfl
      refine ⟨c, rng1, ?_, rfl⟩
      simp only [mutate, hstepv]
      rw [hm]
      exact hb
  · -- merge operator
    by_cases h1 : 1 < countDistinct c
    · by_cases h2 : 2 ≤ (sortedDistinct c).length
      · obtain ⟨ab, rng2, hsmp, _, _, _⟩ :=
          sampleList_spec 2 (sortedDistinct c) rng1 h2
        have hb : ((if 1 < countDistinct c then
            (if 2 ≤ (sortedDistinct c).length then
              (sampleList (sortedDistinct c) 2 >>= fun ab =>
                pure ((List.range n).foldl
                  (fun l i => if l.getD i 0 = ab.getD 1 0 then
                    l.set i (ab.getD 0 0) else l) c))
            else pure c)
            else pure c) : PyM (List ℕ)) rng1 =
            .ok ((List.range n).foldl
              (fun l i => if l.getD i 0 = ab.getD 1 0 then
                l.set i (ab.getD 0 0) else l) c, rng2) := by
          rw [if_pos h1, if_pos h2]
          rw [pym_bind_ok _ _ rng1 rng2 ab hsmp]
          rfl
        refine ⟨(List.range n).foldl
          (fun l i => if l.getD i 0 = ab.getD 1 0 then
            l.set i (ab.getD 0 0) else l) c, rng2, ?_,
          length_foldl_cond_set (ab.getD 0 0) (ab.getD 1 0) (List.range n) c⟩
        simp only [mutate, hstepv]
        rw [hm]
        exact hb
      · have hb : ((if 1 < countDistinct c then
            (if 2 ≤ (sortedDistinct c).length then
              (sampleList (sortedDistinct c) 2 >>= fun ab =>
                pure ((List.range n).foldl
                  (fun l i => if l.getD i 0 = ab.getD 1 0 then
                    l.set i (ab.getD 0 0) else l) c))
            else pure c)
            else pure c) : PyM (List ℕ)) rng1 = .ok (c, rng1) := by
          rw [if_pos h1, if_neg h2]
          rfl
        refine ⟨c, rng1, ?_, rfl⟩
        simp only [mutate, hstepv]
        rw [hm]
        exact hb
    · have hb : ((if 1 < countDistinct c then
          (if 2 ≤ (sortedDistinct c).length then
            (sampleList (sortedDistinct c) 2 >>= fun ab =>
              pure ((List.range n).foldl
                (fun l i => if l.getD i 0 = ab.getD 1 0 then
                  l.set i (ab.getD 0 0) else l) c))
          else pure c)
          else pure c) : PyM (List ℕ)) rng1 = .ok (c, rng1) := by
        rw [if_neg h1]
        rfl
      refine ⟨c, rng1, ?_, rfl⟩
      simp only [mutate, hstepv]
      rw [hm]
      exact hb

theorem getD_mem_of_lt_gen {α : Type} (l : List α) (i : ℕ) (d : α)
    (h : i < l.length) : l.getD i d ∈ l := by
  rw [List.getD_eq_getElem?_getD, List.getElem?_eq_getElem h]
  exact List.getElem_mem h

theorem tournament_select_spec (pop : List (List ℕ)) (fs : List ℚ) (ts : ℕ)
    (rng : Rng) :
    ∃ out rng', tournament_select pop fs ts rng = .ok (out, rng') ∧
      (out ∈ pop ∨ out = []) := by
  obtain ⟨indices, rng1, hsmp, _, _, _⟩ :=
    sampleList_spec (min ts pop.length) (List.range pop.length) rng
      (by rw [List.length_range]; exact Nat.min_le_right _ _)
  refine ⟨pop.getD (maxByKey (fun i => fs.getD i 0) indices) [], rng1, ?_, ?_⟩
  · simp only [tournament_select]
    rw [pym_bind_ok _ _ rng rng1 indices hsmp]
    rfl
  · by_cases hlt : maxByKey (fun i => fs.getD i 0) indices < pop.length
    · exact Or.inl (getD_mem_of_lt_gen pop _ [] hlt)
    · right
      rw [List.getD_eq_getElem?_getD,
        List.getElem?_eq_none (Nat.le_of_not_lt hlt)]
      rfl

theorem evaluate_fitness_ok (c : List ℕ) (G : Graph) (s : ℚ) (hc : c ≠ []) :
    ∃ q, evaluate_fitness c G s = .ok q := by
  have hk : countDistinct c ≠ 0 := by
    have := countDistinct_pos hc
    omega
  obtain ⟨b, hb⟩ := @is_valid_ok (chromosome_to_dict c) G s (countDistinct c) hk
  cases b with
  | true =>
    refine ⟨calculate_happiness (chromosome_to_dict c) G, ?_⟩
    simp only [evaluate_fitness, bind, Except.bind]
    rw [hb]
    rfl
  | false =>
    refine ⟨-(calculate_stress_violation c G s), ?_⟩
    simp only [evaluate_fitness, bind, Except.bind]
    rw [hb]
    rfl

theorem fitness_mapM_ok {n : ℕ} (hn : 1 ≤ n) (G : Graph) (s : ℚ) :
    ∀ (pop : List (List ℕ)), (∀ c ∈ pop, c.length = n) →
    ∃ fs, (pop.mapM fun ind => evaluate_fitness ind G s) = .ok fs ∧
      fs.length = pop.length := by
  intro pop
  induction pop with
  | nil => intro _; exact ⟨[], rfl, rfl⟩
  | cons c cs ih =>
    intro hlen
    have hc : c ≠ [] := by
      intro hnil
      have := hlen c (List.mem_cons_self c cs)
      rw [hnil] at this
      simp at this
      omega
    obtain ⟨q, hq⟩ := evaluate_fitness_ok c G s hc
    obtain ⟨fs, hfs, hfslen⟩ := ih (fun d hd => hlen d (List.mem_cons_of_mem c hd))
    refine ⟨q :: fs, ?_, by simp [hfslen]⟩
    rw [List.mapM_cons, hq]
    simp only [bind, Except.bind]
    rw [hfs]
    rfl

theorem track_best_go_len {n : ℕ} {pop : List (List ℕ)}
    (hpop : ∀ c ∈ pop, c.length = n) (fs : List ℚ) :
    ∀ (idx : List ℕ), (∀ i ∈ idx, i < pop.length) →
    ∀ (best : Option (List ℕ × ℚ)),
      (∀ b f, best = some (b, f) → b.length = n) →
    ∀ b f, idx.foldl (fun b i =>
      match b with
      | none => some (pop.getD i [], fs.getD i 0)
      | some (bi, bf) =>
        if bf < fs.getD i 0 then some (pop.getD i [], fs.getD i 0)
        else some (bi, bf)) best = some (b, f) → b.length = n := by
  intro idx
  induction idx with
  | nil => intro _ best hbest b f h; exact hbest b f h
  | cons i is ih =>
    intro hidx best hbest
    simp only [List.foldl_cons]
    apply ih (fun j hj => hidx j (List.mem_cons_of_mem i hj))
    intro b f hb
    have hmem : pop.getD i [] ∈ pop :=
      getD_mem_of_lt_gen pop i [] (hidx i (List.mem_cons_self i is))
    cases best with
    | none =>
      simp only at hb
      injection hb with hb
      injection hb with h1 _
      rw [← h1]
      exact hpop _ hmem
    | some p =>
      obtain ⟨bi, bf⟩ := p
      simp only at hb
      by_cases hcmp : bf < fs.getD i 0
      · rw [if_pos hcmp] at hb
        injection hb with hb
        injection hb with h1 _
        rw [← h1]
        exact hpop _ hmem
      · rw [if_neg hcmp] at hb
        injection hb with hb
        injection hb with h1 _
        rw [← h1]
        exact hbest bi bf rfl

theorem track_best_len {n : ℕ} {pop : List (List ℕ)} {fs : List ℚ}
    {best : Option (List ℕ × ℚ)}
    (hpop : ∀ c ∈ pop, c.length = n) (hfs : fs.length ≤ pop.length)
    (hbest : ∀ b f, best = some (b, f) → b.length = n) :
    ∀ b f, track_best pop fs best = some (b, f) → b.length = n := by
  unfold track_best
  exact track_best_go_len hpop fs (List.range fs.length)
    (fun i hi => by rw [List.mem_range] at hi; omega) best hbest

theorem randFloat_run (rng : Rng) :
    randFloat rng = .ok (rng.qs 0, ⟨rng.nats, fun i => rng.qs (i + 1)⟩) := rfl

theorem offspring_tail (G : Graph) (s : ℚ) (pop : List (List ℕ))
    (fs : List ℚ) (ps : ℕ) (mr : ℚ) (ts : ℕ) {n : ℕ} (fuel : ℕ)
    (ih : ∀ (np : List (List ℕ)), (∀ c ∈ np, c.length = n) → ∀ rng,
      ∃ out rng', offspring_loop G s pop fs ps mr ts n fuel np rng =
        .ok (out, rng') ∧ ∀ c ∈ out, c.length = n)
    (np : List (List ℕ)) (hnp : ∀ c ∈ np, c.length = n)
    {cm1 cm2 : List ℕ} (h1 : cm1.length = n) (h2 : cm2.length = n)
    (hn : 1 ≤ n) (rG : Rng) :
    ∃ out rng',
      (liftE (repair_chromosome cm1 G s) >>= fun child1 =>
        liftE (repair_chromosome cm2 G s) >>= fun child2 =>
        offspring_loop G s pop fs ps mr ts n fuel
          (if (np ++ [child1]).length < ps then np ++ [child1] ++ [child2]
            else np ++ [child1])) rG = .ok (out, rng') ∧
      ∀ c ∈ out, c.length = n := by
  have hcm1ne : cm1 ≠ [] := by
    intro hc
    rw [hc] at h1
    simp at h1
    omega
  have hcm2ne : cm2 ≠ [] := by
    intro hc
    rw [hc] at h2
    simp at h2
    omega
  obtain ⟨rc1, hrep1, hrc1len⟩ := repair_spec cm1 G s hcm1ne
  obtain ⟨rc2, hrep2, hrc2len⟩ := repair_spec cm2 G s hcm2ne
  have hrc1n : rc1.length = n := by rw [hrc1len, h1]
  have hrc2n : rc2.length = n := by rw [hrc2len, h2]
  have hnp'len : ∀ c ∈ (if (np ++ [rc1]).length < ps then
      np ++ [rc1] ++ [rc2] else np ++ [rc1]), c.length = n := by
    intro c hc
    by_cases hc2 : (np ++ [rc1]).length < ps
    · rw [if_pos hc2] at hc
      rcases List.mem_append.mp hc with hc | hc
      · rcases List.mem_append.mp hc with hc | hc
        · exact hnp c hc
        · simp at hc
          rw [hc]
          exact hrc1n
      · simp at hc
        rw [hc]
        exact hrc2n
    · rw [if_neg hc2] at hc
      rcases List.mem_append.mp hc with hc | hc
      · exact hnp c hc
      · simp at hc
        rw [hc]
        exact hrc1n
  obtain ⟨out, rng', hrun, hout⟩ := ih _ hnp'len rG
  refine ⟨out, rng', ?_, hout⟩
  have hs8 : ∀ (k : List ℕ → PyM (List (List ℕ))),
      (liftE (repair_chromosome cm1 G s) >>= k) rG = k rc1 rG :=
    fun k => pym_bind_ok _ k rG rG rc1 (liftE_run hrep1 rG)
  have hs9 : ∀ (k : List ℕ → PyM (List (List ℕ))),
      (liftE (repair_chromosome cm2 G s) >>= k) rG = k rc2 rG :=
    fun k => pym_bind_ok _ k rG rG rc2 (liftE_run hrep2 rG)
  simp only [hs8, hs9]
  exact hrun

theorem offspring_loop_spec (G : Graph) (s : ℚ) (pop : List (List ℕ))
    (fs : List ℚ) (ps : ℕ) (mr : ℚ) (ts : ℕ) {n : ℕ} (hn : 1 ≤ n) :
    ∀ (fuel : ℕ) (np : List (List ℕ)), (∀ c ∈ np, c.length = n) →
    ∀ rng, ∃ out rng',
      offspring_loop G s pop fs ps mr ts n fuel np rng = .ok (out, rng') ∧
      ∀ c ∈ out, c.length = n := by
  intro fuel
  induction fuel with
  | zero => intro np hnp rng; exact ⟨np, rng, rfl, hnp⟩
  | succ fuel ih =>
    intro np hnp rng
    by_cases hsz : np.length < ps
    · obtain ⟨p1, rA, ht1, _⟩ := tournament_select_spec pop fs ts rng
      obtain ⟨p2, rB, ht2, _⟩ := tournament_select_spec pop fs ts rA
      obtain ⟨children, rC, hco, hc1len, hc2len⟩ := crossover_spec p1 p2 n rB
      set rD : Rng := ⟨rC.nats, fun i => rC.qs (i + 1)⟩ with hrD
      have hs1 : ∀ (k : List ℕ → PyM (List (List ℕ))),
          (tournament_select pop fs ts >>= k) rng = k p1 rA :=
        fun k => pym_bind_ok _ k rng rA p1 ht1
      have hs2 : ∀ (k : List ℕ → PyM (List (List ℕ))),
          (tournament_select pop fs ts >>= k) rA = k p2 rB :=
        fun k => pym_bind_ok _ k rA rB p2 ht2
      have hs3 : ∀ (k : List ℕ × List ℕ → PyM (List (List ℕ))),
          (crossover p1 p2 n >>= k) rB = k children rC :=
        fun k => pym_bind_ok _ k rB rC children hco
      have hs4 : ∀ (k : ℚ → PyM (List (List ℕ))),
          (randFloat >>= k) rC = k (rC.qs 0) rD :=
        fun k => pym_bind_ok _ k rC rD (rC.qs 0) (randFloat_run rC)
      simp only [offspring_loop]
      rw [if_pos hsz]
      simp only [hs1, hs2, hs3, hs4]
      by_cases hmu1 : rC.qs 0 < mr
      · rw [if_pos hmu1]
        obtain ⟨cm1, rE, hm1run, hm1len⟩ := mutate_spec children.1 n rD
        have hs5 : ∀ (k : List ℕ → PyM (List (List ℕ))),
            (mutate children.1 n >>= k) rD = k cm1 rE :=
          fun k => pym_bind_ok _ k rD rE cm1 hm1run
        set rF : Rng := ⟨rE.nats, fun i => rE.qs (i + 1)⟩ with hrF
        have hs6 : ∀ (k : ℚ → PyM (List (List ℕ))),
            (randFloat >>= k) rE = k (rE.qs 0) rF :=
          fun k => pym_bind_ok _ k rE rF (rE.qs 0) (randFloat_run rE)
        simp only [hs5, hs6]
        by_cases hmu2 : rE.qs 0 < mr
        · rw [if_pos hmu2]
          obtain ⟨cm2, rG, hm2run, hm2len⟩ := mutate_spec children.2 n rF
          have hs7 : ∀ (k : List ℕ → PyM (List (List ℕ))),
              (mutate children.2 n >>= k) rF = k cm2 rG :=
            fun k => pym_bind_ok _ k rF rG cm2 hm2run
          simp only [hs7]
          exact offspring_tail G s pop fs ps mr ts fuel ih np hnp
            (hm1len.trans hc1len) (hm2len.trans hc2len) hn rG
        · rw [if_neg hmu2]
          have hs7 : ∀ (k : List ℕ → PyM (List (List ℕ))),
              ((pure children.2 : PyM (List ℕ)) >>= k) rF =
                k children.2 rF :=
            fun k => pym_bind_ok _ k rF rF children.2 (pym_pure_ok _ _)
          simp only [hs7]
          exact offspring_tail G s pop fs ps mr ts fuel ih np hnp
            (hm1len.trans hc1len) hc2len hn rF
      · rw [if_neg hmu1]
        have hs5 : ∀ (k : List ℕ → PyM (List (List ℕ))),
            ((pure children.1 : PyM (List ℕ)) >>= k) rD = k children.1 rD :=
          fun k => pym_bind_ok _ k rD rD children.1 (pym_pure_ok _ _)
        set rF : Rng := ⟨rD.nats, fun i => rD.qs (i + 1)⟩ with hrF
        have hs6 : ∀ (k : ℚ → PyM (List (List ℕ))),
            (randFloat >>= k) rD = k (rD.qs 0) rF :=
          fun k => pym_bind_ok _ k rD rF (rD.qs 0) (randFloat_run rD)
        simp only [hs5, hs6]
        by_cases hmu2 : rD.qs 0 < mr
        · rw [if_pos hmu2]
          obtain ⟨cm2, rG, hm2run, hm2len⟩ := mutate_spec children.2 n rF
          have hs7 : ∀ (k : List ℕ → PyM (List (List ℕ))),
              (mutate children.2 n >>= k) rF = k cm2 rG :=
            fun k => pym_bind_ok _ k rF rG cm2 hm2run
          simp only [hs7]
          exact offspring_tail G s pop fs ps mr ts fuel ih np hnp
            hc1len (hm2len.trans hc2len) hn rG
        · rw [if_neg hmu2]
          have hs7 : ∀ (k : List ℕ → PyM (List (List ℕ))),
              ((pure children.2 : PyM (List ℕ)) >>= k) rF =
                k children.2 rF :=
            fun k => pym_bind_ok _ k rF rF children.2 (pym_pure_ok _ _)
          simp only [hs7]
          exact offspring_tail G s pop fs ps mr ts fuel ih np hnp
            hc1len hc2len hn rF
    · refine ⟨np, rng, ?_, hnp⟩
      simp only [offspring_loop]
      rw [if_neg hsz]
      rfl

theorem generation_step_spec (G : Graph) (s : ℚ) (ps : ℕ) (mr : ℚ)
    (ts ec : ℕ) {n : ℕ} (hn : 1 ≤ n) {pop : List (List ℕ)}
    {best : Option (List ℕ × ℚ)} (hpop : ∀ c ∈ pop, c.length = n)
    (hbest : ∀ b f, best = some (b, f) → b.length = n) (rng : Rng) :
    ∃ pop' best' rng',
      generation_step G s ps mr ts ec n pop best rng =
        .ok ((pop', best'), rng') ∧
      (∀ c ∈ pop', c.length = n) ∧
      (∀ b f, best' = some (b, f) → b.length = n) := by
  obtain ⟨fs, hfs, hfslen⟩ := fitness_mapM_ok hn G s pop hpop
  have hstepf : ∀ (k : List ℚ → PyM (List (List ℕ) × Option (List ℕ × ℚ))),
      (liftE (pop.mapM fun ind => evaluate_fitness ind G s) >>= k) rng =
        k fs rng :=
    fun k => pym_bind_ok _ k rng rng fs (liftE_run hfs rng)
  have helitelen : ∀ c ∈ ((stableSort (fun x y => y.1 ≤ x.1)
      (fs.zip pop)).take (min ec (stableSort (fun x y => y.1 ≤ x.1)
        (fs.zip pop)).length)).map (fun p => p.2), c.length = n := by
    intro c hc
    rcases List.mem_map.mp hc with ⟨p, hp, hpc⟩
    have hp2 : p ∈ stableSort (fun x y => y.1 ≤ x.1) (fs.zip pop) :=
      List.take_subset _ _ hp
    have hp3 : p ∈ fs.zip pop := (stableSort_perm _ _).mem_iff.mp hp2
    have hp4 : p.2 ∈ pop := (List.of_mem_zip hp3).2
    rw [← hpc]
    exact hpop _ hp4
  obtain ⟨npop, rng', hrun, hnpop⟩ :=
    offspring_loop_spec G s pop fs ps mr ts hn ps _ helitelen rng
  have hstepo : ∀ (k : List (List ℕ) →
      PyM (List (List ℕ) × Option (List ℕ × ℚ))),
      (offspring_loop G s pop fs ps mr ts n ps
        (((stableSort (fun x y => y.1 ≤ x.1) (fs.zip pop)).take
          (min ec (stableSort (fun x y => y.1 ≤ x.1)
            (fs.zip pop)).length)).map (fun p => p.2)) >>= k) rng =
        k npop rng' :=
    fun k => pym_bind_ok _ k rng rng' npop hrun
  refine ⟨npop, track_best pop fs best, rng', ?_, hnpop,
    track_best_len hpop (by omega) hbest⟩
  simp only [generation_step, hstepf, hstepo]
  rfl

theorem gen_loop_spec (G : Graph) (s : ℚ) (ps : ℕ) (mr : ℚ) (ts ec : ℕ)
    {n : ℕ} (hn : 1 ≤ n) :
    ∀ (g : ℕ) (state : List (List ℕ) × Option (List ℕ × ℚ)),
      (∀ c ∈ state.1, c.length = n) →
      (∀ b f, state.2 = some (b, f) → b.length = n) → ∀ rng,
    ∃ state' rng',
      gen_loop G s ps mr ts ec n g state rng = .ok (state', rng') ∧
      (∀ c ∈ state'.1, c.length = n) ∧
      (∀ b f, state'.2 = some (b, f) → b.length = n) := by
  intro g
  induction g with
  | zero => intro state h1 h2 rng; exact ⟨state, rng, rfl, h1, h2⟩
  | succ g ih =>
    intro state h1 h2 rng
    obtain ⟨pop', best', rng1, hrun1, hp', hb'⟩ :=
      generation_step_spec G s ps mr ts ec hn h1 h2 rng
    obtain ⟨state', rng', hrun', hp'', hb''⟩ :=
      ih (pop', best') hp' hb' rng1
    refine ⟨state', rng', ?_, hp'', hb''⟩
    simp only [gen_loop]
    rw [pym_bind_ok _ _ rng rng1 (pop', best') hrun1]
    exact hrun'

theorem mapM_randint_spec (k : ℕ) :
    ∀ (l : List ℕ) (rng : Rng), ∃ out rng',
      ((l.mapM fun _ => randint 0 k) : PyM (List ℕ)) rng = .ok (out, rng') ∧
      out.length = l.length := by
  intro l
  induction l with
  | nil =>
    intro rng
    refine ⟨[], rng, ?_, rfl⟩
    simp only [List.mapM_nil]
    rfl
  | cons x xs ih =>
    intro rng
    obtain ⟨v, rng1, hvrun, _, _⟩ := randint_spec 0 k rng (Nat.zero_le _)
    obtain ⟨out, rng', hrun, hlen⟩ := ih rng1
    refine ⟨v :: out, rng', ?_, by simp [hlen]⟩
    rw [List.mapM_cons]
    rw [pym_bind_ok _ _ rng rng1 v hvrun]
    rw [pym_bind_ok _ _ rng1 rng' out hrun]
    rfl

theorem random_fill_spec (n ps : ℕ) :
    ∀ (fuel : ℕ) (popl : List (List ℕ)), (∀ c ∈ popl, c.length = n) →
    ∀ rng, ∃ out rng', random_fill n ps fuel popl rng = .ok (out, rng') ∧
      ∀ c ∈ out, c.length = n := by
  intro fuel
  induction fuel with
  | zero => intro popl hp rng; exact ⟨popl, rng, rfl, hp⟩
  | succ fuel ih =>
    intro popl hp rng
    by_cases hsz : popl.length < ps
    · set rng1 : Rng := ⟨fun i => rng.nats (i + 1), rng.qs⟩ with hrng1
      set nr := 1 + rng.nats 0 % (n + 1 - 1) with hnr
      have hnrrun : randint 1 n rng = .ok (nr, rng1) := rfl
      obtain ⟨chrom, rng2, hcrun, hclen⟩ := mapM_randint_spec (nr - 1)
        (List.range n) rng1
      obtain ⟨out, rng', hrun, hout⟩ := ih (popl ++ [chrom]) (by
        intro c hc
        rcases List.mem_append.mp hc with hc | hc
        · exact hp c hc
        · simp at hc
          rw [hc, hclen, List.length_range]) rng2
      refine ⟨out, rng', ?_, hout⟩
      simp only [random_fill]
      rw [if_pos hsz]
      rw [pym_bind_ok _ _ rng rng1 nr hnrrun]
      have hstepc : ∀ (k : List ℕ → PyM (List (List ℕ))),
          (((List.range n).mapM fun _ => randint 0 (nr - 1)) >>= k) rng1 =
            k chrom rng2 :=
        fun k => pym_bind_ok _ k rng1 rng2 chrom hcrun
      simp only [hstepc]
      exact hrun
    · refine ⟨popl, rng, ?_, hp⟩
      simp only [random_fill]
      rw [if_neg hsz]
      rfl

theorem initialize_population_len {G : Graph} {s : ℚ} {n ps : ℕ}
    {pop : List (List ℕ)} {rng rng' : Rng}
    (h : initialize_population G s n ps rng = .ok (pop, rng')) :
    ∀ c ∈ pop, c.length = n := by
  simp only [initialize_population] at h
  obtain ⟨greedy, rng1, hg, h2⟩ := pym_bind_inv h
  have hPf : ∀ (a : ℕ) (r r' : Rng) (b : List ℕ),
      (fun _ : ℕ => liftE (create_greedy_chromosome G s n)) a r =
        .ok (b, r') → b.length = n :=
    fun a r r' b hb => create_greedy_len (liftE_inv hb).1
  have hgreedy : ∀ c ∈ greedy, c.length = n :=
    mapM_forall_pym hPf (List.range (ps / 4)) greedy rng rng1 hg
  have hstart : ∀ c ∈ [List.range n] ++ greedy, c.length = n := by
    intro c hc
    rcases List.mem_append.mp hc with hc | hc
    · simp at hc
      rw [hc, List.length_range]
    · exact hgreedy c hc
  obtain ⟨out, rng'', hrun, hout⟩ :=
    random_fill_spec n ps ps ([List.range n] ++ greedy) hstart rng1
  rw [hrun] at h2
  injection h2 with h2
  injection h2 with hpop _
  rw [← hpop]
  exact hout

/-- Whenever the genetic solver returns normally, the returned assignment
covers every student (length `N`) and the returned room count equals its
number of distinct room ids. -/
theorem genetic_ok_props (G : Graph) (s : ℚ) (ps gens : ℕ) (mr : ℚ)
    (ts ec : ℕ) (hn : 1 ≤ G.n) {rng rng' : Rng} {asg : List ℕ} {k : ℕ}
    (h : genetic_algorithm G s ps gens mr ts ec rng = .ok ((asg, k), rng')) :
    asg.length = G.n ∧ k = countDistinct asg := by
  simp only [genetic_algorithm] at h
  obtain ⟨pop, rng1, hinit, h⟩ := pym_bind_inv h
  have hpop : ∀ c ∈ pop, c.length = G.n := initialize_population_len hinit
  obtain ⟨state, rng2, hloop, h⟩ := pym_bind_inv h
  obtain ⟨state', rng2', hloop', hp', hb'⟩ :=
    gen_loop_spec G s ps mr ts ec hn gens (pop, none) hpop (by simp) rng1
  rw [hloop'] at hloop
  injection hloop with hloop
  injection hloop with hst hrng2
  rw [hst] at hp' hb'
  obtain ⟨fs, hfse, hfslen⟩ := fitness_mapM_ok hn G s state.1 hp'
  have hstepf : ∀ (kk : List ℚ → PyM (List ℕ × ℕ)),
      (liftE (state.1.mapM fun ind => evaluate_fitness ind G s) >>= kk)
        rng2 = kk fs rng2 :=
    fun kk => pym_bind_ok _ kk rng2 rng2 fs (liftE_run hfse rng2)
  simp only [hstepf] at h
  have hbestlen : ∀ b f, track_best state.1 fs state.2 = some (b, f) →
      b.length = G.n :=
    track_best_len hp' (by omega) hb'
  cases hbest : track_best state.1 fs state.2 with
  | none =>
    simp only [hbest] at h
    exact absurd h (by simp [liftE])
  | some p =>
    obtain ⟨bi, bf⟩ := p
    have hbilen : bi.length = G.n := hbestlen bi bf hbest
    simp only [hbest] at h
    have hbine : bi ≠ [] := by
      intro hc
      rw [hc] at hbilen
      simp at hbilen
      omega
    have hkbi : countDistinct bi ≠ 0 := by
      have := countDistinct_pos hbine
      omega
    obtain ⟨b, hb⟩ := @is_valid_ok (chromosome_to_dict bi) G s
      (countDistinct bi) hkbi
    have hstepv : ∀ (kk : Bool → PyM (List ℕ × ℕ)),
        (liftE (is_valid_solution (chromosome_to_dict bi) G s
          (countDistinct bi)) >>= kk) rng2 = kk b rng2 :=
      fun kk => pym_bind_ok _ kk rng2 rng2 b (liftE_run hb rng2)
    simp only [hstepv] at h
    cases b with
    | true =>
      rw [if_pos rfl] at h
      obtain ⟨hpair, _⟩ := pym_pure_inv h
      injection hpair with hasg hk
      constructor
      · rw [hasg]
        exact hbilen
      · rw [hk, hasg]
        rfl
    | false =>
      rw [if_neg (by simp)] at h
      obtain ⟨hpair, _⟩ := pym_pure_inv h
      injection hpair with hasg hk
      constructor
      · rw [hasg, List.length_range]
      · rw [hk, hasg, countDistinct_range]

/-! ## C3, C4, C10: solver postconditions -/

/-- C3 (amended): `greedy_local_search` and `simulated_annealing` always
return a pair `(assignment, room_count)` whose assignment covers every node
`0..N-1` exactly once (a length-`N` positional map) and whose `room_count`
equals the number of distinct room ids in the assignment;
`genetic_algorithm` satisfies the same postcondition whenever it returns
normally (on some preconditioned inputs it raises `NameError` instead of
returning — see the counterexample). -/
theorem c3_solvers_return_coherent_pairs (G : Graph) (s : ℚ)
    (expf : ℚ → Option ℚ) (hsym : ∀ i j, G.st i j = G.st j i) (hs : 0 < s)
    (hn : 1 ≤ G.n) :
    (∀ (m : ℕ) (rng : Rng), ∃ asg k rng',
      greedy_local_search G s m rng = .ok ((asg, k), rng') ∧
      asg.length = G.n ∧ k = countDistinct asg) ∧
    (∀ rng : Rng, ∃ asg k rng',
      simulated_annealing G s expf rng = .ok ((asg, k), rng') ∧
      asg.length = G.n ∧ k = countDistinct asg) ∧
    (∀ (ps gens : ℕ) (mr : ℚ) (ts ec : ℕ) (rng rng' : Rng) (asg : List ℕ)
      (k : ℕ), genetic_algorithm G s ps gens mr ts ec rng =
        .ok ((asg, k), rng') →
      asg.length = G.n ∧ k = countDistinct asg) := by
  refine ⟨?_, ?_, ?_⟩
  · intro m rng
    obtain ⟨asg, k, rng', hrun, hlen, _, _, hk⟩ :=
      greedy_local_search_spec G s hsym hs hn m rng
    exact ⟨asg, k, rng', hrun, hlen, hk⟩
  · intro rng
    obtain ⟨asg, k, rng', hrun, hlen, _, _, hk⟩ :=
      simulated_annealing_spec G s expf hsym hs hn rng
    exact ⟨asg, k, rng', hrun, hlen, hk⟩
  · intro ps gens mr ts ec rng rng' asg k h
    exact genetic_ok_props G s ps gens mr ts ec hn h

section EvalScratchC3
attribute [local semireducible] Rat.add Rat.mul Rat.sub Rat.inv

/-- Counterexample to C3 as frozen: on the preconditioned two-student
scenario (happiness 10, stress 1, budget 5), `genetic_algorithm` with its
default parameters and this seed raises `NameError` instead of returning a
pair at all. -/
theorem c3_counterexample_genetic_crashes :
    genetic_algorithm ⟨2, fun _ _ => 10, fun _ _ => 1⟩ 5 50 200 (1 / 10) 3 2
      ⟨fun _ => 0, fun _ => 0⟩ = .error .nameError := by
  rfl

/-- Witness for the amended C3 at the two-student scenario. -/
theorem c3_solvers_return_coherent_pairs_witness :
    (∀ i j, Graph.st ⟨2, fun _ _ => 10, fun _ _ => 1⟩ i j =
      Graph.st ⟨2, fun _ _ => 10, fun _ _ => 1⟩ j i) ∧ (0 : ℚ) < 5 ∧
    1 ≤ Graph.n ⟨2, fun _ _ => 10, fun _ _ => 1⟩ ∧
    ((∀ (m : ℕ) (rng : Rng), ∃ asg k rng',
      greedy_local_search ⟨2, fun _ _ => 10, fun _ _ => 1⟩ 5 m rng =
        .ok ((asg, k), rng') ∧
      asg.length = Graph.n ⟨2, fun _ _ => 10, fun _ _ => 1⟩ ∧
        k = countDistinct asg) ∧
    (∀ rng : Rng, ∃ asg k rng',
      simulated_annealing ⟨2, fun _ _ => 10, fun _ _ => 1⟩ 5 (fun _ => none)
        rng = .ok ((asg, k), rng') ∧
      asg.length = Graph.n ⟨2, fun _ _ => 10, fun _ _ => 1⟩ ∧
        k = countDistinct asg) ∧
    (∀ (ps gens : ℕ) (mr : ℚ) (ts ec : ℕ) (rng rng' : Rng) (asg : List ℕ)
      (k : ℕ), genetic_algorithm ⟨2, fun _ _ => 10, fun _ _ => 1⟩ 5 ps gens
        mr ts ec rng = .ok ((asg, k), rng') →
      asg.length = Graph.n ⟨2, fun _ _ => 10, fun _ _ => 1⟩ ∧
        k = countDistinct asg)) :=
  ⟨fun _ _ => rfl, by norm_num, by decide,
    c3_solvers_return_coherent_pairs ⟨2, fun _ _ => 10, fun _ _ => 1⟩ 5
      (fun _ => none) (fun _ _ => rfl) (by norm_num) (by decide)⟩

end EvalScratchC3

/-- C4 (amended): the greedy solver and the annealer always return an
assignment whose room ids are exactly `0..k-1` for the returned room count
`k`; the genetic solver can return non-contiguous ids (see the
counterexample: a random-initialization chromosome is tracked as best and
returned without renumbering). -/
theorem c4_greedy_sa_contiguous (G : Graph) (s : ℚ) (expf : ℚ → Option ℚ)
    (hsym : ∀ i j, G.st i j = G.st j i) (hs : 0 < s) (hn : 1 ≤ G.n) :
    (∀ (m : ℕ) (rng : Rng), ∃ asg k rng',
      greedy_local_search G s m rng = .ok ((asg, k), rng') ∧
      ∀ r, r ∈ asg ↔ r < k) ∧
    (∀ rng : Rng, ∃ asg k rng',
      simulated_annealing G s expf rng = .ok ((asg, k), rng') ∧
      ∀ r, r ∈ asg ↔ r < k) := by
  constructor
  · intro m rng
    obtain ⟨asg, k, rng', hrun, _, hcontig, _, hk⟩ :=
      greedy_local_search_spec G s hsym hs hn m rng
    refine ⟨asg, k, rng', hrun, ?_⟩
    intro r
    rw [hk]
    exact hcontig r
  · intro rng
    obtain ⟨asg, k, rng', hrun, _, hcontig, _, hk⟩ :=
      simulated_annealing_spec G s expf hsym hs hn rng
    refine ⟨asg, k, rng', hrun, ?_⟩
    intro r
    rw [hk]
    exact hcontig r

section EvalScratchC4
attribute [local semireducible] Rat.add Rat.mul Rat.sub Rat.inv
set_option maxRecDepth 10000

/-- Counterexample to C4 as frozen: on a preconditioned two-student input
(happiness 10, stress 1, budget 5 with 0 < 5 < 100), `genetic_algorithm`
with population size 2 and its default 200 generations returns the
assignment `{0 ↦ 1, 1 ↦ 1}` with room count 1 — the single room keeps the
id 1, not the contiguous range `0..0`: the random-initialization chromosome
is returned without renumbering. -/
theorem c4_counterexample_genetic_noncontiguous :
    (0 : ℚ) < 5 ∧ (5 : ℚ) < 100 ∧
    ∃ rng', genetic_algorithm ⟨2, fun _ _ => 10, fun _ _ => 1⟩ 5 2 200
      (1 / 10) 3 2 ⟨fun _ => 1, fun _ => 0⟩ = .ok (([1, 1], 1), rng') ∧
    ¬ (∀ r, r ∈ ([1, 1] : List ℕ) ↔ r < 1) := by
  refine ⟨by norm_num, by norm_num, _, rfl, ?_⟩
  intro hc
  exact absurd ((hc 1).mp (by decide)) (by decide)

/-- Witness for the amended C4 at the two-student scenario. -/
theorem c4_greedy_sa_contiguous_witness :
    (∀ i j, Graph.st ⟨2, fun _ _ => 10, fun _ _ => 1⟩ i j =
      Graph.st ⟨2, fun _ _ => 10, fun _ _ => 1⟩ j i) ∧ (0 : ℚ) < 5 ∧
    1 ≤ Graph.n ⟨2, fun _ _ => 10, fun _ _ => 1⟩ ∧
    ((∀ (m : ℕ) (rng : Rng), ∃ asg k rng',
      greedy_local_search ⟨2, fun _ _ => 10, fun _ _ => 1⟩ 5 m rng =
        .ok ((asg, k), rng') ∧ ∀ r, r ∈ asg ↔ r < k) ∧
    (∀ rng : Rng, ∃ asg k rng',
      simulated_annealing ⟨2, fun _ _ => 10, fun _ _ => 1⟩ 5 (fun _ => none)
        rng = .ok ((asg, k), rng') ∧ ∀ r, r ∈ asg ↔ r < k)) :=
  ⟨fun _ _ => rfl, by norm_num, by decide,
    c4_greedy_sa_contiguous ⟨2, fun _ _ => 10, fun _ _ => 1⟩ 5
      (fun _ => none) (fun _ _ => rfl) (by norm_num) (by decide)⟩

end EvalScratchC4

/-- C10: for every symmetric preconditioned input and every random seed,
`greedy_local_search` and `simulated_annealing` return without error and
their returned assignment passes the validity check at the returned room
count: the initial best is the always-valid greedy construction, and the
tracked best is only ever replaced by candidates that passed the validity
check. -/
theorem c10_greedy_sa_always_valid (G : Graph) (s : ℚ)
    (expf : ℚ → Option ℚ) (hsym : ∀ i j, G.st i j = G.st j i) (hs : 0 < s)
    (hn : 1 ≤ G.n) :
    (∀ (m : ℕ) (rng : Rng), ∃ asg k rng',
      greedy_local_search G s m rng = .ok ((asg, k), rng') ∧
      is_valid_solution asg G s k = .ok true) ∧
    (∀ rng : Rng, ∃ asg k rng',
      simulated_annealing G s expf rng = .ok ((asg, k), rng') ∧
      is_valid_solution asg G s k = .ok true) := by
  constructor
  · intro m rng
    obtain ⟨asg, k, rng', hrun, _, _, hvalid, hk⟩ :=
      greedy_local_search_spec G s hsym hs hn m rng
    refine ⟨asg, k, rng', hrun, ?_⟩
    rw [hk]
    exact hvalid
  · intro rng
    obtain ⟨asg, k, rng', hrun, _, _, hvalid, hk⟩ :=
      simulated_annealing_spec G s expf hsym hs hn rng
    refine ⟨asg, k, rng', hrun, ?_⟩
    rw [hk]
    exact hvalid

/-- Witness for C10 at the two-student scenario. -/
theorem c10_greedy_sa_always_valid_witness :
    (∀ i j, Graph.st ⟨2, fun _ _ => 10, fun _ _ => 1⟩ i j =
      Graph.st ⟨2, fun _ _ => 10, fun _ _ => 1⟩ j i) ∧ (0 : ℚ) < 5 ∧
    1 ≤ Graph.n ⟨2, fun _ _ => 10, fun _ _ => 1⟩ ∧
    ((∀ (m : ℕ) (rng : Rng), ∃ asg k rng',
      greedy_local_search ⟨2, fun _ _ => 10, fun _ _ => 1⟩ 5 m rng =
        .ok ((asg, k), rng') ∧
      is_valid_solution asg ⟨2, fun _ _ => 10, fun _ _ => 1⟩ 5 k =
        .ok true) ∧
    (∀ rng : Rng, ∃ asg k rng',
      simulated_annealing ⟨2, fun _ _ => 10, fun _ _ => 1⟩ 5 (fun _ => none)
        rng = .ok ((asg, k), rng') ∧
      is_valid_solution asg ⟨2, fun _ _ => 10, fun _ _ => 1⟩ 5 k =
        .ok true)) :=
  ⟨fun _ _ => rfl, by norm_num, by decide,
    c10_greedy_sa_always_valid ⟨2, fun _ _ => 10, fun _ _ => 1⟩ 5
      (fun _ => none) (fun _ _ => rfl) (by norm_num) (by decide)⟩
